import Mathlib

/-! # pdf-freezer: a verification development

A shallow embedding of the core of `pdf-freezer` (sequence counter, rasterizer adapter,
PDF reassembler, pipeline orchestrator) together with theorems about it.

Conventions of the embedding.

* Go `string` values are `List Char`; Go `int` is the 64-bit two's-complement integer,
  represented by an `Int` that `wrapInt` keeps inside `[minInt, maxInt]`.
* Go `error` values are `Option GoError` (`none` is `nil`); functions returning
  `(T, error)` return `Except GoError T`.
* The file system and the external processes are explicit state: every function of the
  program that touches them takes the state as an argument and returns the new one.
-/

namespace PdfFreezer

/-! ## Go runtime: `int`, `strconv`, `fmt` -/

/-- A Go `error`: its message. -/
abbrev GoError := List Char

deriving instance DecidableEq for Except

/-- The largest Go `int` (64-bit platforms). -/
def maxInt : Int := 9223372036854775807

/-- The smallest Go `int` (64-bit platforms). -/
def minInt : Int := -9223372036854775808

/-- Two's-complement wrap-around of an integer result into the range of Go `int`. -/
def wrapInt (x : Int) : Int := (x + 9223372036854775808) % 18446744073709551616 - 9223372036854775808

/-- The decimal digit character of `d` (for `d < 10`). -/
def digitChar (d : Nat) : Char := Char.ofNat (48 + d)

/-- The value of a decimal digit character. -/
def digitVal (c : Char) : Nat := c.toNat - 48

/-- Whether `c` is one of `'0'..'9'`. -/
def isDecDigit (c : Char) : Bool := decide (48 ≤ c.toNat) && decide (c.toNat ≤ 57)

/-- Worker of `natDigits`: most significant digit first, `fuel` bounds the digit count. -/
def natDigitsAux : Nat → Nat → List Char → List Char
  | 0, _, acc => acc
  | fuel + 1, n, acc =>
    if n < 10 then digitChar n :: acc
    else natDigitsAux fuel (n / 10) (digitChar (n % 10) :: acc)

/-- Decimal digits of a natural number, as `strconv.FormatUint(n, 10)` prints them. -/
def natDigits (n : Nat) : List Char := natDigitsAux (n + 1) n []

/-- The text `strconv.FormatInt(i, 10)` / the verb `%d` produce for `i`. -/
def formatInt (i : Int) : List Char :=
  if i < 0 then '-' :: natDigits i.natAbs else natDigits i.natAbs

/-- The natural number a string of decimal digits denotes. -/
def parseNat (cs : List Char) : Nat := cs.foldl (fun a c => a * 10 + digitVal c) 0

/-- An optional sign at the head of the input (`+` only where `plus` allows it): the sign
text and the input after it. -/
def takeSign (plus : Bool) : List Char → List Char × List Char
  | [] => ([], [])
  | c :: r =>
    if c = '-' then (['-'], r)
    else if c = '+' ∧ plus = true then (['+'], r)
    else ([], c :: r)

/-- The integer a sign followed by decimal digits denotes. -/
def signedValue (s : List Char) : Int :=
  if (takeSign true s).1 = ['-'] then -(parseNat (takeSign true s).2 : Int)
  else (parseNat (takeSign true s).2 : Int)

/-- The function `strconv.ParseInt(s, 10, 64)`: an optional sign, at least one decimal digit,
nothing else, and a value inside the range of `int64`; `none` is the error result. -/
def parseInt (s : List Char) : Option Int :=
  if (takeSign true s).2 = [] ∨ (takeSign true s).2.all isDecDigit = false then none
  else if minInt ≤ signedValue s ∧ signedValue s ≤ maxInt then some (signedValue s)
  else none

/-- The text of `fmt.Sprintf("%04d", n)`: width 4, padded with zeros after the sign. -/
def sprintf04d (n : Int) : List Char :=
  if n < 0 then '-' :: (List.replicate (3 - (natDigits n.natAbs).length) '0' ++ natDigits n.natAbs)
  else List.replicate (4 - (natDigits n.natAbs).length) '0' ++ natDigits n.natAbs

/-! ## `encoding/json`, as far as `CounterState` needs it -/

/-- A parsed JSON text. Numbers keep their literal, strings are unquoted. -/
inductive JVal where
  | null : JVal
  | bool (b : Bool) : JVal
  | num (lit : List Char) : JVal
  | str (s : List Char) : JVal
  | arr (items : List JVal) : JVal
  | obj (members : List (List Char × JVal)) : JVal

/-- JSON insignificant whitespace. -/
def isJsonSpace (c : Char) : Bool := c == ' ' || c == '\t' || c == '\r' || c == '\n'

/-- Drop leading JSON whitespace. -/
def skipWs : List Char → List Char
  | [] => []
  | c :: cs => if isJsonSpace c then skipWs cs else c :: cs

/-- Value of a hexadecimal digit, if it is one. -/
def hexVal (c : Char) : Option Nat :=
  if isDecDigit c then some (c.toNat - 48)
  else if 97 ≤ c.toNat ∧ c.toNat ≤ 102 then some (c.toNat - 87)
  else if 65 ≤ c.toNat ∧ c.toNat ≤ 70 then some (c.toNat - 55)
  else none

/-- The body of a JSON string literal after its opening quote: the unquoted text and the input
after the closing quote. Control characters and unknown escapes are syntax errors. A `\u`
escape yields the character with that code (a surrogate half yields U+FFFD). -/
def parseString : List Char → List Char → Option (List Char × List Char)
  | [], _ => none
  | '"' :: rest, acc => some (acc.reverse, rest)
  | '\\' :: 'u' :: a :: b :: c :: d :: rest, acc =>
    match hexVal a, hexVal b, hexVal c, hexVal d with
    | some x, some y, some z, some w =>
      let code := ((x * 16 + y) * 16 + z) * 16 + w
      let ch := if 0xD800 ≤ code ∧ code ≤ 0xDFFF then Char.ofNat 0xFFFD else Char.ofNat code
      parseString rest (ch :: acc)
    | _, _, _, _ => none
  | '\\' :: e :: rest, acc =>
    if e = '"' then parseString rest ('"' :: acc)
    else if e = '\\' then parseString rest ('\\' :: acc)
    else if e = '/' then parseString rest ('/' :: acc)
    else if e = 'b' then parseString rest (Char.ofNat 8 :: acc)
    else if e = 'f' then parseString rest (Char.ofNat 12 :: acc)
    else if e = 'n' then parseString rest ('\n' :: acc)
    else if e = 'r' then parseString rest ('\r' :: acc)
    else if e = 't' then parseString rest ('\t' :: acc)
    else none
  | '\\' :: [], _ => none
  | c :: rest, acc => if c.toNat < 32 then none else parseString rest (c :: acc)

/-- The digits an optional exponent part consumes, with the input after it. -/
def scanExp : List Char → Option (List Char × List Char)
  | [] => some ([], [])
  | e :: r =>
    if e = 'e' ∨ e = 'E' then
      if ((takeSign true r).2.span isDecDigit).1 = [] then none
      else some (e :: ((takeSign true r).1 ++ ((takeSign true r).2.span isDecDigit).1),
        ((takeSign true r).2.span isDecDigit).2)
    else some ([], e :: r)

/-- The optional fraction and exponent parts of a number literal. -/
def scanFracExp : List Char → Option (List Char × List Char)
  | [] => some ([], [])
  | c :: r =>
    if c = '.' then
      if (r.span isDecDigit).1 = [] then none
      else (scanExp (r.span isDecDigit).2).map
        (fun p => ('.' :: ((r.span isDecDigit).1 ++ p.1), p.2))
    else scanExp (c :: r)

/-- The integer part of a number literal: `0`, or a non-zero digit followed by digits. -/
def scanIntPart : List Char → Option (List Char × List Char)
  | [] => none
  | c :: r =>
    if c = '0' then some (['0'], r)
    else if isDecDigit c then some (c :: (r.span isDecDigit).1, (r.span isDecDigit).2)
    else none

/-- A JSON number literal at the head of the input: its text and the input after it. -/
def scanNumber (cs : List Char) : Option (List Char × List Char) :=
  match scanIntPart (takeSign false cs).2 with
  | none => none
  | some (ip, r1) =>
    match scanFracExp r1 with
    | none => none
    | some (fe, r2) => some ((takeSign false cs).1 ++ ip ++ fe, r2)

/-- Strip a fixed literal from the head of the input. -/
def stripLit : List Char → List Char → Option (List Char)
  | [], cs => some cs
  | _ :: _, [] => none
  | l :: ls, c :: cs => if l = c then stripLit ls cs else none

/-- Nesting limit of the decoder (`maxNestingDepth`). -/
def maxNestingDepth : Nat := 10000

mutual
/-- One JSON value at the head of the input (leading whitespace already skipped). -/
def parseValue : Nat → Nat → List Char → Option (JVal × List Char)
  | 0, _, _ => none
  | _ + 1, _, [] => none
  | fuel + 1, depth, c :: cs =>
    if c = '{' then
      if depth + 1 > maxNestingDepth then none
      else
        match skipWs cs with
        | '}' :: rest => some (JVal.obj [], rest)
        | rest => (parseMembers fuel (depth + 1) rest []).map (fun p => (JVal.obj p.1, p.2))
    else if c = '[' then
      if depth + 1 > maxNestingDepth then none
      else
        match skipWs cs with
        | ']' :: rest => some (JVal.arr [], rest)
        | rest => (parseElems fuel (depth + 1) rest []).map (fun p => (JVal.arr p.1, p.2))
    else if c = '"' then (parseString cs []).map (fun p => (JVal.str p.1, p.2))
    else if c = 't' then (stripLit ['r', 'u', 'e'] cs).map (fun r => (JVal.bool true, r))
    else if c = 'f' then (stripLit ['a', 'l', 's', 'e'] cs).map (fun r => (JVal.bool false, r))
    else if c = 'n' then (stripLit ['u', 'l', 'l'] cs).map (fun r => (JVal.null, r))
    else (scanNumber (c :: cs)).map (fun p => (JVal.num p.1, p.2))
/-- The members of an object after `{` or `,` (whitespace skipped), up to the closing `}`. -/
def parseMembers : Nat → Nat → List Char → List (List Char × JVal) →
    Option (List (List Char × JVal) × List Char)
  | 0, _, _, _ => none
  | fuel + 1, depth, cs, acc =>
    match cs with
    | '"' :: r0 =>
      match parseString r0 [] with
      | none => none
      | some (key, r1) =>
        match skipWs r1 with
        | ':' :: r2 =>
          match parseValue fuel depth (skipWs r2) with
          | none => none
          | some (v, r3) =>
            match skipWs r3 with
            | ',' :: r4 => parseMembers fuel depth (skipWs r4) ((key, v) :: acc)
            | '}' :: r4 => some (((key, v) :: acc).reverse, r4)
            | _ => none
        | _ => none
    | _ => none
/-- The elements of an array after `[` or `,` (whitespace skipped), up to the closing `]`. -/
def parseElems : Nat → Nat → List Char → List JVal → Option (List JVal × List Char)
  | 0, _, _, _ => none
  | fuel + 1, depth, cs, acc =>
    match parseValue fuel depth cs with
    | none => none
    | some (v, r1) =>
      match skipWs r1 with
      | ',' :: r2 => parseElems fuel depth (skipWs r2) (v :: acc)
      | ']' :: r2 => some ((v :: acc).reverse, r2)
      | _ => none
end

/-- A complete JSON text: one value surrounded by whitespace (`checkValid`). -/
def parseJson (text : List Char) : Option JVal :=
  match parseValue (text.length + 1) 0 (skipWs text) with
  | none => none
  | some (v, rest) => if skipWs rest = [] then some v else none

/-- ASCII upper-casing, the only case folding that can make a key equal to `current`. -/
def foldChar (c : Char) : Char :=
  if 97 ≤ c.toNat ∧ c.toNat ≤ 122 then Char.ofNat (c.toNat - 32) else c

/-- Whether an object key selects the field tagged `json:"current"` (exact or case-folded). -/
def keyIsCurrent (key : List Char) : Bool :=
  key.map foldChar == ['C', 'U', 'R', 'R', 'E', 'N', 'T']

/-- The persisted state (`CounterState`). -/
structure CounterState where
  Current : Int
deriving DecidableEq, Repr

/-- The message of the `UnmarshalTypeError` for a JSON value that does not fit. -/
def unmarshalTypeError (what : List Char) : GoError :=
  "json: cannot unmarshal ".toList ++ what

/-- Store one JSON value into the `int` field `Current`: `null` is ignored, an integer literal
inside the range of `int` is stored, everything else is an `UnmarshalTypeError`. -/
def storeCurrent (st : CounterState) (v : JVal) : Except GoError CounterState :=
  match v with
  | JVal.null => .ok st
  | JVal.num lit =>
    match parseInt lit with
    | some n => .ok { Current := n }
    | none => .error (unmarshalTypeError ("number ".toList ++ lit))
  | JVal.bool _ => .error (unmarshalTypeError "bool".toList)
  | JVal.str _ => .error (unmarshalTypeError "string".toList)
  | JVal.arr _ => .error (unmarshalTypeError "array".toList)
  | JVal.obj _ => .error (unmarshalTypeError "object".toList)

/-- Decode the members of the top-level object in order; the decoder keeps going after a type
error and reports the first one at the end. -/
def decodeMembers : List (List Char × JVal) → CounterState → Option GoError →
    Except GoError CounterState
  | [], st, none => .ok st
  | [], _, some e => .error e
  | (key, v) :: rest, st, saved =>
    if keyIsCurrent key then
      match storeCurrent st v with
      | .ok st1 => decodeMembers rest st1 saved
      | .error e => decodeMembers rest st (saved.orElse (fun _ => some e))
    else decodeMembers rest st saved

/-- The call `json.Unmarshal(data, &state)` for a zero `state CounterState`: a syntax error
for a text that is not JSON, a type error for a top-level value other than an object or
`null`, the decoded members otherwise. Which input is rejected follows the library; the
wording of its error messages is not reproduced. -/
def jsonUnmarshal (data : List Char) : Except GoError CounterState :=
  match parseJson data with
  | none => .error "invalid JSON input".toList
  | some JVal.null => .ok { Current := 0 }
  | some (JVal.obj members) => decodeMembers members { Current := 0 } none
  | some (JVal.bool _) => .error (unmarshalTypeError "bool".toList)
  | some (JVal.num _) => .error (unmarshalTypeError "number".toList)
  | some (JVal.str _) => .error (unmarshalTypeError "string".toList)
  | some (JVal.arr _) => .error (unmarshalTypeError "array".toList)

/-- The call `json.MarshalIndent(state, "", "  ")`; it cannot fail for a `CounterState`. -/
def jsonMarshalIndent (state : CounterState) : List Char :=
  "\x7b\n  \"current\": ".toList ++ formatInt state.Current ++ "\n\x7d".toList

/-! ## `internal/counter` -/

/-- The files of the counter in the application's config directory, and how the operating
system answers on them. `stateFile`: the content of `counter.json`, `none` when it does not
exist. `readFault`: an error `os.ReadFile` reports on an existing file. `writeFault`: the error
`os.WriteFile` reports; a failed write leaves the file as it was. `lockFile`: whether
`counter.lock` exists. `lockFault`: an error other than "exists" / "not exists" that creating or
removing the lock file reports. -/
structure Disk where
  stateFile : Option (List Char)
  readFault : Option GoError
  writeFault : Option GoError
  lockFile : Bool
  lockFault : Option GoError
deriving DecidableEq

/-- The in-memory part of `counter.Manager` (the paths are fixed, the mutex has no state
between calls). -/
structure Manager where
  locked : Bool
deriving DecidableEq

/-- The constructor `NewManager` on an existing config directory. -/
def NewManager : Manager := { locked := false }

/-- The method `Manager.loadState`. -/
def loadState (d : Disk) : Except GoError CounterState :=
  match d.stateFile with
  | none => .ok { Current := 0 }
  | some data =>
    match d.readFault with
    | some err => .error err
    | none =>
      match jsonUnmarshal data with
      | .error err => .error err
      | .ok state => .ok state

/-- The method `Manager.saveState`: the error of `os.WriteFile` and the disk afterwards. -/
def saveState (d : Disk) (state : CounterState) : Option GoError × Disk :=
  let data := jsonMarshalIndent state
  match d.writeFault with
  | some err => (some err, d)
  | none => (none, { d with stateFile := some data })

/-- The method `Manager.GetCurrent`. -/
def GetCurrent (_m : Manager) (d : Disk) : Except GoError Int :=
  match loadState d with
  | .error err => .error err
  | .ok state => .ok state.Current

/-- The method `Manager.GetNext`: load, increment, save; the result and the disk afterwards. -/
def GetNext (_m : Manager) (d : Disk) : Except GoError Int × Disk :=
  match loadState d with
  | .error err => (.error err, d)
  | .ok state =>
    let state1 : CounterState := { Current := wrapInt (state.Current + 1) }
    match saveState d state1 with
    | (some err, d1) => (.error err, d1)
    | (none, d1) => (.ok state1.Current, d1)

/-- The method `Manager.SetOverride`. -/
def SetOverride (_m : Manager) (d : Disk) (val : Int) : Option GoError × Disk :=
  saveState d { Current := val }

/-- The method `Manager.Lock`. -/
def Lock (m : Manager) (d : Disk) : Option GoError × Manager × Disk :=
  if m.locked then (some "already locked by this instance".toList, m, d)
  else if d.lockFile then
    (some "counter is locked by another instance or process".toList, m, d)
  else
    match d.lockFault with
    | some err => (some err, m, d)
    | none => (none, { m with locked := true }, { d with lockFile := true })

/-- The method `Manager.Unlock`. -/
def Unlock (m : Manager) (d : Disk) : Option GoError × Manager × Disk :=
  if ¬ m.locked then (none, m, d)
  else if ¬ d.lockFile then
    (some "failed to remove lock file: file does not exist".toList, m, d)
  else
    match d.lockFault with
    | some err => (some ("failed to remove lock file: ".toList ++ err), m, d)
    | none => (none, { m with locked := false }, { d with lockFile := false })

/-- The method `Manager.ForceUnlock`. -/
def ForceUnlock (m : Manager) (d : Disk) : Option GoError × Manager × Disk :=
  if ¬ d.lockFile then (none, { m with locked := false }, d)
  else
    match d.lockFault with
    | some err => (some err, m, d)
    | none => (none, { m with locked := false }, { d with lockFile := false })

/-- Run `GetNext` once for every manager of the list, each call on the disk the previous one
left (the same manager again, or one freshly constructed after a restart); stop at the first
failure. The values returned by the calls that succeeded, in order, and the final disk. -/
def getNextSeq : List Manager → Disk → List Int × Disk
  | [], d => ([], d)
  | m :: ms, d =>
    match GetNext m d with
    | (.error _, d1) => ([], d1)
    | (.ok v, d1) => (v :: (getNextSeq ms d1).1, (getNextSeq ms d1).2)

/-! ## `path/filepath` and `strings` (Unix separator) -/

/-- The elements of a path between its separators (`strings.Split(path, "/")`). -/
def splitSlash : List Char → List (List Char)
  | [] => [[]]
  | c :: cs =>
    if c = '/' then [] :: splitSlash cs
    else
      match splitSlash cs with
      | [] => [[c]]
      | h :: t => (c :: h) :: t

/-- One step of the loop of `filepath.Clean` on the elements written so far (last one first):
empty elements and `.` are dropped, `..` removes the last real element, and is kept where
there is none to remove and the path is not rooted. -/
def cleanStep (rooted : Bool) (stack : List (List Char)) (elem : List Char) : List (List Char) :=
  if elem = [] ∨ elem = ['.'] then stack
  else if elem = ['.', '.'] then
    match stack with
    | [] => if rooted then [] else [['.', '.']]
    | top :: rest => if top = ['.', '.'] then ['.', '.'] :: top :: rest else rest
  else elem :: stack

/-- Join path elements with the separator (`strings.Join(elems, "/")`). -/
def joinSlash : List (List Char) → List Char
  | [] => []
  | [e] => e
  | e :: f :: rest => e ++ '/' :: joinSlash (f :: rest)

/-- The function `filepath.Clean`. -/
def filepathClean (path : List Char) : List Char :=
  match path with
  | [] => ['.']
  | c :: _ =>
    let rooted : Bool := c = '/'
    let body := joinSlash ((splitSlash path).foldl (cleanStep rooted) []).reverse
    if rooted then '/' :: body
    else if body = [] then ['.'] else body

/-- The call `filepath.Join(dir, name)`. -/
def filepathJoin (dir name : List Char) : List Char :=
  if dir ≠ [] then filepathClean (dir ++ '/' :: name)
  else if name ≠ [] then filepathClean name
  else []

/-- Remove the trailing separators of a path. -/
def stripTrailingSlashes (path : List Char) : List Char :=
  (path.reverse.dropWhile (fun c => c == '/')).reverse

/-- The text after the last separator of a path. -/
def lastElement (path : List Char) : List Char :=
  (path.reverse.takeWhile (fun c => c != '/')).reverse

/-- The function `filepath.Base`. -/
def filepathBase (path : List Char) : List Char :=
  if path = [] then ['.']
  else if lastElement (stripTrailingSlashes path) = [] then ['/']
  else lastElement (stripTrailingSlashes path)

/-- The part of a path up to and including its last separator. -/
def dirPart (path : List Char) : List Char :=
  (path.reverse.dropWhile (fun c => c != '/')).reverse

/-- The function `filepath.Dir`. -/
def filepathDir (path : List Char) : List Char := filepathClean (dirPart path)

/-- The function `filepath.Ext`: the text from the last dot of the last path element on,
empty when that element has no dot. -/
def filepathExt (path : List Char) : List Char :=
  if '.' ∈ path.reverse.takeWhile (fun c => c != '/') then
    (((path.reverse.takeWhile (fun c => c != '/')).takeWhile (fun c => c != '.')) ++ ['.']).reverse
  else []

/-- The function `strings.HasPrefix`. -/
def stringsHasPrefix (s pre : List Char) : Bool := pre.isPrefixOf s

/-- The function `strings.HasSuffix`. -/
def stringsHasSuffix (s suf : List Char) : Bool := suf.reverse.isPrefixOf s.reverse

/-! ## `fmt.Sscanf` with the format `page-%d.jpg` -/

/-- The space characters of package `fmt` (`isSpace`). -/
def isFmtSpace (c : Char) : Bool :=
  let n := c.toNat
  decide (9 ≤ n ∧ n ≤ 13) || n == 0x20 || n == 0x85 || n == 0xA0 || n == 0x1680
    || decide (0x2000 ≤ n ∧ n ≤ 0x200a) || n == 0x2028 || n == 0x2029 || n == 0x202f
    || n == 0x205f || n == 0x3000

/-- The method `ss.SkipSpace` for `Sscanf` (a newline does not count as space there): the
input after the skipped spaces, `none` for the error "unexpected newline". -/
def scanSkipSpace : List Char → Option (List Char)
  | [] => some []
  | c :: cs =>
    if c = '\n' then none
    else if isFmtSpace c then scanSkipSpace cs
    else some (c :: cs)

/-- The verb `%d` of `Sscanf` storing into an `int`: spaces are skipped, then an optional sign
and at least one decimal digit are read and handed to `strconv.ParseInt`; `none` is a scan
error, after which the operand is left untouched. -/
def scanIntVerb (input : List Char) : Option Int :=
  match scanSkipSpace input with
  | none => none
  | some r =>
    if ((takeSign true r).2.span isDecDigit).1 = [] then none
    else parseInt ((takeSign true r).1 ++ ((takeSign true r).2.span isDecDigit).1)

/-- The function `extractPageNum`: `num` starts at 0 and `Sscanf(base, "page-%d.jpg", &num)`
stores into it only when the literal `page-` matches and the verb scans a number; the text
after the number cannot change `num` any more, and the error is ignored. -/
def extractPageNum (path : List Char) : Int :=
  let base := filepathBase path
  match stripLit "page-".toList base with
  | none => 0
  | some rest =>
    match scanIntVerb rest with
    | none => 0
    | some num => num

/-! ## `internal/config` -/

/-- The record `CompressionSettings`. -/
structure CompressionSettings where
  DPI : Int
  Quality : Int
deriving DecidableEq, Repr

/-- The function `GetCompressionSettings`. -/
def GetCompressionSettings (level : List Char) : CompressionSettings :=
  if level = "low".toList then { DPI := 200, Quality := 85 }
  else if level = "medium".toList then { DPI := 150, Quality := 75 }
  else if level = "high".toList then { DPI := 100, Quality := 65 }
  else { DPI := 300, Quality := 95 }

/-- The record `AppConfig`. -/
structure AppConfig where
  Prefix : List Char
  Overlay : Bool
  OverlayColor : List Char
  OverlayPosition : List Char
  FileSuffix : List Char
  OverwriteMode : Bool
  CompressionLevel : List Char
deriving DecidableEq

/-- The function `DefaultConfig`. -/
def DefaultConfig : AppConfig :=
  { Prefix := "AR".toList, Overlay := true, OverlayColor := "#FF0000".toList,
    OverlayPosition := "bottom-right".toList, FileSuffix := "_frozen".toList,
    OverwriteMode := false, CompressionLevel := "none".toList }

/-! ## `internal/engine`: the rasterizer adapter -/

/-- What the operating system and the rasterization engine answer to `ExtractPages`.
`abs`: the result of `filepath.Abs`. `runGs`: the outcome of running the engine with the given
executable and arguments, `some (err, output)` when it fails. `readDir`: the names `os.ReadDir`
lists in a directory once the engine has run (sorted by file name), or its error. -/
structure GsEnv where
  abs : List Char → Except GoError (List Char)
  runGs : List Char → List (List Char) → Option (GoError × List Char)
  readDir : List Char → Except GoError (List (List Char))
  version : List Char → Option GoError

/-- The record `GhostscriptWrapper`. -/
structure GhostscriptWrapper where
  ExecutablePath : List Char
deriving DecidableEq

/-- The method `GhostscriptWrapper.CheckDependencies`. -/
def CheckDependencies (env : GsEnv) (g : GhostscriptWrapper) : Option GoError :=
  match env.version g.ExecutablePath with
  | some err => some ("ghostscript not found or not working: ".toList ++ err)
  | none => none

/-- The arguments `ExtractPages` hands to the engine. -/
def gsArgs (absPdf absOut : List Char) (dpi quality : Int) : List (List Char) :=
  [ "-dNOPAUSE".toList, "-dBATCH".toList, "-dSAFER".toList, "-sDEVICE=jpeg".toList,
    "-dJPEGQ=".toList ++ formatInt quality,
    "-r".toList ++ formatInt dpi,
    "-sOutputFile=".toList ++ filepathJoin absOut "page-%d.jpg".toList,
    absPdf ]

/-- The file name the output pattern `page-%d.jpg` yields for page `n`. -/
def pageFileName (n : Nat) : List Char := "page-".toList ++ natDigits n ++ ".jpg".toList

/-- The comparison `ExtractPages` hands to `sort.Slice`, read as "may stay before". -/
def pageOrder (a b : List Char) : Prop := extractPageNum a ≤ extractPageNum b

instance : DecidableRel pageOrder := fun a b =>
  inferInstanceAs (Decidable (extractPageNum a ≤ extractPageNum b))

instance : IsTotal (List Char) pageOrder := ⟨fun _ _ => Int.le_total _ _⟩

instance : IsTrans (List Char) pageOrder := ⟨fun _ _ _ h1 h2 => Int.le_trans h1 h2⟩

/-- The call `sort.Slice(savedFiles, less)` with `less i j = extractPageNum i < extractPageNum j`,
as the insertion sort Go runs on short slices: an entry moves in front of its neighbour only
while its number is strictly smaller. (On longer slices Go may order entries with equal
numbers differently; entries with different numbers end up in the same order.) -/
def sortSlice (files : List (List Char)) : List (List Char) :=
  files.insertionSort pageOrder

/-- The file names `ExtractPages` keeps. -/
def isPageFile (name : List Char) : Bool :=
  stringsHasPrefix name "page-".toList && stringsHasSuffix name ".jpg".toList

/-- The method `GhostscriptWrapper.ExtractPages`. -/
def ExtractPages (env : GsEnv) (g : GhostscriptWrapper) (pdfPath outDir : List Char)
    (dpi quality : Int) : Except GoError (List (List Char)) :=
  match env.abs pdfPath with
  | .error err => .error err
  | .ok absPdf =>
    match env.abs outDir with
    | .error err => .error err
    | .ok absOut =>
      match env.runGs g.ExecutablePath (gsArgs absPdf absOut dpi quality) with
      | some (err, output) =>
        .error ("ghostscript failed: ".toList ++ err ++ "\nOutput: ".toList ++ output)
      | none =>
        match env.readDir absOut with
        | .error err => .error err
        | .ok files =>
          let savedFiles := (files.filter isPageFile).map (fun name => filepathJoin absOut name)
          .ok (sortSlice savedFiles)

/-! ## Go `float64`

The finite values of `float64` are the numbers `m * 2 ^ e` with an integer `m` of at most 53
bits; every operation returns the exact result rounded to the nearest such number, ties to the
even mantissa. The exponent range is not bounded here (the operands of this program, machine
integers and text widths, stay far inside it) and the sign of a zero is not tracked. -/

/-- A `float64`: a finite value `m * 2 ^ e` in normal form (`m` odd, or `m = 0` and `e = 0`),
an infinity, or NaN. -/
inductive F64 where
  | fin (m : Int) (e : Int) : F64
  | inf (negative : Bool) : F64
  | nan : F64
deriving DecidableEq, Repr

/-- Worker of `bitLen`. -/
def bitLenAux : Nat → Nat → Nat
  | 0, _ => 0
  | fuel + 1, n => if n = 0 then 0 else bitLenAux fuel (n / 2) + 1

/-- The number of binary digits of `n`. -/
def bitLen (n : Nat) : Nat := bitLenAux n n

/-- Worker of `F64.normal`: move factors of two from the mantissa to the exponent. -/
def normalAux : Nat → Int → Int → Int × Int
  | 0, m, e => (m, e)
  | fuel + 1, m, e => if m % 2 = 0 ∧ m ≠ 0 then normalAux fuel (m / 2) (e + 1) else (m, e)

/-- The normal form of the finite value `m * 2 ^ e`. -/
def F64.normal (m e : Int) : F64 :=
  if m = 0 then F64.fin 0 0 else F64.fin (normalAux m.natAbs m e).1 (normalAux m.natAbs m e).2

/-- Round the magnitude `n` (followed by further non-zero binary digits when `sticky`) to 53
bits, ties to even: the rounded mantissa and the number of digits dropped. -/
def round53 (n : Nat) (sticky : Bool) : Nat × Nat :=
  if bitLen n ≤ 53 then (n, 0)
  else
    let sh := bitLen n - 53
    let q := n / 2 ^ sh
    let rem := n % 2 ^ sh
    let half := 2 ^ (sh - 1)
    if rem > half ∨ (rem = half ∧ (sticky = true ∨ q % 2 = 1)) then (q + 1, sh) else (q, sh)

/-- The `float64` nearest to the exact value `m * 2 ^ e`. -/
def F64.round (m e : Int) : F64 :=
  let r := round53 m.natAbs false
  F64.normal (if m < 0 then -(r.1 : Int) else (r.1 : Int)) (e + r.2)

/-- The conversion `float64(i)` of an integer. -/
def F64.ofInt (i : Int) : F64 := F64.round i 0

/-- Multiplication of `float64`. -/
def F64.mul : F64 → F64 → F64
  | F64.fin m1 e1, F64.fin m2 e2 => F64.round (m1 * m2) (e1 + e2)
  | F64.fin m1 _, F64.inf n => if m1 = 0 then F64.nan else F64.inf (xor (decide (m1 < 0)) n)
  | F64.inf n, F64.fin m2 _ => if m2 = 0 then F64.nan else F64.inf (xor n (decide (m2 < 0)))
  | F64.inf n1, F64.inf n2 => F64.inf (xor n1 n2)
  | F64.nan, _ => F64.nan
  | _, F64.nan => F64.nan

/-- Division of `float64`. The quotient of the mantissas is computed with more than 64 binary
digits, the remainder deciding the ties. -/
def F64.div : F64 → F64 → F64
  | F64.fin m1 e1, F64.fin m2 e2 =>
    if m2 = 0 then (if m1 = 0 then F64.nan else F64.inf (decide (m1 < 0)))
    else if m1 = 0 then F64.fin 0 0
    else
      let s := 64 + bitLen m2.natAbs
      let q := (m1.natAbs * 2 ^ s) / m2.natAbs
      let r := round53 q (decide ((m1.natAbs * 2 ^ s) % m2.natAbs ≠ 0))
      F64.normal (if xor (decide (m1 < 0)) (decide (m2 < 0)) then -(r.1 : Int) else (r.1 : Int))
        (e1 - e2 - s + r.2)
  | F64.fin _ _, F64.inf _ => F64.fin 0 0
  | F64.inf n, F64.fin m2 _ => F64.inf (xor n (decide (m2 < 0)))
  | F64.inf _, F64.inf _ => F64.nan
  | F64.nan, _ => F64.nan
  | _, F64.nan => F64.nan

/-- Addition of `float64`. -/
def F64.add : F64 → F64 → F64
  | F64.fin m1 e1, F64.fin m2 e2 =>
    let e := min e1 e2
    F64.round (m1 * 2 ^ (e1 - e).toNat + m2 * 2 ^ (e2 - e).toNat) e
  | F64.fin _ _, F64.inf n => F64.inf n
  | F64.inf n, F64.fin _ _ => F64.inf n
  | F64.inf n1, F64.inf n2 => if n1 = n2 then F64.inf n1 else F64.nan
  | F64.nan, _ => F64.nan
  | _, F64.nan => F64.nan

/-- Negation of `float64`. -/
def F64.neg : F64 → F64
  | F64.fin m e => F64.fin (-m) e
  | F64.inf n => F64.inf (!n)
  | F64.nan => F64.nan

/-- Subtraction of `float64`. -/
def F64.sub (a b : F64) : F64 := F64.add a (F64.neg b)

/-- The rational number a finite `float64` denotes. -/
def F64.toRat : F64 → Option ℚ
  | F64.fin m e => some ((m : ℚ) * (2 : ℚ) ^ e)
  | F64.inf _ => none
  | F64.nan => none

/-! ## `internal/engine`: the PDF reassembler -/

/-- The record `gopdf.Rect`. -/
structure Rect where
  W : F64
  H : F64
deriving DecidableEq, Repr

/-- An image placed on a page by `GoPdf.Image`: the file, the origin and the rectangle. -/
structure ImageDraw where
  path : List Char
  x : F64
  y : F64
  rect : Rect
deriving DecidableEq, Repr

/-- A text placed on a page by `GoPdf.Cell`. -/
structure TextDraw where
  text : List Char
  x : F64
  y : F64
  family : List Char
  size : Int
  color : Nat × Nat × Nat
deriving DecidableEq, Repr

/-- One page of the document under construction. -/
structure Page where
  size : Rect
  images : List ImageDraw
  texts : List TextDraw
deriving DecidableEq, Repr

/-- The state of a `gopdf.GoPdf` that this program's calls depend on: the font families added,
the pages (oldest first), the selected font and colour. The cursor is not part of it: the
program sets it with `SetX` and `SetY` right before `Cell` and never reads it, and where the
library leaves it after `Cell` or `AddPageWithOption` has no effect on a later call. -/
structure GoPdf where
  fonts : List (List Char)
  pages : List Page
  curFont : Option (List Char × Int)
  textColor : Nat × Nat × Nat
deriving DecidableEq, Repr

/-- What the operating system and the PDF library answer to the reassembler.
`decodeConfig`: opening an image file and decoding its header, the pixel width and height.
`embedImage`: the error of `GoPdf.Image`. `loadFont`: the error of `GoPdf.AddTTFFont`.
`measure`: the result of `GoPdf.MeasureTextWidth` with a font selected.
`cell`: the error of `GoPdf.Cell`. `writePdf`: the error of `GoPdf.WritePdf`. -/
structure PdfEnv where
  decodeConfig : List Char → Except GoError (Int × Int)
  embedImage : List Char → Option GoError
  loadFont : List Char → Option GoError
  measure : List Char → Except GoError F64
  cell : List Char → Option GoError
  writePdf : List Char → Option GoError

/-- The record `PDFWriter`. -/
structure PDFWriter where
  pdf : GoPdf
deriving DecidableEq, Repr

/-- Add to the last page of the document (the page `AddPageWithOption` has just opened). -/
def GoPdf.onLastPage (pdf : GoPdf) (f : Page → Page) : GoPdf :=
  match pdf.pages.reverse with
  | [] => pdf
  | last :: before => { pdf with pages := (f last :: before).reverse }

/-- The constructor `NewPDFWriter`: a failing font load is only a warning. -/
def NewPDFWriter (env : PdfEnv) (fontPath : List Char) : PDFWriter :=
  let pdf : GoPdf :=
    { fonts := [], pages := [], curFont := none, textColor := (0, 0, 0) }
  if fontPath ≠ [] then
    match env.loadFont fontPath with
    | some _ => { pdf := pdf }
    | none => { pdf := { pdf with fonts := ["Inter".toList] } }
  else { pdf := pdf }

/-- The value of the Go expression `float64(pixels) * 72.0 / float64(dpi)`. -/
def pointSize (pixels dpi : Int) : F64 :=
  F64.div (F64.mul (F64.ofInt pixels) (F64.ofInt 72)) (F64.ofInt dpi)

/-- The position of the overlay text in `AddPage` (`margin` is 1.0). -/
def overlayPosition (position : List Char) (widthPt heightPt textWidth : F64) : F64 × F64 :=
  let margin := F64.ofInt 1
  if position = "top-left".toList then (margin, F64.add margin (F64.ofInt 12))
  else if position = "top-right".toList then
    (F64.sub (F64.sub widthPt textWidth) margin, F64.add margin (F64.ofInt 12))
  else if position = "bottom-left".toList then (margin, F64.sub heightPt margin)
  else (F64.sub (F64.sub widthPt textWidth) margin, F64.sub heightPt margin)

/-- The method `PDFWriter.AddPage`: the error and the writer afterwards. `SetX`, `SetY` and
`Cell` together place the overlay text at the position computed by the `switch`: the
`TextDraw` added to the page records the text and where `Cell` draws it. -/
def AddPage (env : PdfEnv) (w : PDFWriter) (imagePath overlayText position : List Char)
    (dpi : Int) : Option GoError × PDFWriter :=
  match env.decodeConfig imagePath with
  | .error err => (some err, w)
  | .ok (width, height) =>
    let widthPt := F64.div (F64.mul (F64.ofInt width) (F64.ofInt 72)) (F64.ofInt dpi)
    let heightPt := F64.div (F64.mul (F64.ofInt height) (F64.ofInt 72)) (F64.ofInt dpi)
    let size : Rect := { W := widthPt, H := heightPt }
    let page : Page := { size := size, images := [], texts := [] }
    let pdf1 : GoPdf := { w.pdf with pages := w.pdf.pages ++ [page] }
    match env.embedImage imagePath with
    | some err => (some err, { pdf := pdf1 })
    | none =>
      let image : ImageDraw :=
        { path := imagePath, x := F64.fin 0 0, y := F64.fin 0 0, rect := size }
      let pdf2 := pdf1.onLastPage (fun pg => { pg with images := pg.images ++ [image] })
      if overlayText ≠ [] then
        if "Inter".toList ∉ pdf2.fonts then
          (some "failed to set font: font family not found".toList, { pdf := pdf2 })
        else
          let pdf3 : GoPdf :=
            { pdf2 with curFont := some ("Inter".toList, 12), textColor := (255, 0, 0) }
          match env.measure overlayText with
          | .error err => (some err, { pdf := pdf3 })
          | .ok textWidth =>
            let xy := overlayPosition position widthPt heightPt textWidth
            match env.cell overlayText with
            | some err => (some err, { pdf := pdf3 })
            | none =>
              let text : TextDraw :=
                { text := overlayText, x := xy.1, y := xy.2, family := "Inter".toList,
                  size := 12, color := (255, 0, 0) }
              (none, { pdf := pdf3.onLastPage (fun pg => { pg with texts := pg.texts ++ [text] }) })
      else (none, { pdf := pdf2 })

/-- The method `PDFWriter.Save`: the error of `WritePdf`. -/
def Save (env : PdfEnv) (_w : PDFWriter) (path : List Char) : Option GoError :=
  env.writePdf path

/-! ## `internal/engine`: the pipeline orchestrator -/

/-- The record `ProcessOptions`. -/
structure ProcessOptions where
  InputPath : List Char
  OutputPath : List Char
  Overlay : Bool
  Prefix : List Char
  Position : List Char
  CompressionLevel : List Char
deriving DecidableEq

/-- The record `Pipeline`. -/
structure Pipeline where
  counter : Manager
  gs : GhostscriptWrapper
deriving DecidableEq

/-- A call `Process` makes to one of its collaborators, with the arguments it passes. -/
inductive Event where
  | checkDependencies : Event
  | getNext : Event
  | mkdirTemp : Event
  | extractPages (pdfPath outDir : List Char) (dpi quality : Int) : Event
  | createTemp : Event
  | fontWrite (fontPath : List Char) : Event
  | newPDFWriter (fontPath : List Char) : Event
  | addPage (imagePath overlayText position : List Char) (dpi : Int) : Event
  | save (path : List Char) : Event
  | remove (path : List Char) : Event
  | removeAll (path : List Char) : Event
deriving DecidableEq

/-- What the environment answers to `Process`: to the rasterizer adapter, to the reassembler,
to `os.MkdirTemp`, to `os.CreateTemp` and to writing the font data. -/
structure ProcEnv where
  gs : GsEnv
  pdf : PdfEnv
  mkdirTemp : Except GoError (List Char)
  createTemp : Except GoError (List Char)
  fontWrite : Option GoError

/-- The state `Process` works on: the files of the counter, the documents `WritePdf` has
written (path and content, the latest first) and the calls made so far (oldest first). -/
structure World where
  disk : Disk
  saved : List (List Char × GoPdf)
  log : List Event
deriving DecidableEq

/-- Append calls to the log. -/
def World.record (w : World) (events : List Event) : World :=
  { w with log := w.log ++ events }

/-- The text of the serial label (step 6 of `Process`): an empty prefix falls back to `AR`. -/
def serialText (optsPrefix : List Char) (usageNum : Int) : List Char :=
  let prefixStr := if optsPrefix = [] then "AR".toList else optsPrefix
  prefixStr ++ sprintf04d usageNum

/-- The overlay text of the page at index `i` in the loop of `Process`. -/
def pageText (opts : ProcessOptions) (label : List Char) (i : Nat) : List Char :=
  if i = 0 ∧ opts.Overlay = true then label else []

/-- The loop of `Process` over the page images from index `i` on: the error, the writer and
the `AddPage` calls made, in order. -/
def addPages (env : PdfEnv) (opts : ProcessOptions) (label : List Char) (dpi : Int) :
    Nat → List (List Char) → PDFWriter → Option GoError × PDFWriter × List Event
  | _, [], writer => (none, writer, [])
  | i, imgPath :: rest, writer =>
    let txt := pageText opts label i
    match AddPage env writer imgPath txt opts.Position dpi with
    | (some err, writer1) =>
      (some ("failed to write page ".toList ++ formatInt (i + 1) ++ ": ".toList ++ err), writer1,
        [Event.addPage imgPath txt opts.Position dpi])
    | (none, writer1) =>
      ((addPages env opts label dpi (i + 1) rest writer1).1,
        (addPages env opts label dpi (i + 1) rest writer1).2.1,
        Event.addPage imgPath txt opts.Position dpi ::
          (addPages env opts label dpi (i + 1) rest writer1).2.2)

/-- The method `Pipeline.Process`: the error and the state afterwards. The deferred
`os.Remove` and `os.RemoveAll` are recorded where the function returns. -/
def Process (env : ProcEnv) (p : Pipeline) (w : World) (opts : ProcessOptions) :
    Option GoError × World :=
  let w0 := w.record [Event.checkDependencies]
  match CheckDependencies env.gs p.gs with
  | some err => (some err, w0)
  | none =>
    match GetNext p.counter w0.disk with
    | (.error err, d1) =>
      (some ("counter error: ".toList ++ err), { w0 with disk := d1, log := w0.log ++ [Event.getNext] })
    | (.ok usageNum, d1) =>
      let w1 : World := { w0 with disk := d1, log := w0.log ++ [Event.getNext, Event.mkdirTemp] }
      match env.mkdirTemp with
      | .error err => (some err, w1)
      | .ok tmpDir =>
        let compSettings := GetCompressionSettings opts.CompressionLevel
        let w2 := w1.record
          [Event.extractPages opts.InputPath tmpDir compSettings.DPI compSettings.Quality]
        match ExtractPages env.gs p.gs opts.InputPath tmpDir compSettings.DPI
            compSettings.Quality with
        | .error err =>
          (some ("extraction failed: ".toList ++ err), w2.record [Event.removeAll tmpDir])
        | .ok images =>
          if images.length = 0 then
            (some "no pages extracted".toList, w2.record [Event.removeAll tmpDir])
          else
            match env.createTemp with
            | .error err =>
              (some ("failed to create font temp file: ".toList ++ err),
                w2.record [Event.createTemp, Event.removeAll tmpDir])
            | .ok fontTmp =>
              match env.fontWrite with
              | some err =>
                (some ("failed to write font data: ".toList ++ err),
                  w2.record [Event.createTemp, Event.fontWrite fontTmp, Event.remove fontTmp,
                    Event.removeAll tmpDir])
              | none =>
                let writer := NewPDFWriter env.pdf fontTmp
                let label := serialText opts.Prefix usageNum
                let w3 := w2.record
                  [Event.createTemp, Event.fontWrite fontTmp, Event.newPDFWriter fontTmp]
                match addPages env.pdf opts label compSettings.DPI 0 images writer with
                | (some err, _, calls) =>
                  (some err, w3.record (calls ++ [Event.remove fontTmp, Event.removeAll tmpDir]))
                | (none, writer1, calls) =>
                  match Save env.pdf writer1 opts.OutputPath with
                  | some err =>
                    (some ("failed to save output: ".toList ++ err),
                      w3.record (calls ++ [Event.save opts.OutputPath, Event.remove fontTmp,
                        Event.removeAll tmpDir]))
                  | none =>
                    (none,
                      { w3 with
                        saved := (opts.OutputPath, writer1.pdf) :: w3.saved,
                        log := w3.log ++ (calls ++ [Event.save opts.OutputPath,
                          Event.remove fontTmp, Event.removeAll tmpDir]) })

/-- The `AddPage` calls in a log, in order. -/
def addPageCalls (log : List Event) : List Event :=
  log.filter (fun ev => match ev with
    | Event.addPage _ _ _ _ => true
    | _ => false)

/-- The number of `GetNext` calls in a log. -/
def getNextCalls (log : List Event) : Nat := log.count Event.getNext

/-! ## `pkg/app`: the operations of the application -/

/-- The fields of `App` its operations use (`none` is a nil pointer; `config` holds the
`Current` record of the config manager). -/
structure App where
  counter : Option Manager
  config : Option AppConfig
  pipeline : Pipeline
deriving DecidableEq

/-- The method `App.GetCurrentNumber`. -/
def App.GetCurrentNumber (a : App) (d : Disk) : Except GoError Int :=
  match a.counter with
  | none => .error "counter not initialized".toList
  | some m =>
    match GetCurrent m d with
    | .error err => .error err
    | .ok val => .ok (wrapInt (val + 1))

/-- The method `App.SetNumberOverride`. -/
def App.SetNumberOverride (a : App) (d : Disk) (val : Int) : Option GoError × Disk :=
  match a.counter with
  | none => (some "counter not initialized".toList, d)
  | some m =>
    if val < 1 then (some "number must be >= 1".toList, d)
    else SetOverride m d (wrapInt (val - 1))

/-- The suffix `ProcessFile` appends to the file name when it does not overwrite: the
override, else the configured suffix, else `_frozen`. -/
def App.fileSuffix (a : App) (suffixOverride : List Char) : List Char :=
  let suffix1 :=
    match a.config with
    | some cfg => if suffixOverride = [] then cfg.FileSuffix else suffixOverride
    | none => suffixOverride
  if suffix1 = [] then "_frozen".toList else suffix1

/-- The file name `ProcessFile` computes for the output when it does not overwrite:
`name + suffix + ".pdf"`, where `name` is `base[:len(base)-len(ext)]`. -/
def App.outputFileName (a : App) (inputPath suffixOverride : List Char) : List Char :=
  let ext := filepathExt inputPath
  let base := filepathBase inputPath
  let name := base.take (base.length - ext.length)
  name ++ a.fileSuffix suffixOverride ++ ".pdf".toList

/-- The output path `ProcessFile` determines from the overwrite mode. -/
def App.outputPath (a : App) (inputPath suffixOverride : List Char) (overwriteMode : Bool) :
    List Char :=
  if overwriteMode then inputPath
  else filepathJoin (filepathDir inputPath) (a.outputFileName inputPath suffixOverride)

/-- A setting of `ProcessFile`: the value from the caller, else the configured one, else the
built-in default. -/
def App.setting (a : App) (override : List Char) (field : AppConfig → List Char)
    (fallback : List Char) : List Char :=
  let v :=
    match a.config with
    | some cfg => if override = [] then field cfg else override
    | none => override
  if v = [] then fallback else v

/-- The options `ProcessFile` hands to the pipeline. -/
def App.jobOptions (a : App) (inputPath : List Char) (overlayOverride : Bool)
    (prefixOverride positionOverride suffixOverride : List Char) (overwriteMode : Bool)
    (compressionLevel : List Char) : ProcessOptions :=
  { InputPath := inputPath,
    OutputPath := a.outputPath inputPath suffixOverride overwriteMode,
    Overlay := overlayOverride,
    Prefix := a.setting prefixOverride (fun cfg => cfg.Prefix) "AR".toList,
    Position := a.setting positionOverride (fun cfg => cfg.OverlayPosition) "bottom-right".toList,
    CompressionLevel :=
      a.setting compressionLevel (fun cfg => cfg.CompressionLevel) "none".toList }

/-- The method `App.ProcessFile`: the output path or the error, and the state afterwards
(logging is not part of the state). -/
def App.ProcessFile (env : ProcEnv) (a : App) (w : World) (inputPath : List Char)
    (overlayOverride : Bool) (prefixOverride positionOverride suffixOverride : List Char)
    (overwriteMode : Bool) (compressionLevel : List Char) : Except GoError (List Char) × World :=
  if inputPath = [] then (.error "no input file selected".toList, w)
  else
    let opts := a.jobOptions inputPath overlayOverride prefixOverride positionOverride
      suffixOverride overwriteMode compressionLevel
    match Process env a.pipeline w opts with
    | (some err, w1) => (.error err, w1)
    | (none, w1) => (.ok opts.OutputPath, w1)

/-! ## Example environments -/

/-- An environment of the rasterizer adapter in which every call succeeds, paths are already
absolute, and every directory lists `page-2.jpg`, `page-10.jpg`, `page-1.jpg` and a file that
is not a page image. -/
def exampleGsEnv : GsEnv :=
  { abs := fun path => .ok path,
    runGs := fun _ _ => none,
    readDir := fun _ => .ok ["page-2.jpg".toList, "page-10.jpg".toList, "page-1.jpg".toList,
      "gs.log".toList],
    version := fun _ => none }

/-- The wrapper of an engine found as `gs`. -/
def exampleGs : GhostscriptWrapper := { ExecutablePath := "gs".toList }

/-- An environment of the reassembler in which every call succeeds: every image is 850 x 1100
pixels and every text is 40 points wide. -/
def examplePdfEnv : PdfEnv :=
  { decodeConfig := fun _ => .ok (850, 1100),
    embedImage := fun _ => none,
    loadFont := fun _ => none,
    measure := fun _ => .ok (F64.ofInt 40),
    cell := fun _ => none,
    writePdf := fun _ => none }

/-- An environment of the reassembler in which no image file can be decoded. -/
def brokenImagePdfEnv : PdfEnv :=
  { examplePdfEnv with decodeConfig := fun _ => .error "image: unknown format".toList }

/-- An environment of `Process` in which every step succeeds. -/
def exampleProcEnv : ProcEnv :=
  { gs := exampleGsEnv, pdf := examplePdfEnv, mkdirTemp := .ok "/tmp/job".toList,
    createTemp := .ok "/tmp/font.ttf".toList, fontWrite := none }

/-- An environment of `Process` in which the images cannot be decoded. -/
def brokenImageProcEnv : ProcEnv := { exampleProcEnv with pdf := brokenImagePdfEnv }

/-- An environment of `Process` in which only writing the document fails. -/
def saveFailsProcEnv : ProcEnv :=
  { exampleProcEnv with
    pdf := { examplePdfEnv with writePdf := fun _ => some "disk full".toList } }

/-- An environment of `Process` in which the engine produces no page image. -/
def emptyDocProcEnv : ProcEnv :=
  { exampleProcEnv with gs := { exampleGsEnv with readDir := fun _ => .ok ["gs.log".toList] } }

/-- An environment of `Process` in which the engine is not installed. -/
def noEngineProcEnv : ProcEnv :=
  { exampleProcEnv with
    gs := { exampleGsEnv with version := fun _ => some "executable file not found".toList } }

/-- The state on first use: no counter file, nothing written, nothing called. -/
def freshWorld : World :=
  { disk := { stateFile := none, readFault := none, writeFault := none, lockFile := false,
              lockFault := none },
    saved := [], log := [] }

/-- A pipeline with a fresh manager and the engine found as `gs`. -/
def examplePipeline : Pipeline := { counter := NewManager, gs := exampleGs }

/-- A job with overlay, prefix `AR`, position `bottom-right` and compression `high`. -/
def exampleJob : ProcessOptions :=
  { InputPath := "in.pdf".toList, OutputPath := "out.pdf".toList, Overlay := true,
    Prefix := "AR".toList, Position := "bottom-right".toList,
    CompressionLevel := "high".toList }

/-- An application with a fresh counter manager, the default configuration and the example
pipeline. -/
def exampleApp : App :=
  { counter := some NewManager, config := some DefaultConfig, pipeline := examplePipeline }

end PdfFreezer
namespace PdfFreezer

/-! # Theorems -/

/-! ## Decimal printing and parsing -/

theorem natDigitsAux_eq (fuel : Nat) :
    ∀ n acc, n < fuel → natDigitsAux fuel n acc = natDigits n ++ acc := by
  induction fuel using Nat.strong_induction_on with
  | _ fuel ih =>
    intro n acc hn
    cases fuel with
    | zero => omega
    | succ f =>
      by_cases h10 : n < 10
      · simp [natDigitsAux, natDigits, h10]
      · have h1 : n / 10 < f := by omega
        have h2 : n / 10 < n := by omega
        have e1 := ih f (Nat.lt_succ_self f) (n / 10) (digitChar (n % 10) :: acc) h1
        have e2 : natDigits n = natDigits (n / 10) ++ [digitChar (n % 10)] := by
          cases n with
          | zero => omega
          | succ m =>
            have := ih (m + 1) (by omega) ((m + 1) / 10) [digitChar ((m + 1) % 10)] (by omega)
            simp only [natDigits, natDigitsAux, h10, if_false] at this ⊢
            exact this
        simp only [natDigitsAux, h10, if_false, e1, e2, List.append_assoc, List.singleton_append]

theorem natDigits_small (n : Nat) (h : n < 10) : natDigits n = [digitChar n] := by
  simp [natDigits, natDigitsAux, h]

theorem natDigits_step (n : Nat) (h : 10 ≤ n) :
    natDigits n = natDigits (n / 10) ++ [digitChar (n % 10)] := by
  have h10 : ¬ n < 10 := by omega
  have e := natDigitsAux_eq n (n / 10) [digitChar (n % 10)] (by omega)
  simp only [natDigits, natDigitsAux, h10, if_false]
  exact e

theorem isDecDigit_digitChar (d : Nat) (h : d < 10) : isDecDigit (digitChar d) = true := by
  interval_cases d <;> decide

theorem digitVal_digitChar (d : Nat) (h : d < 10) : digitVal (digitChar d) = d := by
  interval_cases d <;> decide

theorem natDigits_all_digits (n : Nat) : (natDigits n).all isDecDigit = true := by
  induction n using Nat.strong_induction_on with
  | _ n ih =>
    by_cases h : n < 10
    · simp [natDigits_small n h, isDecDigit_digitChar n h]
    · rw [natDigits_step n (by omega), List.all_append, ih (n / 10) (by omega)]
      simp [isDecDigit_digitChar (n % 10) (by omega)]

theorem natDigits_ne_nil (n : Nat) : natDigits n ≠ [] := by
  by_cases h : n < 10
  · simp [natDigits_small n h]
  · rw [natDigits_step n (by omega)]; simp

theorem parseNat_append_single (cs : List Char) (c : Char) :
    parseNat (cs ++ [c]) = parseNat cs * 10 + digitVal c := by
  simp [parseNat, List.foldl_append]

theorem parseNat_natDigits (n : Nat) : parseNat (natDigits n) = n := by
  induction n using Nat.strong_induction_on with
  | _ n ih =>
    by_cases h : n < 10
    · simp [natDigits_small n h, parseNat, digitVal_digitChar n h]
    · rw [natDigits_step n (by omega), parseNat_append_single, ih (n / 10) (by omega),
        digitVal_digitChar (n % 10) (by omega)]
      omega

/-- The first digit printed for a positive number is not `0`. -/
theorem natDigits_head (n : Nat) (h : 0 < n) :
    ∃ c rest, natDigits n = c :: rest ∧ c ≠ '0' ∧ isDecDigit c = true := by
  induction n using Nat.strong_induction_on with
  | _ n ih =>
    by_cases h10 : n < 10
    · refine ⟨digitChar n, [], natDigits_small n h10, ?_, isDecDigit_digitChar n h10⟩
      interval_cases n <;> decide
    · obtain ⟨c, rest, e, hc, hd⟩ := ih (n / 10) (by omega) (by omega)
      exact ⟨c, rest ++ [digitChar (n % 10)], by rw [natDigits_step n (by omega), e]; rfl, hc, hd⟩

theorem natDigits_length_pos (n : Nat) : 0 < (natDigits n).length :=
  List.length_pos.mpr (natDigits_ne_nil n)

/-! ## JSON round trip of the counter record -/

theorem span_digits_stop (ds : List Char) (c : Char) (tl : List Char)
    (hds : ds.all isDecDigit = true) (hc : isDecDigit c = false) :
    (ds ++ c :: tl).span isDecDigit = (ds, c :: tl) := by
  rw [List.span_eq_take_drop]
  induction ds with
  | nil => simp [List.takeWhile, List.dropWhile, hc]
  | cons d ds ih =>
    simp only [List.all_cons, Bool.and_eq_true] at hds
    have := ih hds.2
    simp only [Prod.mk.injEq] at this
    simp [List.takeWhile, List.dropWhile, hds.1, this.1, this.2]

theorem span_digits_nil (ds : List Char) (hds : ds.all isDecDigit = true) :
    ds.span isDecDigit = (ds, []) := by
  rw [List.span_eq_take_drop]
  induction ds with
  | nil => simp
  | cons d ds ih =>
    simp only [List.all_cons, Bool.and_eq_true] at hds
    have := ih hds.2
    simp only [Prod.mk.injEq] at this
    simp [List.takeWhile, List.dropWhile, hds.1, this.1, this.2]

theorem takeSign_digit (p : Bool) (c : Char) (r : List Char) (h : isDecDigit c = true) :
    takeSign p (c :: r) = ([], c :: r) := by
  have h1 : c ≠ '-' := by intro e; subst e; revert h; decide
  have h2 : c ≠ '+' := by intro e; subst e; revert h; decide
  simp [takeSign, h1, h2]

theorem scanNumber_digits (c : Char) (rest tl : List Char) (hc : c ≠ '0')
    (hd : isDecDigit c = true) (hall : rest.all isDecDigit = true) :
    scanNumber (c :: rest ++ '\n' :: tl) = some (c :: rest, '\n' :: tl) := by
  have hnl : isDecDigit '\n' = false := by decide
  have hsp := span_digits_stop rest '\n' tl hall hnl
  rw [List.span_eq_take_drop] at hsp
  simp only [Prod.mk.injEq] at hsp
  simp [scanNumber, takeSign_digit, scanIntPart, hc, hd, hsp.1, hsp.2, scanFracExp, scanExp]

theorem scanNumber_natDigits (n : Nat) (tl : List Char) :
    scanNumber (natDigits n ++ '\n' :: tl) = some (natDigits n, '\n' :: tl) := by
  by_cases h0 : n = 0
  · subst h0
    rfl
  · obtain ⟨c, rest, e, hc, hd⟩ := natDigits_head n (by omega)
    have hall := natDigits_all_digits n
    rw [e] at hall ⊢
    simp only [List.all_cons, Bool.and_eq_true] at hall
    exact scanNumber_digits c rest tl hc hd hall.2

theorem scanNumber_formatInt (v : Int) (tl : List Char) :
    scanNumber (formatInt v ++ '\n' :: tl) = some (formatInt v, '\n' :: tl) := by
  by_cases hv : v < 0
  · have hpos : 0 < v.natAbs := by omega
    obtain ⟨c, rest, e, hc, hd⟩ := natDigits_head v.natAbs hpos
    have hall := natDigits_all_digits v.natAbs
    have hnl : isDecDigit '\n' = false := by decide
    rw [e] at hall
    simp only [List.all_cons, Bool.and_eq_true] at hall
    have hsp := span_digits_stop rest '\n' tl hall.2 hnl
    rw [List.span_eq_take_drop] at hsp
    simp only [Prod.mk.injEq] at hsp
    simp [formatInt, hv, e, scanNumber, takeSign, scanIntPart, hc, hd, hsp.1, hsp.2, scanFracExp,
      scanExp]
  · simp only [formatInt, hv, if_false]
    exact scanNumber_natDigits _ tl

theorem parseInt_natDigits (n : Nat) (h : (n : Int) ≤ maxInt) :
    parseInt (natDigits n) = some (n : Int) := by
  have hall := natDigits_all_digits n
  have hne := natDigits_ne_nil n
  obtain ⟨c, rest, e⟩ := List.exists_cons_of_ne_nil hne
  have hd : isDecDigit c = true := by
    rw [e] at hall; simp only [List.all_cons, Bool.and_eq_true] at hall; exact hall.1
  have hts : takeSign true (natDigits n) = ([], natDigits n) := by
    rw [e]; exact takeSign_digit true c rest hd
  have hmin : minInt ≤ (n : Int) := by unfold minInt; omega
  have hval : signedValue (natDigits n) = (n : Int) := by
    simp [signedValue, hts, parseNat_natDigits]
  simp [parseInt, hts, hne, hall, hval, hmin, h]

theorem parseInt_formatInt (v : Int) (h1 : minInt ≤ v) (h2 : v ≤ maxInt) :
    parseInt (formatInt v) = some v := by
  by_cases hv : v < 0
  · have hall := natDigits_all_digits v.natAbs
    have hne := natDigits_ne_nil v.natAbs
    have hts : takeSign true ('-' :: natDigits v.natAbs) = (['-'], natDigits v.natAbs) := by
      simp [takeSign]
    have hval : signedValue ('-' :: natDigits v.natAbs) = v := by
      simp only [signedValue, hts, if_true, parseNat_natDigits]; omega
    simp [formatInt, hv, parseInt, hts, hall, hne, hval, h1, h2]
  · have e : ((v.natAbs : Nat) : Int) = v := by omega
    have := parseInt_natDigits v.natAbs (by omega)
    simp only [formatInt, hv, if_false]
    rw [this, e]

theorem marshal_shape (v : Int) :
    jsonMarshalIndent { Current := v } =
      '{' :: '\n' :: ' ' :: ' ' :: '"' :: 'c' :: 'u' :: 'r' :: 'r' :: 'e' :: 'n' :: 't' :: '"' ::
        ':' :: ' ' :: (formatInt v ++ ['\n', '}']) := by
  rfl

theorem parseMembers_current (f : Nat) (X : List Char) (val : JVal) (r : List Char)
    (h : parseValue f 1 (skipWs X) = some (val, '\n' :: '}' :: r)) :
    parseMembers (f + 1) 1 ('"' :: 'c' :: 'u' :: 'r' :: 'r' :: 'e' :: 'n' :: 't' :: '"' ::
        ':' :: X) [] = some ([("current".toList, val)], r) := by
  have hs : parseString ('c' :: 'u' :: 'r' :: 'r' :: 'e' :: 'n' :: 't' :: '"' :: ':' :: X) []
      = some ("current".toList, ':' :: X) := rfl
  rw [parseMembers, hs]
  simp only [skipWs]
  have : isJsonSpace ':' = false := by decide
  simp only [this]
  simp only [Bool.false_eq_true, if_false, h]
  rfl

theorem parseValue_obj (f : Nat) (X : List Char) (ms : List (List Char × JVal)) (r : List Char)
    (h : parseMembers f 1 ('"' :: X) [] = some (ms, r)) :
    parseValue (f + 1) 0 ('{' :: '\n' :: ' ' :: ' ' :: '"' :: X) = some (JVal.obj ms, r) := by
  rw [parseValue]
  have hs : skipWs ('\n' :: ' ' :: ' ' :: '"' :: X) = '"' :: X := rfl
  simp only [hs]
  rw [if_pos trivial, if_neg (by decide)]
  show Option.map _ (parseMembers f 1 ('"' :: X) []) = _
  rw [h]
  rfl

theorem formatInt_head (v : Int) :
    ∃ c rest, formatInt v = c :: rest ∧ (c = '-' ∨ isDecDigit c = true) := by
  by_cases hv : v < 0
  · exact ⟨'-', natDigits v.natAbs, by simp [formatInt, hv], Or.inl rfl⟩
  · obtain ⟨c, rest, e⟩ := List.exists_cons_of_ne_nil (natDigits_ne_nil v.natAbs)
    have hall := natDigits_all_digits v.natAbs
    rw [e] at hall
    simp only [List.all_cons, Bool.and_eq_true] at hall
    exact ⟨c, rest, by simp [formatInt, hv, e], Or.inr hall.1⟩

theorem parseValue_num (f : Nat) (v : Int) (tl : List Char) (d : Nat) :
    parseValue (f + 1) d (formatInt v ++ '\n' :: tl) = some (JVal.num (formatInt v), '\n' :: tl) := by
  have hnum := scanNumber_formatInt v tl
  obtain ⟨c, rest, e, hc⟩ := formatInt_head v
  have h1 : c ≠ '{' := by rcases hc with h | h <;> (intro e; subst e; revert h; decide)
  have h2 : c ≠ '[' := by rcases hc with h | h <;> (intro e; subst e; revert h; decide)
  have h3 : c ≠ '"' := by rcases hc with h | h <;> (intro e; subst e; revert h; decide)
  have h4 : c ≠ 't' := by rcases hc with h | h <;> (intro e; subst e; revert h; decide)
  have h5 : c ≠ 'f' := by rcases hc with h | h <;> (intro e; subst e; revert h; decide)
  have h6 : c ≠ 'n' := by rcases hc with h | h <;> (intro e; subst e; revert h; decide)
  rw [e] at hnum ⊢
  rw [List.cons_append] at hnum ⊢
  rw [parseValue]
  simp only [h1, h2, h3, h4, h5, h6, if_false, hnum]
  rfl

theorem skipWs_formatInt (v : Int) (tl : List Char) :
    skipWs (' ' :: (formatInt v ++ tl)) = formatInt v ++ tl := by
  obtain ⟨c, rest, e, hc⟩ := formatInt_head v
  have h1 : isJsonSpace c = false := by
    have n1 : c ≠ ' ' := by rcases hc with h | h <;> (intro e; subst e; revert h; decide)
    have n2 : c ≠ '\t' := by rcases hc with h | h <;> (intro e; subst e; revert h; decide)
    have n3 : c ≠ '\r' := by rcases hc with h | h <;> (intro e; subst e; revert h; decide)
    have n4 : c ≠ '\n' := by rcases hc with h | h <;> (intro e; subst e; revert h; decide)
    simp [isJsonSpace, n1, n2, n3, n4]
  have h0 : isJsonSpace ' ' = true := by decide
  rw [e]
  simp [skipWs, h1, h0]

theorem parseJson_marshal (v : Int) :
    parseJson (jsonMarshalIndent { Current := v }) =
      some (JVal.obj [("current".toList, JVal.num (formatInt v))]) := by
  rw [marshal_shape]
  have hlen : ∃ k, ('{' :: '\n' :: ' ' :: ' ' :: '"' :: 'c' :: 'u' :: 'r' :: 'r' :: 'e' :: 'n' ::
      't' :: '"' :: ':' :: ' ' :: (formatInt v ++ ['\n', '}'])).length + 1 = k + 3 :=
    ⟨(formatInt v).length + 15, by simp only [List.length_cons, List.length_append, List.length_nil]⟩
  obtain ⟨k, hk⟩ := hlen
  have e1 := parseValue_num k v ['}'] 1
  rw [← skipWs_formatInt v ('\n' :: ['}'])] at e1
  have e2 := parseMembers_current (k + 1) _ _ _ e1
  have e3 := parseValue_obj (k + 2) _ _ _ e2
  unfold parseJson
  rw [hk]
  have hs : ∀ X, skipWs ('{' :: X) = '{' :: X := fun X => rfl
  rw [hs, e3]
  rfl

theorem jsonUnmarshal_marshal (v : Int) (h1 : minInt ≤ v) (h2 : v ≤ maxInt) :
    jsonUnmarshal (jsonMarshalIndent { Current := v }) = .ok { Current := v } := by
  unfold jsonUnmarshal
  rw [parseJson_marshal]
  have hk : keyIsCurrent "current".toList = true := by decide
  simp only [decodeMembers, hk, if_true, storeCurrent, parseInt_formatInt v h1 h2]

/-! ## The sequence counter -/

theorem wrapInt_of_range (x : Int) (h1 : minInt ≤ x) (h2 : x ≤ maxInt) : wrapInt x = x := by
  unfold minInt at h1
  unfold maxInt at h2
  unfold wrapInt
  omega

theorem wrapInt_range (x : Int) : minInt ≤ wrapInt x ∧ wrapInt x ≤ maxInt := by
  unfold minInt maxInt wrapInt
  omega

theorem parseInt_range (s : List Char) (v : Int) (h : parseInt s = some v) :
    minInt ≤ v ∧ v ≤ maxInt := by
  unfold parseInt at h
  split_ifs at h with h1 h2
  simp only [Option.some.injEq] at h
  rw [← h]; exact h2

theorem decodeMembers_range (ms : List (List Char × JVal)) :
    ∀ (st : CounterState) (saved : Option GoError) (out : CounterState),
      minInt ≤ st.Current ∧ st.Current ≤ maxInt →
      decodeMembers ms st saved = .ok out → minInt ≤ out.Current ∧ out.Current ≤ maxInt := by
  induction ms with
  | nil =>
    intro st saved out hst h
    cases saved with
    | none => simp only [decodeMembers, Except.ok.injEq] at h; rw [← h]; exact hst
    | some e => simp [decodeMembers] at h
  | cons kv rest ih =>
    intro st saved out hst h
    obtain ⟨key, v⟩ := kv
    unfold decodeMembers at h
    split_ifs at h with hk
    · cases hs : storeCurrent st v with
      | error e => rw [hs] at h; exact ih st _ out hst h
      | ok st1 =>
        rw [hs] at h
        refine ih st1 saved out ?_ h
        cases v with
        | null => simp only [storeCurrent, Except.ok.injEq] at hs; rw [← hs]; exact hst
        | num lit =>
          simp only [storeCurrent] at hs
          cases hp : parseInt lit with
          | none => rw [hp] at hs; simp at hs
          | some n =>
            rw [hp] at hs
            simp only [Except.ok.injEq] at hs
            rw [← hs]; exact parseInt_range lit n hp
        | bool b => simp [storeCurrent] at hs
        | str s => simp [storeCurrent] at hs
        | arr a => simp [storeCurrent] at hs
        | obj o => simp [storeCurrent] at hs
    · exact ih st saved out hst h

/-- Every state `loadState` returns holds a value of Go `int`. -/
theorem loadState_range (d : Disk) (st : CounterState) (h : loadState d = .ok st) :
    minInt ≤ st.Current ∧ st.Current ≤ maxInt := by
  have h0 : minInt ≤ (0 : Int) ∧ (0 : Int) ≤ maxInt := by decide
  unfold loadState at h
  cases hf : d.stateFile with
  | none => rw [hf] at h; simp only [Except.ok.injEq] at h; rw [← h]; exact h0
  | some data =>
    rw [hf] at h
    cases hr : d.readFault with
    | some e => rw [hr] at h; simp at h
    | none =>
      rw [hr] at h
      cases hu : jsonUnmarshal data with
      | error e => simp [hu] at h
      | ok st1 =>
        simp only [hu, Except.ok.injEq] at h
        subst h
        unfold jsonUnmarshal at hu
        cases hp : parseJson data with
        | none => rw [hp] at hu; simp at hu
        | some v =>
          rw [hp] at hu
          cases v with
          | null => simp only [Except.ok.injEq] at hu; rw [← hu]; exact h0
          | obj ms => exact decodeMembers_range ms _ _ _ h0 hu
          | bool b => simp at hu
          | num n => simp at hu
          | str s => simp at hu
          | arr a => simp at hu

/-- After a successful save the state file decodes to the state saved. -/
theorem loadState_saved (d : Disk) (v : Int) (hr : d.readFault = none)
    (h1 : minInt ≤ v) (h2 : v ≤ maxInt) :
    loadState { d with stateFile := some (jsonMarshalIndent { Current := v }) }
      = .ok { Current := v } := by
  simp only [loadState, hr, jsonUnmarshal_marshal v h1 h2]

/-- What a `GetNext` whose read and write succeed returns and leaves behind. -/
theorem GetNext_ok (m : Manager) (d : Disk) (S : Int) (hload : loadState d = .ok { Current := S })
    (hw : d.writeFault = none) :
    GetNext m d = (.ok (wrapInt (S + 1)),
      { d with stateFile := some (jsonMarshalIndent { Current := wrapInt (S + 1) }) }) := by
  simp only [GetNext, hload, saveState, hw]

theorem getNextSeq_values (ms : List Manager) :
    ∀ (d : Disk) (S : Int), loadState d = .ok { Current := S } → d.readFault = none →
      d.writeFault = none → S + ms.length ≤ maxInt →
      (getNextSeq ms d).1 = (List.range ms.length).map (fun (k : Nat) => S + ((k : Int) + 1)) := by
  induction ms with
  | nil => intro d S _ _ _ _; rfl
  | cons m ms ih =>
    intro d S hload hr hw hmax
    have hS : minInt ≤ S ∧ S ≤ maxInt := loadState_range d _ hload
    simp only [List.length_cons, Nat.cast_add, Nat.cast_one] at hmax
    have hwrap : wrapInt (S + 1) = S + 1 :=
      wrapInt_of_range _ (by have := hS.1; omega) (by omega)
    have hnext := GetNext_ok m d S hload hw
    rw [hwrap] at hnext
    have hload1 := loadState_saved d (S + 1) hr (by have := hS.1; omega) (by omega)
    have := ih _ (S + 1) hload1 hr hw (by omega)
    simp only [getNextSeq, hnext, this, List.length_cons, List.range_succ_eq_map, List.map_cons,
      List.map_map]
    refine congrArg₂ _ (by simp) (List.map_congr_left ?_)
    intro k _
    simp only [Function.comp, Nat.cast_succ]
    omega

theorem getNextSeq_disk (ms : List Manager) :
    ∀ (d : Disk) (S : Int), loadState d = .ok { Current := S } → d.readFault = none →
      d.writeFault = none → S + ms.length ≤ maxInt →
      loadState (getNextSeq ms d).2 = .ok { Current := S + ms.length } := by
  induction ms with
  | nil => intro d S h _ _ _; simpa [getNextSeq] using h
  | cons m ms ih =>
    intro d S hload hr hw hmax
    have hS : minInt ≤ S ∧ S ≤ maxInt := loadState_range d _ hload
    simp only [List.length_cons, Nat.cast_add, Nat.cast_one] at hmax
    have hwrap : wrapInt (S + 1) = S + 1 :=
      wrapInt_of_range _ (by have := hS.1; omega) (by omega)
    have hnext := GetNext_ok m d S hload hw
    rw [hwrap] at hnext
    have hload1 := loadState_saved d (S + 1) hr (by have := hS.1; omega) (by omega)
    have := ih _ (S + 1) hload1 hr hw (by omega)
    simp only [getNextSeq, hnext, this, List.length_cons, Nat.cast_add, Nat.cast_one]
    congr 2
    omega

/-- C1 (amended). Starting from a persisted state `S`, with reads and writes succeeding and
`S + N` not above the largest Go `int`, `N` consecutive `GetNext` calls (by any managers, the
same one or ones constructed afresh after a restart) return exactly `S+1, ..., S+N`, strictly
increasing, and the state persisted after the `k`-th call is `S + k`. -/
theorem getNext_sequence (ms : List Manager) (d : Disk) (S : Int)
    (hload : loadState d = .ok { Current := S }) (hr : d.readFault = none)
    (hw : d.writeFault = none) (hmax : S + ms.length ≤ maxInt) :
    (getNextSeq ms d).1 = (List.range ms.length).map (fun (k : Nat) => S + ((k : Int) + 1)) ∧
    (getNextSeq ms d).1.Pairwise (fun a b => a < b) ∧
    (getNextSeq ms d).1.Nodup ∧
    ∀ k, k ≤ ms.length →
      loadState (getNextSeq (ms.take k) d).2 = .ok { Current := S + (k : Int) } := by
  have hv := getNextSeq_values ms d S hload hr hw hmax
  have hp : (getNextSeq ms d).1.Pairwise (fun a b => a < b) := by
    rw [hv, List.pairwise_map]
    exact (List.pairwise_lt_range ms.length).imp (fun h => by omega)
  refine ⟨hv, hp, hp.imp (fun h => ne_of_lt h), ?_⟩
  intro k hk
  have := getNextSeq_disk (ms.take k) d S hload hr hw
    (by rw [List.length_take]; have : min k ms.length = k := Nat.min_eq_left hk; omega)
  rw [List.length_take, Nat.min_eq_left hk] at this
  exact this

/-- The disk on first use: no state file, no lock file, no faults. -/
theorem getNext_sequence_witness :
    (getNextSeq [NewManager, NewManager, NewManager]
        (Disk.mk none none none false none)).1
      = (List.range 3).map (fun (k : Nat) => (0 : Int) + ((k : Int) + 1)) :=
  (getNext_sequence [NewManager, NewManager, NewManager] (Disk.mk none none none false none) 0
    rfl rfl rfl (by decide)).1

/-- C1 (counterexample). From the persisted state `S = 2^63 - 2` two successful `GetNext`
calls return `2^63 - 1` and then `-2^63`: not `S + 2`, and not increasing. -/
theorem getNext_sequence_overflow :
    loadState (Disk.mk (some (jsonMarshalIndent { Current := 9223372036854775806 })) none none
        false none) = .ok { Current := 9223372036854775806 } ∧
    (getNextSeq [NewManager, NewManager]
        (Disk.mk (some (jsonMarshalIndent { Current := 9223372036854775806 })) none none
          false none)).1 = [9223372036854775807, -9223372036854775808] ∧
    ¬ ((getNextSeq [NewManager, NewManager]
        (Disk.mk (some (jsonMarshalIndent { Current := 9223372036854775806 })) none none
          false none)).1 = [9223372036854775806 + 1, 9223372036854775806 + 2]) ∧
    ¬ ((getNextSeq [NewManager, NewManager]
        (Disk.mk (some (jsonMarshalIndent { Current := 9223372036854775806 })) none none
          false none)).1.Pairwise (fun a b => a < b)) := by
  decide

/-- C2 (amended). `SetOverride(v)` stores `v` itself, so the `GetNext` that follows returns
`v + 1` in Go arithmetic, which is `v + 1` for every `v` below the largest `int`, and never
`v`; `v` is what `GetCurrent` returns in between. -/
theorem setOverride_then_getNext (m : Manager) (d : Disk) (v : Int)
    (hr : d.readFault = none) (hw : d.writeFault = none)
    (h1 : minInt ≤ v) (h2 : v ≤ maxInt) :
    (SetOverride m d v).1 = none ∧
    GetCurrent m (SetOverride m d v).2 = .ok v ∧
    (GetNext m (SetOverride m d v).2).1 = .ok (wrapInt (v + 1)) ∧
    (v < maxInt → (GetNext m (SetOverride m d v).2).1 = .ok (v + 1)) ∧
    (GetNext m (SetOverride m d v).2).1 ≠ .ok v := by
  have hset : SetOverride m d v
      = (none, { d with stateFile := some (jsonMarshalIndent { Current := v }) }) := by
    simp only [SetOverride, saveState, hw]
  have hload := loadState_saved d v hr h1 h2
  have hnext := GetNext_ok m _ v hload hw
  rw [hset]
  refine ⟨rfl, ?_, ?_, ?_, ?_⟩
  · simp only [GetCurrent, hload]
  · rw [hnext]
  · intro hlt
    rw [hnext, wrapInt_of_range (v + 1) (by omega) (by omega)]
  · rw [hnext]
    intro h
    simp only [Except.ok.injEq] at h
    unfold wrapInt at h
    unfold minInt at h1
    unfold maxInt at h2
    omega

/-- C2 (witness): on a fresh disk, `SetOverride(41)` followed by `GetNext()` yields 42. -/
theorem setOverride_then_getNext_witness :
    (GetNext NewManager (SetOverride NewManager (Disk.mk none none none false none) 41).2).1
      = .ok (41 + 1) :=
  (setOverride_then_getNext NewManager (Disk.mk none none none false none) 41 rfl rfl
    (by decide) (by decide)).2.2.2.1 (by decide)

/-- C2 (counterexample). On a fresh disk `SetOverride(5)` followed by `GetNext()` yields 6,
not 5. -/
theorem setOverride_then_getNext_not_same :
    (SetOverride NewManager (Disk.mk none none none false none) 5).1 = none ∧
    (GetNext NewManager (SetOverride NewManager (Disk.mk none none none false none) 5).2).1
      = .ok 6 ∧
    (GetNext NewManager (SetOverride NewManager (Disk.mk none none none false none) 5).2).1
      ≠ .ok 5 := by
  decide

/-- C3 (amended). An absent state file is treated as `current = 0`: `GetCurrent` returns 0
and, the write succeeding, `GetNext` returns 1. A state file that is present but does not
decode is an error: `loadState`, `GetCurrent` and `GetNext` all fail with the error of
`json.Unmarshal`, and `GetNext` leaves the file as it is. -/
theorem loadState_absent_or_corrupt (m : Manager) (d : Disk) :
    (d.stateFile = none →
      loadState d = .ok { Current := 0 } ∧ GetCurrent m d = .ok 0 ∧
      (d.writeFault = none → (GetNext m d).1 = .ok 1)) ∧
    (∀ data err, d.stateFile = some data → d.readFault = none →
      jsonUnmarshal data = .error err →
      loadState d = .error err ∧ GetCurrent m d = .error err ∧
      GetNext m d = (.error err, d)) := by
  constructor
  · intro hf
    have hload : loadState d = .ok { Current := 0 } := by simp only [loadState, hf]
    refine ⟨hload, by simp only [GetCurrent, hload], ?_⟩
    intro hw
    rw [GetNext_ok m d 0 hload hw]
    rfl
  · intro data err hf hr hu
    have hload : loadState d = .error err := by simp only [loadState, hf, hr, hu]
    exact ⟨hload, by simp only [GetCurrent, hload], by simp only [GetNext, hload]⟩

/-- C3 (witness): an absent file gives 0 and then 1; an empty file gives the decoding
error. -/
theorem loadState_absent_or_corrupt_witness :
    (GetCurrent NewManager (Disk.mk none none none false none) = .ok 0 ∧
      (GetNext NewManager (Disk.mk none none none false none)).1 = .ok 1) ∧
    GetCurrent NewManager (Disk.mk (some []) none none false none)
      = .error "invalid JSON input".toList :=
  ⟨⟨((loadState_absent_or_corrupt NewManager (Disk.mk none none none false none)).1 rfl).2.1,
    ((loadState_absent_or_corrupt NewManager (Disk.mk none none none false none)).1 rfl).2.2 rfl⟩,
   ((loadState_absent_or_corrupt NewManager (Disk.mk (some []) none none false none)).2
      [] "invalid JSON input".toList rfl rfl (by decide)).2.1⟩

/-- C3 (counterexample). A state file that is present but corrupt, here an empty file and a
file holding a record cut off in the middle, is not treated as `current = 0`: `GetCurrent`
and `GetNext` both fail, and neither returns 0 or 1. -/
theorem loadState_corrupt_fails :
    GetCurrent NewManager (Disk.mk (some []) none none false none)
      = .error "invalid JSON input".toList ∧
    (GetNext NewManager (Disk.mk (some []) none none false none)).1
      = .error "invalid JSON input".toList ∧
    GetCurrent NewManager (Disk.mk (some "\x7b\n  \"current\": 4".toList) none none false none)
      = .error "invalid JSON input".toList ∧
    (GetNext NewManager (Disk.mk (some "\x7b\n  \"current\": 4".toList) none none false none)).1
      = .error "invalid JSON input".toList ∧
    GetCurrent NewManager (Disk.mk (some []) none none false none) ≠ .ok 0 ∧
    (GetNext NewManager (Disk.mk (some []) none none false none)).1 ≠ .ok 1 := by
  decide

/-! ## Paths -/

theorem splitSlash_ne_nil (p : List Char) : splitSlash p ≠ [] := by
  cases p with
  | nil => simp [splitSlash]
  | cons c cs =>
    unfold splitSlash
    split_ifs
    · simp
    · split <;> simp

theorem splitSlash_append (a b : List Char) :
    splitSlash (a ++ '/' :: b) = splitSlash a ++ splitSlash b := by
  induction a with
  | nil => simp [splitSlash]
  | cons c a ih =>
    by_cases hc : c = '/'
    · simp [splitSlash, hc, ih]
    · obtain ⟨h, t, e⟩ := List.exists_cons_of_ne_nil (splitSlash_ne_nil a)
      simp [splitSlash, hc, ih, e]

theorem splitSlash_of_no_slash (n : List Char) (h : '/' ∉ n) : splitSlash n = [n] := by
  induction n with
  | nil => rfl
  | cons c cs ih =>
    simp only [List.mem_cons, not_or] at h
    have hc : c ≠ '/' := fun e => h.1 e.symm
    simp [splitSlash, hc, ih h.2]

theorem joinSlash_append_single (ys : List (List Char)) (n : List Char) (h : ys ≠ []) :
    joinSlash (ys ++ [n]) = joinSlash ys ++ '/' :: n := by
  induction ys with
  | nil => exact absurd rfl h
  | cons y ys ih =>
    cases ys with
    | nil => simp [joinSlash]
    | cons z zs =>
      have := ih (by simp)
      simp only [List.cons_append] at this ⊢
      simp [joinSlash, this]

theorem lastElement_after_slash (q n : List Char) (h : '/' ∉ n) :
    lastElement (q ++ '/' :: n) = n := by
  unfold lastElement
  have hr : (q ++ '/' :: n).reverse = n.reverse ++ '/' :: q.reverse := by simp
  rw [hr]
  have : List.takeWhile (fun c => c != '/') (n.reverse ++ '/' :: q.reverse) = n.reverse := by
    have hn : ∀ c ∈ n.reverse, (c != '/') = true := by
      intro c hc
      have : c ∈ n := List.mem_reverse.mp hc
      simp only [bne_iff_ne, ne_eq]
      intro e; subst e; exact h this
    generalize n.reverse = l at hn
    induction l with
    | nil => simp [List.takeWhile]
    | cons x xs ih =>
      have hx := hn x (List.mem_cons_self _ _)
      have := ih (fun c hc => hn c (List.mem_cons_of_mem _ hc))
      simp [List.takeWhile, hx, this]
  rw [this, List.reverse_reverse]

theorem lastElement_of_no_slash (n : List Char) (h : '/' ∉ n) : lastElement n = n := by
  unfold lastElement
  have : List.takeWhile (fun c => c != '/') n.reverse = n.reverse := by
    rw [List.takeWhile_eq_self_iff]
    intro c hc
    have : c ∈ n := List.mem_reverse.mp hc
    simp only [bne_iff_ne, ne_eq]
    intro e; subst e; exact h this
  rw [this, List.reverse_reverse]

theorem stripTrailingSlashes_of_end (p n : List Char) (hne : n ≠ []) (h : '/' ∉ n) :
    stripTrailingSlashes (p ++ n) = p ++ n := by
  unfold stripTrailingSlashes
  obtain ⟨c, r, e⟩ := List.exists_cons_of_ne_nil (List.reverse_ne_nil_iff.mpr hne)
  have hc : c ≠ '/' := by
    intro e'
    have : c ∈ n := List.mem_reverse.mp (by rw [e]; exact List.mem_cons_self _ _)
    exact h (e' ▸ this)
  have hr : (p ++ n).reverse = c :: (r ++ p.reverse) := by simp [e]
  rw [hr]
  have hb : (c == '/') = false := by simp [hc]
  simp only [List.dropWhile, hb]
  rw [← hr, List.reverse_reverse]

/-- The base name of a path that ends in a separator followed by `n`, or is `n`. -/
theorem filepathBase_of_end (p n : List Char) (hne : n ≠ []) (h : '/' ∉ n)
    (hp : p = [] ∨ ∃ q, p = q ++ ['/']) : filepathBase (p ++ n) = n := by
  have hne2 : p ++ n ≠ [] := by simp [hne]
  have hl : lastElement (p ++ n) = n := by
    rcases hp with hp | ⟨q, hq⟩
    · subst hp; simpa using lastElement_of_no_slash n h
    · subst hq; simpa using lastElement_after_slash q n h
  simp [filepathBase, hne2, stripTrailingSlashes_of_end p n hne h, hl, hne]

/-- Cleaning a path whose last element is a real name keeps that name at the end. -/
theorem filepathClean_end (path n : List Char) (hpath : path ≠ [])
    (hsplit : ∃ xs, splitSlash path = xs ++ [n])
    (hne : n ≠ []) (hdot : n ≠ ['.']) (hdd : n ≠ ['.', '.']) :
    ∃ p, filepathClean path = p ++ n ∧ (p = [] ∨ ∃ q, p = q ++ ['/']) := by
  obtain ⟨xs, hxs⟩ := hsplit
  obtain ⟨c, cs, e⟩ := List.exists_cons_of_ne_nil hpath
  subst e
  have hstep : ∀ rooted stack, cleanStep rooted stack n = n :: stack := by
    intro rooted stack
    simp [cleanStep, hne, hdot, hdd]
  have hbody : ∀ rooted : Bool,
      ((splitSlash (c :: cs)).foldl (cleanStep rooted) []).reverse
        = (xs.foldl (cleanStep rooted) []).reverse ++ [n] := by
    intro rooted
    rw [hxs, List.foldl_append]
    simp [hstep]
  simp only [filepathClean, hbody]
  generalize (xs.foldl (cleanStep (decide (c = '/'))) []).reverse = ys
  by_cases hys : ys = []
  · subst hys
    by_cases hr : c = '/'
    · exact ⟨['/'], by simp [joinSlash, hr], Or.inr ⟨[], rfl⟩⟩
    · exact ⟨[], by simp [joinSlash, hr, hne], Or.inl rfl⟩
  · rw [joinSlash_append_single ys n hys]
    by_cases hr : c = '/'
    · exact ⟨'/' :: (joinSlash ys ++ ['/']), by simp [hr], Or.inr ⟨'/' :: joinSlash ys, rfl⟩⟩
    · exact ⟨joinSlash ys ++ ['/'], by simp [hr], Or.inr ⟨joinSlash ys, rfl⟩⟩

/-- Joining a directory and the name of one of its entries and taking the base name gives the
name back. -/
theorem filepathBase_join (dir n : List Char) (hne : n ≠ []) (h : '/' ∉ n)
    (hdot : n ≠ ['.']) (hdd : n ≠ ['.', '.']) :
    filepathBase (filepathJoin dir n) = n := by
  have key : ∀ path, path ≠ [] → (∃ xs, splitSlash path = xs ++ [n]) →
      filepathBase (filepathClean path) = n := by
    intro path hpath hs
    obtain ⟨p, hp, hq⟩ := filepathClean_end path n hpath hs hne hdot hdd
    rw [hp]
    exact filepathBase_of_end p n hne h hq
  unfold filepathJoin
  by_cases hd : dir = []
  · simp only [hd, ne_eq, not_true_eq_false, if_false, hne, not_false_eq_true, if_true]
    exact key n hne ⟨[], by simp [splitSlash_of_no_slash n h]⟩
  · simp only [ne_eq, hd, not_false_eq_true, if_true]
    exact key _ (by simp) ⟨splitSlash dir, by
      rw [splitSlash_append, splitSlash_of_no_slash n h]⟩

/-! ## The rasterizer adapter -/

theorem natDigits_no_slash (n : Nat) : '/' ∉ natDigits n := by
  intro h
  have := List.all_eq_true.mp (natDigits_all_digits n) '/' h
  revert this; decide

theorem pageFileName_no_slash (n : Nat) : '/' ∉ pageFileName n := by
  have := natDigits_no_slash n
  simp [pageFileName, this]

theorem stripLit_append (l r : List Char) : stripLit l (l ++ r) = some r := by
  induction l with
  | nil => cases r <;> rfl
  | cons c cs ih => simp [stripLit, ih]

theorem stripLit_isPrefixOf (l s : List Char) (h : l.isPrefixOf s = true) :
    ∃ r, s = l ++ r := by
  rw [List.isPrefixOf_iff_prefix] at h
  obtain ⟨r, hr⟩ := h
  exact ⟨r, hr.symm⟩

/-- A name starting with `page-` is a real path element. -/
theorem pagePrefix_real (n : List Char) (h : stringsHasPrefix n "page-".toList = true) :
    n ≠ [] ∧ n ≠ ['.'] ∧ n ≠ ['.', '.'] := by
  obtain ⟨r, hr⟩ := stripLit_isPrefixOf _ _ h
  subst hr
  refine ⟨?_, ?_, ?_⟩ <;> simp

theorem filepathBase_join_page (dir n : List Char) (hp : isPageFile n = true) (h : '/' ∉ n) :
    filepathBase (filepathJoin dir n) = n := by
  simp only [isPageFile, Bool.and_eq_true] at hp
  obtain ⟨h1, h2, h3⟩ := pagePrefix_real n hp.1
  exact filepathBase_join dir n h1 h h2 h3

theorem scanIntVerb_natDigits (n : Nat) (tl : List Char) (h : (n : Int) ≤ maxInt) :
    scanIntVerb (natDigits n ++ '.' :: tl) = some (n : Int) := by
  have hall := natDigits_all_digits n
  obtain ⟨c, rest, e⟩ := List.exists_cons_of_ne_nil (natDigits_ne_nil n)
  have hd : isDecDigit c = true := by
    rw [e] at hall; simp only [List.all_cons, Bool.and_eq_true] at hall; exact hall.1
  have hnl : c ≠ '\n' := by intro e; subst e; revert hd; decide
  have hsp : isFmtSpace c = false := by
    have hc : 48 ≤ c.toNat ∧ c.toNat ≤ 57 := by
      simpa [isDecDigit] using hd
    simp only [isFmtSpace, Bool.or_eq_false_iff, decide_eq_false_iff_not, beq_eq_false_iff_ne]
    omega
  have hskip : scanSkipSpace (natDigits n ++ '.' :: tl) = some (natDigits n ++ '.' :: tl) := by
    rw [e]; simp [scanSkipSpace, hnl, hsp]
  have hts : takeSign true (natDigits n ++ '.' :: tl) = ([], natDigits n ++ '.' :: tl) := by
    rw [e]; exact takeSign_digit true c _ hd
  have hspan := span_digits_stop (natDigits n) '.' tl hall (by decide)
  simp only [scanIntVerb, hskip, hts, hspan, natDigits_ne_nil, if_false, List.nil_append]
  exact parseInt_natDigits n h

/-- The page number read back from the path of a page file is the number in its name. -/
theorem extractPageNum_pageFile (dir : List Char) (n : Nat) (h : (n : Int) ≤ maxInt) :
    extractPageNum (filepathJoin dir (pageFileName n)) = (n : Int) := by
  have hb : filepathBase (filepathJoin dir (pageFileName n)) = pageFileName n :=
    filepathBase_join dir _ (by simp [pageFileName]) (pageFileName_no_slash n)
      (by simp [pageFileName]) (by simp [pageFileName])
  have hs : stripLit "page-".toList (pageFileName n) = some (natDigits n ++ ".jpg".toList) := by
    have := stripLit_append "page-".toList (natDigits n ++ ".jpg".toList)
    simpa [pageFileName] using this
  simp only [extractPageNum, hb, hs]
  have := scanIntVerb_natDigits n "jpg".toList h
  simp only [show ".jpg".toList = '.' :: "jpg".toList from rfl, this]

theorem sortSlice_perm (files : List (List Char)) : (sortSlice files).Perm files :=
  List.perm_insertionSort _ _

theorem sortSlice_sorted (files : List (List Char)) :
    (sortSlice files).Pairwise (fun a b => extractPageNum a ≤ extractPageNum b) :=
  List.sorted_insertionSort pageOrder files

theorem pairwise_lt_of_le_of_nodup (l : List (List Char))
    (h1 : l.Pairwise (fun a b => extractPageNum a ≤ extractPageNum b))
    (h2 : (l.map extractPageNum).Nodup) :
    l.Pairwise (fun a b => extractPageNum a < extractPageNum b) := by
  have h3 : l.Pairwise (fun a b => extractPageNum a ≠ extractPageNum b) := by
    rw [List.Nodup, List.pairwise_map] at h2
    exact h2
  exact (h1.and h3).imp (fun h => lt_of_le_of_ne h.1 h.2)

/-- The run of `ExtractPages` when the engine and the directory listing succeed. -/
theorem ExtractPages_ok (env : GsEnv) (g : GhostscriptWrapper) (pdfPath outDir : List Char)
    (dpi quality : Int) (absPdf absOut : List Char) (files : List (List Char))
    (hpdf : env.abs pdfPath = .ok absPdf) (hout : env.abs outDir = .ok absOut)
    (hrun : env.runGs g.ExecutablePath (gsArgs absPdf absOut dpi quality) = none)
    (hdir : env.readDir absOut = .ok files) :
    ExtractPages env g pdfPath outDir dpi quality
      = .ok (sortSlice ((files.filter isPageFile).map (fun name => filepathJoin absOut name))) := by
  simp only [ExtractPages, hpdf, hout, hrun, hdir]

/-- C4. After a successful engine run `ExtractPages` returns exactly the directory entries
named `page-....jpg`, each joined to the absolute output directory and each once, ordered by
the page number `extractPageNum` reads from them; entries with pairwise different numbers come
out strictly ascending, and for entries `page-N.jpg` with pairwise distinct `N` (numbers of Go
`int`) the result is those entries in strictly ascending order of `N`. -/
theorem extractPages_numeric_order (env : GsEnv) (g : GhostscriptWrapper)
    (pdfPath outDir : List Char) (dpi quality : Int) (absPdf absOut : List Char)
    (files : List (List Char))
    (hpdf : env.abs pdfPath = .ok absPdf) (hout : env.abs outDir = .ok absOut)
    (hrun : env.runGs g.ExecutablePath (gsArgs absPdf absOut dpi quality) = none)
    (hdir : env.readDir absOut = .ok files) :
    ∃ result, ExtractPages env g pdfPath outDir dpi quality = .ok result ∧
      result.Perm ((files.filter isPageFile).map (fun name => filepathJoin absOut name)) ∧
      (files.Nodup → (∀ name ∈ files, '/' ∉ name) → result.Nodup) ∧
      result.Pairwise (fun a b => extractPageNum a ≤ extractPageNum b) ∧
      ((result.map extractPageNum).Nodup →
        result.Pairwise (fun a b => extractPageNum a < extractPageNum b)) ∧
      (∀ ns : List Nat, ns.Nodup → (∀ n ∈ ns, (n : Int) ≤ maxInt) →
        files.filter isPageFile = ns.map pageFileName →
        result = (ns.insertionSort (fun a b => a ≤ b)).map
            (fun n => filepathJoin absOut (pageFileName n)) ∧
        result.Pairwise (fun a b => extractPageNum a < extractPageNum b)) := by
  refine ⟨_, ExtractPages_ok env g pdfPath outDir dpi quality absPdf absOut files hpdf hout hrun
    hdir, sortSlice_perm _, ?_, sortSlice_sorted _, ?_, ?_⟩
  · intro hnd hslash
    rw [(sortSlice_perm _).nodup_iff]
    refine List.Nodup.map_on ?_ (hnd.filter _)
    intro a ha b hb hab
    simp only [List.mem_filter] at ha hb
    have h1 := filepathBase_join_page absOut a ha.2 (hslash a ha.1)
    have h2 := filepathBase_join_page absOut b hb.2 (hslash b hb.1)
    rw [← h1, ← h2, hab]
  · exact pairwise_lt_of_le_of_nodup _ (sortSlice_sorted _)
  · intro ns hnd hmax hfiles
    set result := sortSlice ((files.filter isPageFile).map (fun name => filepathJoin absOut name))
      with hres
    have hperm : result.Perm (ns.map ((fun name => filepathJoin absOut name) ∘ pageFileName)) := by
      exact (sortSlice_perm _).trans (List.Perm.of_eq (by rw [hfiles, List.map_map]))
    have hkey : ∀ p ∈ result, ∃ n ∈ ns, p = filepathJoin absOut (pageFileName n) ∧
        extractPageNum p = (n : Int) := by
      intro p hp
      obtain ⟨n, hn, e⟩ := List.mem_map.mp (hperm.subset hp)
      exact ⟨n, hn, e.symm, by rw [← e]; exact extractPageNum_pageFile absOut n (hmax n hn)⟩
    have hkeys : (result.map extractPageNum).Perm (ns.map (fun (n : Nat) => (n : Int))) := by
      have h1 := hperm.map extractPageNum
      rw [List.map_map] at h1
      have h2 : List.map (extractPageNum ∘ ((fun name => filepathJoin absOut name) ∘ pageFileName))
          ns = ns.map (fun (n : Nat) => (n : Int)) := by
        apply List.map_congr_left
        intro n hn
        exact extractPageNum_pageFile absOut n (hmax n hn)
      rw [h2] at h1
      exact h1
    have hnd2 : (result.map extractPageNum).Nodup := by
      rw [hkeys.nodup_iff]
      exact hnd.map (fun a b h => by exact_mod_cast h)
    have hlt := pairwise_lt_of_le_of_nodup result (sortSlice_sorted _) hnd2
    refine ⟨?_, hlt⟩
    -- the numbers of the result are the sorted numbers
    have hsorted : (result.map extractPageNum).Sorted (fun a b => a ≤ b) := by
      rw [List.Sorted, List.pairwise_map]
      exact sortSlice_sorted _
    have hsorted2 : ((ns.insertionSort (fun a b => a ≤ b)).map (fun (n : Nat) => (n : Int))).Sorted
        (fun a b => a ≤ b) := by
      rw [List.Sorted, List.pairwise_map]
      exact (List.sorted_insertionSort (fun a b : Nat => a ≤ b) ns).imp
        (fun h => by exact_mod_cast h)
    have hperm2 : (result.map extractPageNum).Perm
        ((ns.insertionSort (fun a b => a ≤ b)).map (fun (n : Nat) => (n : Int))) :=
      hkeys.trans ((List.perm_insertionSort _ ns).map _).symm
    have heq := List.eq_of_perm_of_sorted hperm2 hsorted hsorted2
    have hrec : result = (result.map extractPageNum).map
        (fun k => filepathJoin absOut (pageFileName k.toNat)) := by
      rw [List.map_map]
      conv_lhs => rw [← List.map_id result]
      apply List.map_congr_left
      intro p hp
      obtain ⟨n, _, e1, e2⟩ := hkey p hp
      simp only [Function.comp, id, e2, Int.toNat_ofNat]
      exact e1
    rw [hrec, heq, List.map_map]
    apply List.map_congr_left
    intro n _
    simp

/-- C4 (witness). With `page-2.jpg`, `page-10.jpg`, `page-1.jpg` (and a stray file) in the
output directory `/tmp/job`, `ExtractPages` returns `page-1.jpg`, `page-2.jpg`, `page-10.jpg`
of that directory, in this order. -/
theorem extractPages_numeric_order_witness :
    ExtractPages exampleGsEnv exampleGs "in.pdf".toList "/tmp/job".toList 300 95
      = .ok ["/tmp/job/page-1.jpg".toList, "/tmp/job/page-2.jpg".toList,
          "/tmp/job/page-10.jpg".toList] := by
  obtain ⟨result, hres, _, _, _, _, hN⟩ :=
    extractPages_numeric_order exampleGsEnv exampleGs "in.pdf".toList "/tmp/job".toList 300 95
      "in.pdf".toList "/tmp/job".toList
      ["page-2.jpg".toList, "page-10.jpg".toList, "page-1.jpg".toList, "gs.log".toList]
      rfl rfl rfl rfl
  have h := (hN [2, 10, 1] (by decide) (by decide) (by decide)).1
  rw [hres, h]
  decide

/-! ## The pipeline orchestrator -/

theorem parseNat_zeros (k : Nat) (ds : List Char) :
    parseNat (List.replicate k '0' ++ ds) = parseNat ds := by
  induction k with
  | zero => rfl
  | succ k ih =>
    have h0 : digitVal '0' = 0 := by decide
    simp only [parseNat, List.replicate_succ, List.cons_append, List.foldl_cons, h0] at ih ⊢
    exact ih

theorem sprintf04d_nonneg (n : Int) (h : 0 ≤ n) :
    sprintf04d n = List.replicate (4 - (natDigits n.toNat).length) '0' ++ natDigits n.toNat := by
  have e : n.natAbs = n.toNat := by omega
  have hn : ¬ n < 0 := by omega
  simp only [sprintf04d, hn, if_false, e]

/-- C5 (amended). For every non-empty prefix `p` and every non-negative serial number `n` the
label `Process` builds is `p` followed by the decimal digits of `n`, padded on the left with
`0` to at least 4 digits and never cut: its length is `len(p) + max(4, digits of n)`, what
follows `p` consists of decimal digits and denotes `n`. An empty prefix is replaced by `AR`
first. -/
theorem serialText_format (p : List Char) (n : Int) (hn : 0 ≤ n) :
    (p ≠ [] →
      serialText p n
        = p ++ (List.replicate (4 - (natDigits n.toNat).length) '0' ++ natDigits n.toNat) ∧
      (serialText p n).length = p.length + max 4 (natDigits n.toNat).length ∧
      ((serialText p n).drop p.length).all isDecDigit = true ∧
      (parseNat ((serialText p n).drop p.length) : Int) = n) ∧
    (p = [] → serialText p n = serialText "AR".toList n) := by
  constructor
  · intro hp
    have e : serialText p n
        = p ++ (List.replicate (4 - (natDigits n.toNat).length) '0' ++ natDigits n.toNat) := by
      simp only [serialText, hp, if_false, sprintf04d_nonneg n hn]
    refine ⟨e, ?_, ?_, ?_⟩
    · rw [e]
      simp only [List.length_append, List.length_replicate]
      omega
    · rw [e, List.drop_left, List.all_append, natDigits_all_digits]
      simp [show isDecDigit '0' = true from by decide]
    · rw [e, List.drop_left, parseNat_zeros, parseNat_natDigits]
      omega
  · intro hp
    subst hp
    rfl

/-- C5 (witness): prefix `AR` with 7 gives `AR0007`, with 12345 gives `AR12345`. -/
theorem serialText_format_witness :
    serialText "AR".toList 7 = "AR0007".toList ∧
    serialText "AR".toList 12345 = "AR12345".toList ∧
    (serialText "AR".toList 12345).length = "AR".toList.length + max 4 (natDigits 12345).length :=
  ⟨by decide, by decide,
    ((serialText_format "AR".toList 12345 (by decide)).1 (by decide)).2.1⟩

/-- C5 (counterexample). With the empty prefix the label for 7 is `AR0007`: not the empty
prefix followed by `0007`, and of length 6, not `0 + 4`. -/
theorem serialText_empty_prefix :
    serialText [] 7 = "AR0007".toList ∧
    serialText [] 7 ≠ [] ++ "0007".toList ∧
    (serialText [] 7).length ≠ ([] : List Char).length + max 4 (natDigits 7).length := by
  decide

theorem addPages_cons_error (env : PdfEnv) (opts : ProcessOptions) (label : List Char)
    (dpi : Int) (i : Nat) (img : List Char) (rest : List (List Char)) (writer writer1 : PDFWriter)
    (err : GoError)
    (h : AddPage env writer img (pageText opts label i) opts.Position dpi = (some err, writer1)) :
    addPages env opts label dpi i (img :: rest) writer
      = (some ("failed to write page ".toList ++ formatInt (i + 1) ++ ": ".toList ++ err), writer1,
          [Event.addPage img (pageText opts label i) opts.Position dpi]) := by
  simp only [addPages, h]

theorem addPages_cons_ok (env : PdfEnv) (opts : ProcessOptions) (label : List Char)
    (dpi : Int) (i : Nat) (img : List Char) (rest : List (List Char)) (writer writer1 : PDFWriter)
    (h : AddPage env writer img (pageText opts label i) opts.Position dpi = (none, writer1)) :
    addPages env opts label dpi i (img :: rest) writer
      = ((addPages env opts label dpi (i + 1) rest writer1).1,
          (addPages env opts label dpi (i + 1) rest writer1).2.1,
          Event.addPage img (pageText opts label i) opts.Position dpi ::
            (addPages env opts label dpi (i + 1) rest writer1).2.2) := by
  simp only [addPages, h]

/-- The loop calls `AddPage` on the images in order, each with the overlay text of its index,
stopping after the first call that fails. -/
theorem addPages_calls (env : PdfEnv) (opts : ProcessOptions) (label : List Char) (dpi : Int)
    (images : List (List Char)) :
    ∀ (i : Nat) (writer : PDFWriter),
      (addPages env opts label dpi i images writer).2.2.length ≤ images.length ∧
      ((addPages env opts label dpi i images writer).1 = none →
        (addPages env opts label dpi i images writer).2.2.length = images.length) ∧
      (images ≠ [] → (addPages env opts label dpi i images writer).2.2 ≠ []) ∧
      ∀ (j : Nat) (img : List Char), images[j]? = some img →
        j < (addPages env opts label dpi i images writer).2.2.length →
        (addPages env opts label dpi i images writer).2.2[j]?
          = some (Event.addPage img (pageText opts label (i + j)) opts.Position dpi) := by
  induction images with
  | nil =>
    intro i writer
    simp [addPages]
  | cons img rest ih =>
    intro i writer
    cases hr : AddPage env writer img (pageText opts label i) opts.Position dpi with
    | mk err writer1 =>
      cases err with
      | some e =>
        rw [addPages_cons_error env opts label dpi i img rest writer writer1 e hr]
        refine ⟨by simp, by simp, by simp, ?_⟩
        intro j im hj hlt
        simp only [List.length_singleton, Nat.lt_one_iff] at hlt
        subst hlt
        simp only [List.getElem?_cons_zero, Option.some.injEq] at hj
        simp [hj]
      | none =>
        rw [addPages_cons_ok env opts label dpi i img rest writer writer1 hr]
        obtain ⟨h1, h2, _, h4⟩ := ih (i + 1) writer1
        refine ⟨by simpa using h1, fun h => by simpa using h2 h, by simp, ?_⟩
        intro j im hj hlt
        cases j with
        | zero =>
          simp only [List.getElem?_cons_zero, Option.some.injEq] at hj
          simp [hj]
        | succ j =>
          simp only [List.getElem?_cons_succ] at hj
          simp only [List.length_cons, Nat.add_lt_add_iff_right] at hlt
          have := h4 j im hj hlt
          simp only [List.getElem?_cons_succ, this]
          congr 3
          omega

theorem addPages_calls_only (env : PdfEnv) (opts : ProcessOptions) (label : List Char) (dpi : Int)
    (images : List (List Char)) :
    ∀ (i : Nat) (writer : PDFWriter),
      ∀ ev ∈ (addPages env opts label dpi i images writer).2.2,
        ∃ img txt, ev = Event.addPage img txt opts.Position dpi := by
  induction images with
  | nil => intro i writer ev h; simp [addPages] at h
  | cons img rest ih =>
    intro i writer ev h
    cases hr : AddPage env writer img (pageText opts label i) opts.Position dpi with
    | mk err writer1 =>
      cases err with
      | some e =>
        rw [addPages_cons_error env opts label dpi i img rest writer writer1 e hr] at h
        simp only [List.mem_singleton] at h
        exact ⟨_, _, h⟩
      | none =>
        rw [addPages_cons_ok env opts label dpi i img rest writer writer1 hr] at h
        simp only [List.mem_cons] at h
        rcases h with h | h
        · exact ⟨_, _, h⟩
        · exact ih (i + 1) writer1 ev h

theorem Process_disk (env : ProcEnv) (p : Pipeline) (w : World) (opts : ProcessOptions)
    (hcheck : CheckDependencies env.gs p.gs = none) :
    (Process env p w opts).2.disk = (GetNext p.counter w.disk).2 := by
  unfold Process
  simp only [hcheck, World.record]
  repeat' split
  all_goals simp_all

theorem getNextCalls_append (l1 l2 : List Event) :
    getNextCalls (l1 ++ l2) = getNextCalls l1 + getNextCalls l2 := by
  simp [getNextCalls, List.count_append]

theorem count_getNext_addPages (env : PdfEnv) (opts : ProcessOptions) (label : List Char)
    (dpi : Int) (images : List (List Char)) (i : Nat) (writer : PDFWriter)
    (err : Option GoError) (writer1 : PDFWriter) (calls : List Event)
    (h : addPages env opts label dpi i images writer = (err, writer1, calls)) :
    List.count Event.getNext calls = 0 := by
  rw [List.count_eq_zero]
  intro hmem
  have hc : calls = (addPages env opts label dpi i images writer).2.2 := by rw [h]
  rw [hc] at hmem
  obtain ⟨img, txt, e⟩ := addPages_calls_only env opts label dpi images i writer _ hmem
  cases e

/-- Once the engine check has passed, `Process` calls `GetNext` exactly once. -/
theorem Process_getNextCalls (env : ProcEnv) (p : Pipeline) (w : World) (opts : ProcessOptions)
    (hcheck : CheckDependencies env.gs p.gs = none) :
    getNextCalls (Process env p w opts).2.log = getNextCalls w.log + 1 := by
  unfold Process
  simp only [hcheck, World.record]
  repeat' split
  all_goals simp_all [getNextCalls_append, getNextCalls]
  all_goals exact count_getNext_addPages _ _ _ _ _ _ _ _ _ _ (by assumption)

/-- When the engine check fails `Process` returns its error and does nothing else. -/
theorem Process_check_failed (env : ProcEnv) (p : Pipeline) (w : World) (opts : ProcessOptions)
    (err : GoError) (hcheck : CheckDependencies env.gs p.gs = some err) :
    Process env p w opts = (some err, w.record [Event.checkDependencies]) := by
  unfold Process
  simp only [hcheck]

/-- C7 (amended). When the engine check passes and the counter can be read and written, the
counter persisted after `Process` is its value `S` before plus 1 in Go `int` addition: exactly
`S + 1` for every `S` below the largest `int`, the wrapped sum in general; and `GetNext` has
been called exactly once, whatever the later steps do and whether `Process` succeeds or fails.
When the engine check fails, `Process` returns its error with the counter files untouched and
without calling `GetNext`. -/
theorem process_consumes_one_number (env : ProcEnv) (p : Pipeline) (w : World)
    (opts : ProcessOptions) :
    (∀ S, CheckDependencies env.gs p.gs = none → loadState w.disk = .ok { Current := S } →
      w.disk.writeFault = none →
      (Process env p w opts).2.disk
        = { w.disk with stateFile := some (jsonMarshalIndent { Current := wrapInt (S + 1) }) } ∧
      (S < maxInt → (Process env p w opts).2.disk.stateFile
        = some (jsonMarshalIndent { Current := S + 1 })) ∧
      (w.disk.readFault = none →
        loadState (Process env p w opts).2.disk = .ok { Current := wrapInt (S + 1) }) ∧
      getNextCalls (Process env p w opts).2.log = getNextCalls w.log + 1) ∧
    (∀ err, CheckDependencies env.gs p.gs = some err →
      (Process env p w opts).1 = some err ∧
      (Process env p w opts).2.disk = w.disk ∧
      getNextCalls (Process env p w opts).2.log = getNextCalls w.log) := by
  constructor
  · intro S hcheck hload hw
    have hS : minInt ≤ S ∧ S ≤ maxInt := loadState_range w.disk _ hload
    have hd : (Process env p w opts).2.disk
        = { w.disk with stateFile := some (jsonMarshalIndent { Current := wrapInt (S + 1) }) } := by
      rw [Process_disk env p w opts hcheck, GetNext_ok p.counter w.disk S hload hw]
    refine ⟨hd, ?_, ?_, Process_getNextCalls env p w opts hcheck⟩
    · intro hlt
      rw [hd, wrapInt_of_range (S + 1) (by have := hS.1; omega) (by omega)]
    · intro hr
      rw [hd]
      exact loadState_saved w.disk _ hr (wrapInt_range _).1 (wrapInt_range _).2
  · intro err hcheck
    rw [Process_check_failed env p w opts err hcheck]
    refine ⟨rfl, rfl, ?_⟩
    simp [World.record, getNextCalls_append, getNextCalls]

/-- C7 (witness). On first use a job that succeeds and a job that fails at the first page
both leave the counter at 1 with one `GetNext` call; a job without engine leaves no counter
file. -/
theorem process_consumes_one_number_witness :
    ((Process exampleProcEnv examplePipeline freshWorld exampleJob).2.disk.stateFile
        = some (jsonMarshalIndent { Current := 0 + 1 }) ∧
      (Process brokenImageProcEnv examplePipeline freshWorld exampleJob).2.disk.stateFile
        = some (jsonMarshalIndent { Current := 0 + 1 })) ∧
    (Process noEngineProcEnv examplePipeline freshWorld exampleJob).2.disk = freshWorld.disk :=
  ⟨⟨((process_consumes_one_number exampleProcEnv examplePipeline freshWorld exampleJob).1 0
        rfl rfl rfl).2.1 (by decide),
    ((process_consumes_one_number brokenImageProcEnv examplePipeline freshWorld exampleJob).1 0
        rfl rfl rfl).2.1 (by decide)⟩,
   ((process_consumes_one_number noEngineProcEnv examplePipeline freshWorld exampleJob).2
      _ rfl).2.1⟩

/-- C7 (counterexample). After `SetNumberOverride(2^63 - 1)` a first job succeeds and leaves
the counter at `2^63 - 1`; the next job passes the engine check, reads and writes the counter
and succeeds, yet the counter persisted afterwards is `-2^63`: not its value before plus 1. -/
theorem process_consumes_one_number_overflow :
    (exampleApp.SetNumberOverride freshWorld.disk 9223372036854775807).1 = none ∧
    (Process exampleProcEnv examplePipeline
        { freshWorld with
          disk := (exampleApp.SetNumberOverride freshWorld.disk 9223372036854775807).2 }
        exampleJob).2.disk
      = Disk.mk (some (jsonMarshalIndent { Current := 9223372036854775807 })) none none
          false none ∧
    CheckDependencies exampleProcEnv.gs examplePipeline.gs = none ∧
    loadState (Disk.mk (some (jsonMarshalIndent { Current := 9223372036854775807 })) none none
        false none) = .ok { Current := 9223372036854775807 } ∧
    (Process exampleProcEnv examplePipeline
        { freshWorld with
          disk := Disk.mk (some (jsonMarshalIndent { Current := 9223372036854775807 })) none
            none false none }
        exampleJob).1 = none ∧
    loadState (Process exampleProcEnv examplePipeline
        { freshWorld with
          disk := Disk.mk (some (jsonMarshalIndent { Current := 9223372036854775807 })) none
            none false none }
        exampleJob).2.disk = .ok { Current := -9223372036854775808 } ∧
    loadState (Process exampleProcEnv examplePipeline
        { freshWorld with
          disk := Disk.mk (some (jsonMarshalIndent { Current := 9223372036854775807 })) none
            none false none }
        exampleJob).2.disk ≠ .ok { Current := 9223372036854775807 + 1 } := by
  decide

/-- C8. A job whose extraction succeeds with an empty list of page images fails with the error
`no pages extracted`: `Process` returns right after the extraction, having removed the
temporary directory; it creates no font file, constructs no writer, calls neither `AddPage`
nor `Save`, and the documents written so far, the output path included, are as before. -/
theorem process_empty_document (env : ProcEnv) (p : Pipeline) (w : World) (opts : ProcessOptions)
    (usageNum : Int) (d1 : Disk) (tmpDir : List Char)
    (hcheck : CheckDependencies env.gs p.gs = none)
    (hnext : GetNext p.counter w.disk = (.ok usageNum, d1))
    (htmp : env.mkdirTemp = .ok tmpDir)
    (hextract : ExtractPages env.gs p.gs opts.InputPath tmpDir
      (GetCompressionSettings opts.CompressionLevel).DPI
      (GetCompressionSettings opts.CompressionLevel).Quality = .ok []) :
    (Process env p w opts).1 = some "no pages extracted".toList ∧
    (Process env p w opts).2.saved = w.saved ∧
    (Process env p w opts).2.log = w.log ++
      [Event.checkDependencies, Event.getNext, Event.mkdirTemp,
        Event.extractPages opts.InputPath tmpDir
          (GetCompressionSettings opts.CompressionLevel).DPI
          (GetCompressionSettings opts.CompressionLevel).Quality,
        Event.removeAll tmpDir] ∧
    Event.save opts.OutputPath ∉ (Process env p w opts).2.log.drop w.log.length ∧
    (∀ fontPath, Event.newPDFWriter fontPath ∉ (Process env p w opts).2.log.drop w.log.length) := by
  have h : Process env p w opts = (some "no pages extracted".toList,
      { disk := d1, saved := w.saved, log := w.log ++
        [Event.checkDependencies, Event.getNext, Event.mkdirTemp,
          Event.extractPages opts.InputPath tmpDir
            (GetCompressionSettings opts.CompressionLevel).DPI
            (GetCompressionSettings opts.CompressionLevel).Quality,
          Event.removeAll tmpDir] }) := by
    unfold Process
    simp [hcheck, World.record, hnext, htmp, hextract]
  rw [h]
  refine ⟨rfl, rfl, rfl, ?_, ?_⟩
  · simp
  · intro fontPath
    simp

/-- C8 (witness). With an engine that writes no page image the example job fails with
`no pages extracted` and nothing is written. -/
theorem process_empty_document_witness :
    (Process emptyDocProcEnv examplePipeline freshWorld exampleJob).1
      = some "no pages extracted".toList ∧
    (Process emptyDocProcEnv examplePipeline freshWorld exampleJob).2.saved = freshWorld.saved :=
  ⟨(process_empty_document emptyDocProcEnv examplePipeline freshWorld exampleJob 1
      (Disk.mk (some (jsonMarshalIndent { Current := 1 })) none none false none)
      "/tmp/job".toList rfl (by decide) rfl (by decide)).1,
   (process_empty_document emptyDocProcEnv examplePipeline freshWorld exampleJob 1
      (Disk.mk (some (jsonMarshalIndent { Current := 1 })) none none false none)
      "/tmp/job".toList rfl (by decide) rfl (by decide)).2.1⟩

theorem addPageCalls_addPages (env : PdfEnv) (opts : ProcessOptions) (label : List Char)
    (dpi : Int) (images : List (List Char)) (i : Nat) (writer : PDFWriter) :
    addPageCalls (addPages env opts label dpi i images writer).2.2
      = (addPages env opts label dpi i images writer).2.2 := by
  unfold addPageCalls
  rw [List.filter_eq_self]
  intro ev hev
  obtain ⟨img, txt, e⟩ := addPages_calls_only env opts label dpi images i writer ev hev
  rw [e]

theorem addPageCalls_append (l1 l2 : List Event) :
    addPageCalls (l1 ++ l2) = addPageCalls l1 ++ addPageCalls l2 := by
  simp [addPageCalls]

/-- The calls `Process` makes once the page images are there and the font file is written:
the `AddPage` calls of the loop, then `Save` if none of them failed, then the clean-up. -/
theorem Process_pages_log (env : ProcEnv) (p : Pipeline) (w : World) (opts : ProcessOptions)
    (usageNum : Int) (d1 : Disk) (tmpDir fontTmp : List Char) (images : List (List Char))
    (hcheck : CheckDependencies env.gs p.gs = none)
    (hnext : GetNext p.counter w.disk = (.ok usageNum, d1))
    (htmp : env.mkdirTemp = .ok tmpDir)
    (hextract : ExtractPages env.gs p.gs opts.InputPath tmpDir
      (GetCompressionSettings opts.CompressionLevel).DPI
      (GetCompressionSettings opts.CompressionLevel).Quality = .ok images)
    (hne : images ≠ [])
    (hfont : env.createTemp = .ok fontTmp) (hwrite : env.fontWrite = none) :
    ∃ tail, (Process env p w opts).2.log = w.log ++
        ([Event.checkDependencies, Event.getNext, Event.mkdirTemp,
          Event.extractPages opts.InputPath tmpDir
            (GetCompressionSettings opts.CompressionLevel).DPI
            (GetCompressionSettings opts.CompressionLevel).Quality,
          Event.createTemp, Event.fontWrite fontTmp, Event.newPDFWriter fontTmp] ++
         ((addPages env.pdf opts (serialText opts.Prefix usageNum)
            (GetCompressionSettings opts.CompressionLevel).DPI 0 images
            (NewPDFWriter env.pdf fontTmp)).2.2 ++ tail)) ∧
      addPageCalls tail = [] ∧
      ((Process env p w opts).1 = none →
        (addPages env.pdf opts (serialText opts.Prefix usageNum)
            (GetCompressionSettings opts.CompressionLevel).DPI 0 images
            (NewPDFWriter env.pdf fontTmp)).1 = none) := by
  have hlen : ¬ images.length = 0 := by
    intro h; exact hne (List.length_eq_zero.mp h)
  unfold Process
  simp only [hcheck, World.record, hnext, htmp, hextract, hlen, if_false, hfont, hwrite]
  rcases hr : addPages env.pdf opts (serialText opts.Prefix usageNum)
      (GetCompressionSettings opts.CompressionLevel).DPI 0 images
      (NewPDFWriter env.pdf fontTmp) with ⟨err, writer1, calls⟩
  cases err with
  | some e =>
    exact ⟨[Event.remove fontTmp, Event.removeAll tmpDir], by simp, by simp [addPageCalls], by simp⟩
  | none =>
    cases hs : Save env.pdf writer1 opts.OutputPath with
    | some e =>
      exact ⟨[Event.save opts.OutputPath, Event.remove fontTmp, Event.removeAll tmpDir],
        by simp [hs], by simp [addPageCalls], by simp⟩
    | none =>
      exact ⟨[Event.save opts.OutputPath, Event.remove fontTmp, Event.removeAll tmpDir],
        by simp [hs], by simp [addPageCalls], by simp⟩

theorem serialText_ne_nil (optsPrefix : List Char) (n : Int) : serialText optsPrefix n ≠ [] := by
  unfold serialText
  by_cases h : optsPrefix = []
  · simp [h]
  · simp [h]

/-- The run of the loop: `ws j` is the writer the call at index `j` works on. Every call but
the last made succeeded; the last one made either failed, and the loop returns its error, or
was the call for the last image. -/
theorem addPages_run (env : PdfEnv) (opts : ProcessOptions) (label : List Char) (dpi : Int)
    (images : List (List Char)) :
    ∀ (i : Nat) (writer : PDFWriter),
      ∃ ws : Nat → PDFWriter, ws 0 = writer ∧
        ∀ (j : Nat) (img : List Char), images[j]? = some img →
          j < (addPages env opts label dpi i images writer).2.2.length →
          ws (j + 1)
            = (AddPage env (ws j) img (pageText opts label (i + j)) opts.Position dpi).2 ∧
          (j + 1 < (addPages env opts label dpi i images writer).2.2.length →
            (AddPage env (ws j) img (pageText opts label (i + j)) opts.Position dpi).1 = none) ∧
          (j + 1 = (addPages env opts label dpi i images writer).2.2.length →
            (addPages env opts label dpi i images writer).1
              = (AddPage env (ws j) img (pageText opts label (i + j)) opts.Position dpi).1.map
                  (fun err => "failed to write page ".toList
                    ++ formatInt (((i + j : Nat) : Int) + 1) ++ ": ".toList ++ err) ∧
            ((AddPage env (ws j) img (pageText opts label (i + j)) opts.Position dpi).1 = none →
              (addPages env opts label dpi i images writer).2.2.length = images.length)) := by
  induction images with
  | nil =>
    intro i writer
    exact ⟨fun _ => writer, rfl, by simp⟩
  | cons img rest ih =>
    intro i writer
    cases hr : AddPage env writer img (pageText opts label i) opts.Position dpi with
    | mk err writer1 =>
      cases err with
      | some e =>
        rw [addPages_cons_error env opts label dpi i img rest writer writer1 e hr]
        refine ⟨fun k => if k = 0 then writer else writer1, rfl, ?_⟩
        intro j im hj hlt
        simp only [List.length_singleton, Nat.lt_one_iff] at hlt
        subst hlt
        simp only [List.getElem?_cons_zero, Option.some.injEq] at hj
        subst hj
        simp [hr]
      | none =>
        rw [addPages_cons_ok env opts label dpi i img rest writer writer1 hr]
        obtain ⟨ws1, hws0, hrun⟩ := ih (i + 1) writer1
        obtain ⟨_, _, h3, _⟩ := addPages_calls env opts label dpi rest (i + 1) writer1
        refine ⟨fun k => match k with | 0 => writer | k + 1 => ws1 k, rfl, ?_⟩
        intro j im hj hlt
        cases j with
        | zero =>
          simp only [List.getElem?_cons_zero, Option.some.injEq] at hj
          subst hj
          simp only [Nat.add_zero, hr, hws0, Option.map_none', true_and, List.length_cons,
            implies_true, Nat.zero_add]
          intro hlen
          have hnil : rest = [] := by
            by_contra hc
            have := List.length_pos.mpr (h3 hc)
            omega
          subst hnil
          simp [addPages]
        | succ j =>
          simp only [List.getElem?_cons_succ] at hj
          simp only [List.length_cons, Nat.add_lt_add_iff_right] at hlt
          obtain ⟨r1, r2, r3⟩ := hrun j im hj hlt
          have e1 : i + (j + 1) = i + 1 + j := by omega
          simp only [List.length_cons, Nat.add_lt_add_iff_right, Nat.add_right_cancel_iff, e1]
          exact ⟨r1, r2, r3⟩

/-- When a call of the loop fails, `Process` returns the error of the loop. -/
theorem Process_pages_error (env : ProcEnv) (p : Pipeline) (w : World) (opts : ProcessOptions)
    (usageNum : Int) (d1 : Disk) (tmpDir fontTmp : List Char) (images : List (List Char))
    (hcheck : CheckDependencies env.gs p.gs = none)
    (hnext : GetNext p.counter w.disk = (.ok usageNum, d1))
    (htmp : env.mkdirTemp = .ok tmpDir)
    (hextract : ExtractPages env.gs p.gs opts.InputPath tmpDir
      (GetCompressionSettings opts.CompressionLevel).DPI
      (GetCompressionSettings opts.CompressionLevel).Quality = .ok images)
    (hne : images ≠ [])
    (hfont : env.createTemp = .ok fontTmp) (hwrite : env.fontWrite = none) (e : GoError)
    (he : (addPages env.pdf opts (serialText opts.Prefix usageNum)
        (GetCompressionSettings opts.CompressionLevel).DPI 0 images
        (NewPDFWriter env.pdf fontTmp)).1 = some e) :
    (Process env p w opts).1 = some e := by
  have hlen : ¬ images.length = 0 := by
    intro h; exact hne (List.length_eq_zero.mp h)
  unfold Process
  simp only [hcheck, World.record, hnext, htmp, hextract, hlen, if_false, hfont, hwrite]
  rcases hr : addPages env.pdf opts (serialText opts.Prefix usageNum)
      (GetCompressionSettings opts.CompressionLevel).DPI 0 images
      (NewPDFWriter env.pdf fontTmp) with ⟨err, writer1, calls⟩
  rw [hr] at he
  simp only at he
  subst he
  rfl

/-- The `AddPage` calls of `Process`, given page images and the font file: `ws j` is the writer
the call at index `j` works on, starting from the new writer. The call at index `j` is for the
image at index `j`; every call but the last made succeeded; a failing call is the last one and
`Process` returns its error; fewer calls than images are made only when the last one failed. -/
theorem Process_addPage_run (env : ProcEnv) (p : Pipeline) (w : World) (opts : ProcessOptions)
    (usageNum : Int) (d1 : Disk) (tmpDir fontTmp : List Char) (images : List (List Char))
    (hcheck : CheckDependencies env.gs p.gs = none)
    (hnext : GetNext p.counter w.disk = (.ok usageNum, d1))
    (htmp : env.mkdirTemp = .ok tmpDir)
    (hextract : ExtractPages env.gs p.gs opts.InputPath tmpDir
      (GetCompressionSettings opts.CompressionLevel).DPI
      (GetCompressionSettings opts.CompressionLevel).Quality = .ok images)
    (hne : images ≠ [])
    (hfont : env.createTemp = .ok fontTmp) (hwrite : env.fontWrite = none) :
    ∃ ws : Nat → PDFWriter, ws 0 = NewPDFWriter env.pdf fontTmp ∧
      0 < (addPageCalls ((Process env p w opts).2.log.drop w.log.length)).length ∧
      (addPageCalls ((Process env p w opts).2.log.drop w.log.length)).length ≤ images.length ∧
      (∀ (j : Nat) (img : List Char), images[j]? = some img →
        j < (addPageCalls ((Process env p w opts).2.log.drop w.log.length)).length →
        (addPageCalls ((Process env p w opts).2.log.drop w.log.length))[j]?
          = some (Event.addPage img (pageText opts (serialText opts.Prefix usageNum) j)
              opts.Position (GetCompressionSettings opts.CompressionLevel).DPI) ∧
        ws (j + 1) = (AddPage env.pdf (ws j) img
            (pageText opts (serialText opts.Prefix usageNum) j) opts.Position
            (GetCompressionSettings opts.CompressionLevel).DPI).2 ∧
        (j + 1 < (addPageCalls ((Process env p w opts).2.log.drop w.log.length)).length →
          (AddPage env.pdf (ws j) img
            (pageText opts (serialText opts.Prefix usageNum) j) opts.Position
            (GetCompressionSettings opts.CompressionLevel).DPI).1 = none) ∧
        (j + 1 = (addPageCalls ((Process env p w opts).2.log.drop w.log.length)).length →
          (AddPage env.pdf (ws j) img
            (pageText opts (serialText opts.Prefix usageNum) j) opts.Position
            (GetCompressionSettings opts.CompressionLevel).DPI).1 = none →
          (addPageCalls ((Process env p w opts).2.log.drop w.log.length)).length
            = images.length) ∧
        (∀ err, (AddPage env.pdf (ws j) img
            (pageText opts (serialText opts.Prefix usageNum) j) opts.Position
            (GetCompressionSettings opts.CompressionLevel).DPI).1 = some err →
          j + 1 = (addPageCalls ((Process env p w opts).2.log.drop w.log.length)).length ∧
          (Process env p w opts).1 = some ("failed to write page ".toList
            ++ formatInt ((j : Int) + 1) ++ ": ".toList ++ err))) ∧
      ((Process env p w opts).1 = none →
        (addPageCalls ((Process env p w opts).2.log.drop w.log.length)).length
          = images.length) := by
  obtain ⟨tail, hlog, htail, hok⟩ := Process_pages_log env p w opts usageNum d1 tmpDir fontTmp
    images hcheck hnext htmp hextract hne hfont hwrite
  obtain ⟨h1, h2, h3, h4⟩ := addPages_calls env.pdf opts (serialText opts.Prefix usageNum)
    (GetCompressionSettings opts.CompressionLevel).DPI images 0 (NewPDFWriter env.pdf fontTmp)
  obtain ⟨ws, hws0, hrun⟩ := addPages_run env.pdf opts (serialText opts.Prefix usageNum)
    (GetCompressionSettings opts.CompressionLevel).DPI images 0 (NewPDFWriter env.pdf fontTmp)
  have herr := Process_pages_error env p w opts usageNum d1 tmpDir fontTmp images hcheck hnext
    htmp hextract hne hfont hwrite
  have hcalls : addPageCalls ((Process env p w opts).2.log.drop w.log.length)
      = (addPages env.pdf opts (serialText opts.Prefix usageNum)
          (GetCompressionSettings opts.CompressionLevel).DPI 0 images
          (NewPDFWriter env.pdf fontTmp)).2.2 := by
    rw [hlog, List.drop_left, addPageCalls_append, addPageCalls_append, htail,
      addPageCalls_addPages]
    simp [addPageCalls]
  rw [hcalls]
  refine ⟨ws, hws0, List.length_pos.mpr (h3 hne), h1, ?_, fun h => h2 (hok h)⟩
  intro j img hj hlt
  obtain ⟨r1, r2, r3⟩ := hrun j img hj hlt
  have hc := h4 j img hj hlt
  simp only [Nat.zero_add] at r1 r2 r3 hc
  refine ⟨hc, r1, r2, fun hlast hnone => (r3 hlast).2 hnone, ?_⟩
  intro err herr1
  have hlast : j + 1 = (addPages env.pdf opts (serialText opts.Prefix usageNum)
      (GetCompressionSettings opts.CompressionLevel).DPI 0 images
      (NewPDFWriter env.pdf fontTmp)).2.2.length := by
    by_contra hc2
    have hlt2 : j + 1 < (addPages env.pdf opts (serialText opts.Prefix usageNum)
        (GetCompressionSettings opts.CompressionLevel).DPI 0 images
        (NewPDFWriter env.pdf fontTmp)).2.2.length := by omega
    rw [r2 hlt2] at herr1
    cases herr1
  refine ⟨hlast, herr _ ?_⟩
  rw [(r3 hlast).1, herr1]
  rfl

/-- C6 (amended). Given a non-empty list of page images from the extractor and the font file
written, `Process` calls `AddPage` on the images in exactly their order, each at most once and
the first at least, and stops after the first call that fails: the call at index `j` is for
the image at index `j`, with the job's position and the job's DPI, on the writer `ws j` the
calls before it have left (`ws 0` is the new writer); its overlay text is the serial label if
and only if `j = 0` and the overlay flag is set, the empty string otherwise; every call that is
followed by another one succeeded, and a call that fails is the last one, `Process` returning
`failed to write page j+1` with its error. Fewer calls than images are made only when the last
call made failed: when no call fails, in particular when `Process` succeeds, there is one call
per image, whatever `Save` does afterwards. -/
theorem process_addPage_calls (env : ProcEnv) (p : Pipeline) (w : World) (opts : ProcessOptions)
    (usageNum : Int) (d1 : Disk) (tmpDir fontTmp : List Char) (images : List (List Char))
    (hcheck : CheckDependencies env.gs p.gs = none)
    (hnext : GetNext p.counter w.disk = (.ok usageNum, d1))
    (htmp : env.mkdirTemp = .ok tmpDir)
    (hextract : ExtractPages env.gs p.gs opts.InputPath tmpDir
      (GetCompressionSettings opts.CompressionLevel).DPI
      (GetCompressionSettings opts.CompressionLevel).Quality = .ok images)
    (hne : images ≠ [])
    (hfont : env.createTemp = .ok fontTmp) (hwrite : env.fontWrite = none) :
    ∃ ws : Nat → PDFWriter, ws 0 = NewPDFWriter env.pdf fontTmp ∧
      0 < (addPageCalls ((Process env p w opts).2.log.drop w.log.length)).length ∧
      (addPageCalls ((Process env p w opts).2.log.drop w.log.length)).length ≤ images.length ∧
      (∀ (j : Nat) (img : List Char), images[j]? = some img →
        j < (addPageCalls ((Process env p w opts).2.log.drop w.log.length)).length →
        ∃ txt, (addPageCalls ((Process env p w opts).2.log.drop w.log.length))[j]?
            = some (Event.addPage img txt opts.Position
                (GetCompressionSettings opts.CompressionLevel).DPI) ∧
          (txt = serialText opts.Prefix usageNum ↔ (j = 0 ∧ opts.Overlay = true)) ∧
          (¬ (j = 0 ∧ opts.Overlay = true) → txt = []) ∧
          ws (j + 1) = (AddPage env.pdf (ws j) img txt opts.Position
              (GetCompressionSettings opts.CompressionLevel).DPI).2 ∧
          (j + 1 < (addPageCalls ((Process env p w opts).2.log.drop w.log.length)).length →
            (AddPage env.pdf (ws j) img txt opts.Position
              (GetCompressionSettings opts.CompressionLevel).DPI).1 = none) ∧
          (∀ err, (AddPage env.pdf (ws j) img txt opts.Position
              (GetCompressionSettings opts.CompressionLevel).DPI).1 = some err →
            j + 1 = (addPageCalls ((Process env p w opts).2.log.drop w.log.length)).length ∧
            (Process env p w opts).1 = some ("failed to write page ".toList
              ++ formatInt ((j : Int) + 1) ++ ": ".toList ++ err))) ∧
      ((addPageCalls ((Process env p w opts).2.log.drop w.log.length)).length < images.length →
        ∃ j img txt err,
          j + 1 = (addPageCalls ((Process env p w opts).2.log.drop w.log.length)).length ∧
          images[j]? = some img ∧
          (addPageCalls ((Process env p w opts).2.log.drop w.log.length))[j]?
            = some (Event.addPage img txt opts.Position
                (GetCompressionSettings opts.CompressionLevel).DPI) ∧
          (AddPage env.pdf (ws j) img txt opts.Position
            (GetCompressionSettings opts.CompressionLevel).DPI).1 = some err) ∧
      ((∀ (j : Nat) (img txt : List Char), images[j]? = some img →
          (addPageCalls ((Process env p w opts).2.log.drop w.log.length))[j]?
            = some (Event.addPage img txt opts.Position
                (GetCompressionSettings opts.CompressionLevel).DPI) →
          (AddPage env.pdf (ws j) img txt opts.Position
            (GetCompressionSettings opts.CompressionLevel).DPI).1 = none) →
        (addPageCalls ((Process env p w opts).2.log.drop w.log.length)).length
          = images.length) ∧
      ((Process env p w opts).1 = none →
        (addPageCalls ((Process env p w opts).2.log.drop w.log.length)).length
          = images.length) := by
  obtain ⟨ws, hws0, hpos, hle, hrun, hok⟩ := Process_addPage_run env p w opts usageNum d1 tmpDir
    fontTmp images hcheck hnext htmp hextract hne hfont hwrite
  have hlast : (addPageCalls ((Process env p w opts).2.log.drop w.log.length)).length
        < images.length →
      ∃ j img txt err,
        j + 1 = (addPageCalls ((Process env p w opts).2.log.drop w.log.length)).length ∧
        images[j]? = some img ∧
        (addPageCalls ((Process env p w opts).2.log.drop w.log.length))[j]?
          = some (Event.addPage img txt opts.Position
              (GetCompressionSettings opts.CompressionLevel).DPI) ∧
        (AddPage env.pdf (ws j) img txt opts.Position
          (GetCompressionSettings opts.CompressionLevel).DPI).1 = some err := by
    intro hlt
    obtain ⟨n, hn⟩ : ∃ n, (addPageCalls
        ((Process env p w opts).2.log.drop w.log.length)).length = n + 1 :=
      ⟨_, (Nat.succ_pred_eq_of_pos hpos).symm⟩
    have hj : n < images.length := by omega
    obtain ⟨r1, _, _, r4, _⟩ := hrun n images[n] (List.getElem?_eq_getElem hj) (by omega)
    cases hres : (AddPage env.pdf (ws n) images[n]
        (pageText opts (serialText opts.Prefix usageNum) n) opts.Position
        (GetCompressionSettings opts.CompressionLevel).DPI).1 with
    | none =>
      have := r4 hn.symm hres
      omega
    | some err =>
      exact ⟨n, images[n], _, err, hn.symm, List.getElem?_eq_getElem hj, r1, hres⟩
  refine ⟨ws, hws0, hpos, hle, ?_, hlast, ?_, hok⟩
  · intro j img hj hlt
    obtain ⟨r1, r2, r3, _, r5⟩ := hrun j img hj hlt
    refine ⟨pageText opts (serialText opts.Prefix usageNum) j, r1, ?_, ?_, r2, r3, r5⟩
    · simp only [pageText]
      constructor
      · intro h
        by_contra hc
        rw [if_neg hc] at h
        exact serialText_ne_nil _ _ h.symm
      · intro h
        rw [if_pos h]
    · intro h
      simp only [pageText, if_neg h]
  · intro hall
    by_contra hne2
    have hlt : (addPageCalls ((Process env p w opts).2.log.drop w.log.length)).length
        < images.length := by omega
    obtain ⟨j, img, txt, err, _, h1, h2, h3⟩ := hlast hlt
    rw [hall j img txt h1 h2] at h3
    cases h3

/-- C6 (witness). The example job with three page images and an environment in which
nothing fails makes three `AddPage` calls; so does the same job when only `Save` fails. -/
theorem process_addPage_calls_witness :
    (addPageCalls ((Process exampleProcEnv examplePipeline freshWorld exampleJob).2.log.drop
        freshWorld.log.length)).length
      = ["/tmp/job/page-1.jpg".toList, "/tmp/job/page-2.jpg".toList,
          "/tmp/job/page-10.jpg".toList].length ∧
    (Process saveFailsProcEnv examplePipeline freshWorld exampleJob).1
      = some "failed to save output: disk full".toList ∧
    addPageCalls (Process saveFailsProcEnv examplePipeline freshWorld exampleJob).2.log
      = [Event.addPage "/tmp/job/page-1.jpg".toList "AR0001".toList "bottom-right".toList 100,
         Event.addPage "/tmp/job/page-2.jpg".toList [] "bottom-right".toList 100,
         Event.addPage "/tmp/job/page-10.jpg".toList [] "bottom-right".toList 100] := by
  obtain ⟨_, _, _, _, _, _, _, h⟩ :=
    process_addPage_calls exampleProcEnv examplePipeline freshWorld exampleJob 1
      (Disk.mk (some (jsonMarshalIndent { Current := 1 })) none none false none)
      "/tmp/job".toList "/tmp/font.ttf".toList
      ["/tmp/job/page-1.jpg".toList, "/tmp/job/page-2.jpg".toList, "/tmp/job/page-10.jpg".toList]
      rfl (by decide) rfl (by decide) (by decide) rfl rfl
  exact ⟨h (by decide), by decide, by decide⟩

/-- C6 (counterexample). The extractor returns three page images, but the first cannot be
decoded: `Process` calls `AddPage` once, for the first image, and returns the error; the
second and third image are never passed to `AddPage`. -/
theorem process_addPage_stops_at_failure :
    ExtractPages brokenImageProcEnv.gs examplePipeline.gs exampleJob.InputPath "/tmp/job".toList
        (GetCompressionSettings exampleJob.CompressionLevel).DPI
        (GetCompressionSettings exampleJob.CompressionLevel).Quality
      = .ok ["/tmp/job/page-1.jpg".toList, "/tmp/job/page-2.jpg".toList,
          "/tmp/job/page-10.jpg".toList] ∧
    addPageCalls (Process brokenImageProcEnv examplePipeline freshWorld exampleJob).2.log
      = [Event.addPage "/tmp/job/page-1.jpg".toList "AR0001".toList "bottom-right".toList 100] ∧
    (Process brokenImageProcEnv examplePipeline freshWorld exampleJob).1
      = some "failed to write page 1: image: unknown format".toList := by
  decide

theorem addPages_calls_of_eq (env : PdfEnv) (opts : ProcessOptions) (label : List Char)
    (dpi : Int) (images : List (List Char)) (i : Nat) (writer : PDFWriter)
    (err : Option GoError) (writer1 : PDFWriter) (calls : List Event)
    (h : addPages env opts label dpi i images writer = (err, writer1, calls)) :
    ∀ ev ∈ calls, ∃ img txt, ev = Event.addPage img txt opts.Position dpi := by
  have hc : calls = (addPages env opts label dpi i images writer).2.2 := by rw [h]
  rw [hc]
  exact addPages_calls_only env opts label dpi images i writer

/-- Once the engine check has passed, the number is issued and the temporary directory
exists, `Process` calls the extractor, exactly once, with the DPI and the quality of the
job's compression level. -/
theorem Process_extract_log (env : ProcEnv) (p : Pipeline) (w : World) (opts : ProcessOptions)
    (usageNum : Int) (d1 : Disk) (tmpDir : List Char)
    (hcheck : CheckDependencies env.gs p.gs = none)
    (hnext : GetNext p.counter w.disk = (.ok usageNum, d1))
    (htmp : env.mkdirTemp = .ok tmpDir) :
    ∃ rest, (Process env p w opts).2.log.drop w.log.length
        = [Event.checkDependencies, Event.getNext, Event.mkdirTemp,
            Event.extractPages opts.InputPath tmpDir
              (GetCompressionSettings opts.CompressionLevel).DPI
              (GetCompressionSettings opts.CompressionLevel).Quality] ++ rest ∧
      ∀ pdfPath outDir dpi quality, Event.extractPages pdfPath outDir dpi quality ∉ rest := by
  unfold Process
  simp only [hcheck, World.record, hnext, htmp]
  cases hex : ExtractPages env.gs p.gs opts.InputPath tmpDir
      (GetCompressionSettings opts.CompressionLevel).DPI
      (GetCompressionSettings opts.CompressionLevel).Quality with
  | error err => exact ⟨[Event.removeAll tmpDir], by simp, by simp⟩
  | ok images =>
    simp only
    split_ifs with hlen
    · exact ⟨[Event.removeAll tmpDir], by simp, by simp⟩
    · cases hfont : env.createTemp with
      | error err => exact ⟨[Event.createTemp, Event.removeAll tmpDir], by simp, by simp⟩
      | ok fontTmp =>
        simp only
        cases hwrite : env.fontWrite with
        | some err =>
          exact ⟨[Event.createTemp, Event.fontWrite fontTmp, Event.remove fontTmp,
            Event.removeAll tmpDir], by simp, by simp⟩
        | none =>
          simp only
          rcases hr : addPages env.pdf opts (serialText opts.Prefix usageNum)
              (GetCompressionSettings opts.CompressionLevel).DPI 0 images
              (NewPDFWriter env.pdf fontTmp) with ⟨err, writer1, calls⟩
          have hcalls : ∀ pdfPath outDir dpi quality,
              Event.extractPages pdfPath outDir dpi quality ∉ calls := by
            intro a b c d hmem
            obtain ⟨img, txt, e⟩ := addPages_calls_of_eq _ _ _ _ _ _ _ _ _ _ hr _ hmem
            cases e
          cases err with
          | some e =>
            refine ⟨[Event.createTemp, Event.fontWrite fontTmp, Event.newPDFWriter fontTmp]
              ++ (calls ++ [Event.remove fontTmp, Event.removeAll tmpDir]), by simp, ?_⟩
            intro a b c d
            simp [hcalls a b c d]
          | none =>
            cases hs : Save env.pdf writer1 opts.OutputPath with
            | some e =>
              refine ⟨[Event.createTemp, Event.fontWrite fontTmp, Event.newPDFWriter fontTmp]
                ++ (calls ++ [Event.save opts.OutputPath, Event.remove fontTmp,
                  Event.removeAll tmpDir]), by simp [hs], ?_⟩
              intro a b c d
              simp [hcalls a b c d]
            | none =>
              refine ⟨[Event.createTemp, Event.fontWrite fontTmp, Event.newPDFWriter fontTmp]
                ++ (calls ++ [Event.save opts.OutputPath, Event.remove fontTmp,
                  Event.removeAll tmpDir]), by simp [hs], ?_⟩
              intro a b c d
              simp [hcalls a b c d]

/-- When the extractor fails, `Process` returns its error. -/
theorem Process_extract_error (env : ProcEnv) (p : Pipeline) (w : World) (opts : ProcessOptions)
    (usageNum : Int) (d1 : Disk) (tmpDir : List Char) (err : GoError)
    (hcheck : CheckDependencies env.gs p.gs = none)
    (hnext : GetNext p.counter w.disk = (.ok usageNum, d1))
    (htmp : env.mkdirTemp = .ok tmpDir)
    (hextract : ExtractPages env.gs p.gs opts.InputPath tmpDir
      (GetCompressionSettings opts.CompressionLevel).DPI
      (GetCompressionSettings opts.CompressionLevel).Quality = .error err) :
    (Process env p w opts).1 = some ("extraction failed: ".toList ++ err) := by
  unfold Process
  simp only [hcheck, World.record, hnext, htmp, hextract]

/-- C10. `GetCompressionSettings` maps `none` to (300, 95), `low` to (200, 85), `medium` to
(150, 75), `high` to (100, 65) and every other string, the empty one included, to (300, 95);
it is a total function. `Process` passes the DPI and the quality of the job's level to the
extractor, and that same DPI to every `AddPage` call: once the engine check has passed, the
number is issued and the temporary directory exists, the extractor is called, exactly once,
with that pair, and its error is the error of `Process`; given its page images and the font
file, `AddPage` is called with that DPI for the first image at least and for every image unless
a call fails (`ws j` is the writer the call at index `j` works on). No other call of the
extractor or of `AddPage` is made. -/
theorem compression_settings (env : ProcEnv) (p : Pipeline) (w : World) (opts : ProcessOptions) :
    GetCompressionSettings "none".toList = { DPI := 300, Quality := 95 } ∧
    GetCompressionSettings "low".toList = { DPI := 200, Quality := 85 } ∧
    GetCompressionSettings "medium".toList = { DPI := 150, Quality := 75 } ∧
    GetCompressionSettings "high".toList = { DPI := 100, Quality := 65 } ∧
    GetCompressionSettings [] = { DPI := 300, Quality := 95 } ∧
    (∀ level, level ≠ "low".toList → level ≠ "medium".toList → level ≠ "high".toList →
      GetCompressionSettings level = { DPI := 300, Quality := 95 }) ∧
    (Process env p w opts).2.log.take w.log.length = w.log ∧
    (∀ ev ∈ (Process env p w opts).2.log.drop w.log.length,
      (∀ pdfPath outDir dpi quality, ev = Event.extractPages pdfPath outDir dpi quality →
        dpi = (GetCompressionSettings opts.CompressionLevel).DPI ∧
        quality = (GetCompressionSettings opts.CompressionLevel).Quality) ∧
      (∀ img txt pos dpi, ev = Event.addPage img txt pos dpi →
        dpi = (GetCompressionSettings opts.CompressionLevel).DPI)) ∧
    (∀ (usageNum : Int) (d1 : Disk) (tmpDir : List Char),
      CheckDependencies env.gs p.gs = none →
      GetNext p.counter w.disk = (.ok usageNum, d1) →
      env.mkdirTemp = .ok tmpDir →
      (∃ rest, (Process env p w opts).2.log.drop w.log.length
          = [Event.checkDependencies, Event.getNext, Event.mkdirTemp,
              Event.extractPages opts.InputPath tmpDir
                (GetCompressionSettings opts.CompressionLevel).DPI
                (GetCompressionSettings opts.CompressionLevel).Quality] ++ rest ∧
        ∀ pdfPath outDir dpi quality,
          Event.extractPages pdfPath outDir dpi quality ∉ rest) ∧
      (∀ err, ExtractPages env.gs p.gs opts.InputPath tmpDir
          (GetCompressionSettings opts.CompressionLevel).DPI
          (GetCompressionSettings opts.CompressionLevel).Quality = .error err →
        (Process env p w opts).1 = some ("extraction failed: ".toList ++ err)) ∧
      (∀ (images : List (List Char)) (fontTmp : List Char),
        ExtractPages env.gs p.gs opts.InputPath tmpDir
          (GetCompressionSettings opts.CompressionLevel).DPI
          (GetCompressionSettings opts.CompressionLevel).Quality = .ok images →
        images ≠ [] → env.createTemp = .ok fontTmp → env.fontWrite = none →
        ∃ ws : Nat → PDFWriter, ws 0 = NewPDFWriter env.pdf fontTmp ∧
          0 < (addPageCalls ((Process env p w opts).2.log.drop w.log.length)).length ∧
          (∀ (j : Nat) (img : List Char), images[j]? = some img →
            j < (addPageCalls ((Process env p w opts).2.log.drop w.log.length)).length →
            ∃ txt, (addPageCalls ((Process env p w opts).2.log.drop w.log.length))[j]?
                = some (Event.addPage img txt opts.Position
                    (GetCompressionSettings opts.CompressionLevel).DPI) ∧
              ws (j + 1) = (AddPage env.pdf (ws j) img txt opts.Position
                (GetCompressionSettings opts.CompressionLevel).DPI).2) ∧
          ((addPageCalls ((Process env p w opts).2.log.drop w.log.length)).length
              < images.length →
            ∃ j img txt err,
              j + 1 = (addPageCalls ((Process env p w opts).2.log.drop w.log.length)).length ∧
              images[j]? = some img ∧
              (addPageCalls ((Process env p w opts).2.log.drop w.log.length))[j]?
                = some (Event.addPage img txt opts.Position
                    (GetCompressionSettings opts.CompressionLevel).DPI) ∧
              (AddPage env.pdf (ws j) img txt opts.Position
                (GetCompressionSettings opts.CompressionLevel).DPI).1 = some err) ∧
          ((Process env p w opts).1 = none →
            (addPageCalls ((Process env p w opts).2.log.drop w.log.length)).length
              = images.length))) := by
  refine ⟨by decide, by decide, by decide, by decide, by decide, ?_, ?_, ?_, ?_⟩
  · intro level h1 h2 h3
    unfold GetCompressionSettings
    rw [if_neg h1, if_neg h2, if_neg h3]
  · unfold Process
    simp only [World.record]
    repeat' split
    all_goals simp
  · unfold Process
    simp only [World.record]
    repeat' split
    all_goals simp only [List.append_assoc, List.drop_left, List.forall_mem_append,
      List.forall_mem_cons]
    all_goals simp
    all_goals first
      | (intro a b d q _ _ hd hq
         exact ⟨hd.symm, hq.symm⟩)
      | (refine ⟨fun a b d q _ _ hd hq => ⟨hd.symm, hq.symm⟩, ?_⟩
         intro ev hev
         obtain ⟨img, txt, e⟩ := addPages_calls_of_eq _ _ _ _ _ _ _ _ _ _ (by assumption) ev hev
         subst e
         simp only [Event.addPage.injEq, reduceCtorEq, false_implies, implies_true, true_and,
           and_imp]
         intro _ _ _ _ _ _ _ hd
         exact hd.symm)
  · intro usageNum d1 tmpDir hcheck hnext htmp
    refine ⟨Process_extract_log env p w opts usageNum d1 tmpDir hcheck hnext htmp,
      fun err hex => Process_extract_error env p w opts usageNum d1 tmpDir err hcheck hnext
        htmp hex, ?_⟩
    intro images fontTmp hextract hne hfont hwrite
    obtain ⟨ws, hws0, hpos, hle, hrun, hok⟩ := Process_addPage_run env p w opts usageNum d1
      tmpDir fontTmp images hcheck hnext htmp hextract hne hfont hwrite
    refine ⟨ws, hws0, hpos, ?_, ?_, hok⟩
    · intro j img hj hlt
      obtain ⟨r1, r2, _⟩ := hrun j img hj hlt
      exact ⟨_, r1, r2⟩
    · intro hlt
      obtain ⟨n, hn⟩ : ∃ n, (addPageCalls
          ((Process env p w opts).2.log.drop w.log.length)).length = n + 1 :=
        ⟨_, (Nat.succ_pred_eq_of_pos hpos).symm⟩
      have hj : n < images.length := by omega
      obtain ⟨r1, _, _, r4, _⟩ := hrun n images[n] (List.getElem?_eq_getElem hj) (by omega)
      cases hres : (AddPage env.pdf (ws n) images[n]
          (pageText opts (serialText opts.Prefix usageNum) n) opts.Position
          (GetCompressionSettings opts.CompressionLevel).DPI).1 with
      | none =>
        have := r4 hn.symm hres
        omega
      | some err =>
        exact ⟨n, images[n], _, err, hn.symm, List.getElem?_eq_getElem hj, r1, hres⟩

/-- C10 (witness). A level that is none of the four names, here `ultra`, resolves to
(300, 95). The example job, of level `high`, calls the extractor with (100, 65) and `AddPage`
for each of its three page images with 100. -/
theorem compression_settings_witness :
    GetCompressionSettings "ultra".toList = { DPI := 300, Quality := 95 } ∧
    Event.extractPages "in.pdf".toList "/tmp/job".toList 100 65
      ∈ (Process exampleProcEnv examplePipeline freshWorld exampleJob).2.log.drop
          freshWorld.log.length ∧
    (addPageCalls ((Process exampleProcEnv examplePipeline freshWorld exampleJob).2.log.drop
        freshWorld.log.length)).length = 3 ∧
    ∃ txt, (addPageCalls ((Process exampleProcEnv examplePipeline freshWorld exampleJob).2.log.drop
        freshWorld.log.length))[2]?
      = some (Event.addPage "/tmp/job/page-10.jpg".toList txt "bottom-right".toList 100) := by
  obtain ⟨_, _, _, _, _, h6, _, _, h9⟩ :=
    compression_settings exampleProcEnv examplePipeline freshWorld exampleJob
  obtain ⟨⟨rest, hlog, _⟩, _, hpages⟩ := h9 1
    (Disk.mk (some (jsonMarshalIndent { Current := 1 })) none none false none)
    "/tmp/job".toList rfl (by decide) rfl
  obtain ⟨ws, _, _, hcalls, _, hlen⟩ := hpages
    ["/tmp/job/page-1.jpg".toList, "/tmp/job/page-2.jpg".toList, "/tmp/job/page-10.jpg".toList]
    "/tmp/font.ttf".toList (by decide) (by decide) rfl rfl
  have hn := hlen (by decide)
  refine ⟨h6 "ultra".toList (by decide) (by decide) (by decide), ?_, hn, ?_⟩
  · rw [hlog]
    simp
    left
    decide
  · obtain ⟨txt, h, _⟩ := hcalls 2 "/tmp/job/page-10.jpg".toList rfl (by rw [hn]; decide)
    exact ⟨txt, h⟩

/-! ## The PDF reassembler -/

theorem bitLenAux_spec (fuel : Nat) :
    ∀ n, n ≤ fuel → 0 < n →
      2 ^ (bitLenAux fuel n - 1) ≤ n ∧ n < 2 ^ bitLenAux fuel n ∧ 0 < bitLenAux fuel n := by
  induction fuel with
  | zero => intro n h1 h2; omega
  | succ f ih =>
    intro n hle hpos
    have hn : n ≠ 0 := by omega
    simp only [bitLenAux, hn, if_false, Nat.add_sub_cancel]
    by_cases h1 : n / 2 = 0
    · have : n = 1 := by omega
      subst this
      cases f <;> simp [bitLenAux]
    · obtain ⟨a, b, c⟩ := ih (n / 2) (by omega) (by omega)
      refine ⟨?_, ?_, by omega⟩
      · have e : 2 ^ bitLenAux f (n / 2) = 2 * 2 ^ (bitLenAux f (n / 2) - 1) := by
          rw [← Nat.pow_succ']
          congr 1
          omega
        omega
      · rw [Nat.pow_succ]
        omega

theorem bitLen_spec (n : Nat) (h : 0 < n) :
    2 ^ (bitLen n - 1) ≤ n ∧ n < 2 ^ bitLen n ∧ 0 < bitLen n :=
  bitLenAux_spec n n (Nat.le_refl n) h

theorem bitLen_zero : bitLen 0 = 0 := rfl

theorem bitLen_le_iff (n k : Nat) : bitLen n ≤ k ↔ n < 2 ^ k := by
  by_cases h0 : n = 0
  · subst h0
    simp [bitLen_zero]
  · obtain ⟨a, b, c⟩ := bitLen_spec n (by omega)
    constructor
    · intro h
      exact lt_of_lt_of_le b (Nat.pow_le_pow_right (by norm_num) h)
    · intro h
      by_contra hc
      have : 2 ^ k ≤ 2 ^ (bitLen n - 1) := Nat.pow_le_pow_right (by norm_num) (by omega)
      omega

theorem round53_ne_zero (n : Nat) (sticky : Bool) (h : n ≠ 0) : (round53 n sticky).1 ≠ 0 := by
  unfold round53
  by_cases h1 : bitLen n ≤ 53
  · simp only [h1, if_true]
    exact h
  · simp only [h1, if_false]
    have hq : n / 2 ^ (bitLen n - 53) ≠ 0 := by
      obtain ⟨a, b, c⟩ := bitLen_spec n (by omega)
      intro hq
      have hlt : n < 2 ^ (bitLen n - 53) :=
        (Nat.div_eq_zero_iff (Nat.pow_pos (show 0 < 2 by norm_num))).mp hq
      have : 2 ^ (bitLen n - 53) ≤ 2 ^ (bitLen n - 1) :=
        Nat.pow_le_pow_right (by norm_num) (by omega)
      omega
    split_ifs
    · simp
    · exact hq

theorem normalAux_ne_zero (fuel : Nat) :
    ∀ (m e : Int), m ≠ 0 → (normalAux fuel m e).1 ≠ 0 := by
  induction fuel with
  | zero => intro m e h; exact h
  | succ f ih =>
    intro m e h
    unfold normalAux
    split_ifs with h1
    · exact ih _ _ (by omega)
    · exact h

theorem F64.normal_fin (m e : Int) :
    ∃ m1 e1, F64.normal m e = F64.fin m1 e1 ∧ (m ≠ 0 → m1 ≠ 0) := by
  unfold F64.normal
  split_ifs with h
  · exact ⟨_, _, rfl, fun h' => absurd h h'⟩
  · exact ⟨_, _, rfl, fun _ => normalAux_ne_zero _ _ _ h⟩

theorem F64.ofInt_fin (i : Int) :
    ∃ m e, F64.ofInt i = F64.fin m e ∧ (i ≠ 0 → m ≠ 0) := by
  obtain ⟨m, e, h1, h2⟩ := F64.normal_fin
    (if i < 0 then -((round53 i.natAbs false).1 : Int) else ((round53 i.natAbs false).1 : Int))
    (0 + (round53 i.natAbs false).2)
  refine ⟨m, e, h1, fun hi => h2 ?_⟩
  have := round53_ne_zero i.natAbs false (by omega)
  split_ifs <;> omega

/-- For a positive resolution the page size `AddPage` computes is a finite number. -/
theorem AddPage_size_finite (width dpi : Int) (hdpi : 0 < dpi) :
    ∃ m e, F64.div (F64.mul (F64.ofInt width) (F64.ofInt 72)) (F64.ofInt dpi) = F64.fin m e := by
  obtain ⟨m1, e1, h1, _⟩ := F64.ofInt_fin width
  obtain ⟨m2, e2, h2, _⟩ := F64.ofInt_fin 72
  obtain ⟨m3, e3, h3, hm3⟩ := F64.ofInt_fin dpi
  have hm3 := hm3 (by omega)
  rw [h1, h2, h3]
  obtain ⟨m4, e4, h4, _⟩ := F64.normal_fin
    (if m1 * m2 < 0 then -((round53 (m1 * m2).natAbs false).1 : Int)
      else ((round53 (m1 * m2).natAbs false).1 : Int))
    (e1 + e2 + (round53 (m1 * m2).natAbs false).2)
  have h4' : F64.mul (F64.fin m1 e1) (F64.fin m2 e2) = F64.fin m4 e4 := h4
  rw [h4']
  unfold F64.div
  simp only [hm3, if_false]
  split_ifs
  all_goals first
    | exact ⟨_, _, rfl⟩
    | (obtain ⟨m, e, h, _⟩ := F64.normal_fin _ _; exact ⟨m, e, h⟩)

theorem onLastPage_pages (pdf : GoPdf) (f : Page → Page) (ps : List Page) (pg : Page)
    (h : pdf.pages = ps ++ [pg]) : (pdf.onLastPage f).pages = ps ++ [f pg] := by
  unfold GoPdf.onLastPage
  rw [h]
  simp

/-- The pages after `AddPage` has decoded the image header: the pages before, then one new
page of the computed size, holding the image over its whole area once it is embedded. -/
theorem AddPage_pages (env : PdfEnv) (w : PDFWriter) (imagePath overlayText position : List Char)
    (dpi width height : Int) (hcfg : env.decodeConfig imagePath = .ok (width, height)) :
    ∃ page, (AddPage env w imagePath overlayText position dpi).2.pdf.pages
        = w.pdf.pages ++ [page] ∧
      page.size = { W := pointSize width dpi, H := pointSize height dpi } ∧
      (env.embedImage imagePath = none →
        page.images = [{ path := imagePath, x := F64.fin 0 0, y := F64.fin 0 0,
                         rect := { W := pointSize width dpi, H := pointSize height dpi } }]) := by
  unfold AddPage
  simp only [hcfg]
  cases hemb : env.embedImage imagePath with
  | some err => exact ⟨_, rfl, rfl, fun h => by simp at h⟩
  | none =>
    simp only
    have hp := fun (pdf : GoPdf) (f : Page → Page) (pg : Page)
        (h : pdf.pages = w.pdf.pages ++ [pg]) => onLastPage_pages pdf f w.pdf.pages pg h
    by_cases h1 : overlayText = []
    · simp only [h1, ne_eq, not_true_eq_false, if_false]
      exact ⟨_, hp _ _ _ rfl, rfl, fun _ => rfl⟩
    · simp only [ne_eq, h1, not_false_eq_true, if_true]
      split_ifs with h2
      · cases hm : env.measure overlayText with
        | error err => exact ⟨_, hp _ _ _ rfl, rfl, fun _ => rfl⟩
        | ok textWidth =>
          simp only
          cases hc : env.cell overlayText with
          | some err => exact ⟨_, hp _ _ _ rfl, rfl, fun _ => rfl⟩
          | none => exact ⟨_, hp _ _ _ (hp _ _ _ rfl), rfl, fun _ => rfl⟩
      · exact ⟨_, hp _ _ _ rfl, rfl, fun _ => rfl⟩

/-! ## Exact results of `float64` arithmetic -/

theorem normalAux_odd (v : Nat) :
    ∀ (fuel : Nat) (o e : Int), o % 2 = 1 → v ≤ fuel →
      normalAux fuel (o * 2 ^ v) e = (o, e + v) := by
  induction v with
  | zero =>
    intro fuel o e ho _
    cases fuel with
    | zero => simp [normalAux]
    | succ f =>
      have : ¬ (o * 2 ^ 0 % 2 = 0 ∧ o * 2 ^ 0 ≠ 0) := by
        simp only [pow_zero, mul_one]; omega
      simp only [normalAux, this, if_false]
      simp
  | succ v ih =>
    intro fuel o e ho hle
    cases fuel with
    | zero => omega
    | succ f =>
      have hX : o * 2 ^ (v + 1) = 2 * (o * 2 ^ v) := by ring
      have hne : o * 2 ^ v ≠ 0 := mul_ne_zero (by omega) (pow_ne_zero _ (by norm_num))
      have hc : (o * 2 ^ (v + 1)) % 2 = 0 ∧ o * 2 ^ (v + 1) ≠ 0 := by
        rw [hX]; constructor <;> omega
      have hd : o * 2 ^ (v + 1) / 2 = o * 2 ^ v := by rw [hX]; omega
      unfold normalAux
      rw [if_pos hc, hd, ih f o (e + 1) ho (by omega)]
      simp only [Nat.cast_add, Nat.cast_one, Prod.mk.injEq, true_and]
      ring

theorem normal_odd (o : Int) (v : Nat) (e : Int) (ho : o % 2 = 1) :
    F64.normal (o * 2 ^ v) e = F64.fin o (e + v) := by
  have hne : o * 2 ^ v ≠ 0 := mul_ne_zero (by omega) (pow_ne_zero _ (by norm_num))
  have hfuel : v ≤ (o * 2 ^ v).natAbs := by
    rw [Int.natAbs_mul, Int.natAbs_pow]
    have h1 : 1 ≤ o.natAbs := by omega
    have h2 : v < 2 ^ v := Nat.lt_two_pow v
    have h3 : (2 : Int).natAbs = 2 := rfl
    rw [h3]
    calc v ≤ 2 ^ v := le_of_lt h2
      _ = 1 * 2 ^ v := (one_mul _).symm
      _ ≤ o.natAbs * 2 ^ v := Nat.mul_le_mul_right _ h1
  simp only [F64.normal, hne, if_false, normalAux_odd v _ o e ho hfuel]

theorem exists_odd_decomp (m : Int) (h : m ≠ 0) : ∃ o v, o % 2 = 1 ∧ m = o * 2 ^ v := by
  obtain ⟨k, n, hn, e⟩ := Nat.exists_eq_two_pow_mul_odd (n := m.natAbs) (by omega)
  have hn2 : n % 2 = 1 := Nat.odd_iff.mp hn
  by_cases hm : 0 ≤ m
  · refine ⟨(n : Int), k, by omega, ?_⟩
    have : m = (m.natAbs : Int) := by omega
    rw [this, e]
    push_cast
    ring
  · refine ⟨-(n : Int), k, by omega, ?_⟩
    have : m = -(m.natAbs : Int) := by omega
    rw [this, e]
    push_cast
    ring

theorem odd_decomp_unique_aux (o1 o2 : Int) (v1 v2 : Nat) (h1 : o1 % 2 = 1)
    (hle : v1 ≤ v2) (h : o1 * 2 ^ v1 = o2 * 2 ^ v2) : o1 = o2 ∧ v1 = v2 := by
  obtain ⟨d, rfl⟩ := Nat.exists_eq_add_of_le hle
  have hp : (2 : Int) ^ v1 ≠ 0 := pow_ne_zero _ (by norm_num)
  have h' : o1 = o2 * 2 ^ d := by
    have : o1 * 2 ^ v1 = (o2 * 2 ^ d) * 2 ^ v1 := by rw [h]; ring
    exact mul_right_cancel₀ hp this
  cases d with
  | zero => simp at h'; exact ⟨h', rfl⟩
  | succ d =>
    exfalso
    have : o1 = 2 * (o2 * 2 ^ d) := by rw [h']; ring
    omega

theorem odd_decomp_unique (o1 o2 : Int) (v1 v2 : Nat) (h1 : o1 % 2 = 1) (h2 : o2 % 2 = 1)
    (h : o1 * 2 ^ v1 = o2 * 2 ^ v2) : o1 = o2 ∧ v1 = v2 := by
  rcases Nat.le_total v1 v2 with hle | hle
  · exact odd_decomp_unique_aux o1 o2 v1 v2 h1 hle h
  · obtain ⟨a, b⟩ := odd_decomp_unique_aux o2 o1 v2 v1 h2 hle h.symm
    exact ⟨a.symm, b.symm⟩

theorem round53_small (n : Nat) (sticky : Bool) (h : n < 2 ^ 53) : round53 n sticky = (n, 0) := by
  have : bitLen n ≤ 53 := (bitLen_le_iff n 53).mpr h
  simp only [round53, this, if_true]

theorem F64.round_small (m e : Int) (h : m.natAbs < 2 ^ 53) : F64.round m e = F64.normal m e := by
  have hs : (if m < 0 then -((m.natAbs : Nat) : Int) else ((m.natAbs : Nat) : Int)) = m := by
    split_ifs <;> omega
  simp only [F64.round, round53_small m.natAbs false h, hs, Nat.cast_zero, add_zero]

theorem F64.normal_zero (e : Int) : F64.normal 0 e = F64.fin 0 0 := by
  simp [F64.normal]

theorem bitLen_unique (n b : Nat) (h1 : 2 ^ (b - 1) ≤ n) (h2 : n < 2 ^ b) (hb : 0 < b) :
    bitLen n = b := by
  have hn : 0 < n := lt_of_lt_of_le (Nat.pow_pos (by norm_num)) h1
  obtain ⟨a, c, d⟩ := bitLen_spec n hn
  have hle : bitLen n ≤ b := (bitLen_le_iff n b).mpr h2
  by_contra hne
  have hlt : bitLen n ≤ b - 1 := by omega
  have : n < 2 ^ (b - 1) := lt_of_lt_of_le c (Nat.pow_le_pow_right (by norm_num) hlt)
  omega

theorem bitLen_mul_pow (c s : Nat) (hc : 0 < c) : bitLen (c * 2 ^ s) = bitLen c + s := by
  obtain ⟨a, b, d⟩ := bitLen_spec c hc
  apply bitLen_unique
  · have : bitLen c + s - 1 = (bitLen c - 1) + s := by omega
    rw [this, Nat.pow_add]
    exact Nat.mul_le_mul_right _ a
  · rw [Nat.pow_add]
    exact Nat.mul_lt_mul_of_pos_right b (Nat.pow_pos (by norm_num))
  · omega

/-- The product of two finite values whose mantissas multiply to fewer than 54 bits is
exact. -/
theorem F64.mul_exact (o1 o2 e1 e2 : Int) (h1 : o1 % 2 = 1) (h2 : o2 % 2 = 1)
    (h : (o1 * o2).natAbs < 2 ^ 53) :
    F64.mul (F64.fin o1 e1) (F64.fin o2 e2) = F64.fin (o1 * o2) (e1 + e2) := by
  have hodd : (o1 * o2) % 2 = 1 := by
    rw [Int.mul_emod, h1, h2]; rfl
  have := normal_odd (o1 * o2) 0 (e1 + e2) hodd
  simp only [pow_zero, mul_one, Nat.cast_zero, add_zero] at this
  simp only [F64.mul, F64.round_small _ _ h, this]

/-- Rounding a mantissa of at most 53 bits that was shifted left by `s` gives it back. -/
theorem round53_shifted (c s : Nat) (hc : 0 < c) (hlt : c < 2 ^ 53) (hs : 53 ≤ s) :
    ∃ t, t ≤ s ∧ round53 (c * 2 ^ s) false = (c * 2 ^ t, s - t) := by
  have hb : bitLen c ≤ 53 := (bitLen_le_iff c 53).mpr hlt
  have hb0 : 0 < bitLen c := (bitLen_spec c hc).2.2
  have hlen : bitLen (c * 2 ^ s) = bitLen c + s := bitLen_mul_pow c s hc
  have hnot : ¬ bitLen (c * 2 ^ s) ≤ 53 := by omega
  refine ⟨53 - bitLen c, by omega, ?_⟩
  have hsh : bitLen c + s - 53 = s - (53 - bitLen c) := by omega
  have hsplit : c * 2 ^ s = c * 2 ^ (53 - bitLen c) * 2 ^ (s - (53 - bitLen c)) := by
    rw [Nat.mul_assoc, ← Nat.pow_add]
    congr 2
    omega
  have hpos : 0 < 2 ^ (s - (53 - bitLen c)) := Nat.pow_pos (by norm_num)
  have hq : c * 2 ^ s / 2 ^ (s - (53 - bitLen c)) = c * 2 ^ (53 - bitLen c) := by
    rw [hsplit]
    exact Nat.mul_div_cancel _ hpos
  have hr : c * 2 ^ s % 2 ^ (s - (53 - bitLen c)) = 0 := by
    rw [hsplit]
    exact Nat.mul_mod_left _ _
  have hhalf : 0 < 2 ^ (s - (53 - bitLen c) - 1) := Nat.pow_pos (by norm_num)
  unfold round53
  rw [if_neg hnot]
  simp only [hlen, hsh, hr, hq]
  rw [if_neg (by omega)]

theorem xor_sign_mul (ok od : Int) (hk : ok ≠ 0) (hd : od ≠ 0) :
    xor (decide (ok * od < 0)) (decide (od < 0)) = decide (ok < 0) := by
  rcases lt_or_gt_of_ne hk with h1 | h1 <;> rcases lt_or_gt_of_ne hd with h2 | h2
  · have : 0 < ok * od := mul_pos_of_neg_of_neg h1 h2
    simp [h1, h2, not_lt.mpr (le_of_lt this)]
  · have : ok * od < 0 := mul_neg_of_neg_of_pos h1 h2
    simp [h1, not_lt.mpr (le_of_lt h2), this]
  · have : ok * od < 0 := mul_neg_of_pos_of_neg h1 h2
    simp [not_lt.mpr (le_of_lt h1), h2, this]
  · have : 0 < ok * od := mul_pos h1 h2
    simp [not_lt.mpr (le_of_lt h1), not_lt.mpr (le_of_lt h2), not_lt.mpr (le_of_lt this)]

/-- The quotient of two finite values is exact when the mantissa of the divisor divides the
mantissa of the dividend and the quotient has at most 53 bits. -/
theorem F64.div_exact (od ok va vd : Int) (hd : od % 2 = 1) (hk : ok % 2 = 1)
    (hlt : ok.natAbs < 2 ^ 53) :
    F64.div (F64.fin (ok * od) va) (F64.fin od vd) = F64.fin ok (va - vd) := by
  have hd0 : od ≠ 0 := by omega
  have hk0 : ok ≠ 0 := by omega
  have ha0 : ok * od ≠ 0 := mul_ne_zero hk0 hd0
  have hdpos : 0 < od.natAbs := by omega
  have hkpos : 0 < ok.natAbs := by omega
  have hq : (ok * od).natAbs * 2 ^ (64 + bitLen od.natAbs) / od.natAbs
      = ok.natAbs * 2 ^ (64 + bitLen od.natAbs) := by
    rw [Int.natAbs_mul, Nat.mul_right_comm]
    exact Nat.mul_div_cancel _ hdpos
  have hr : (ok * od).natAbs * 2 ^ (64 + bitLen od.natAbs) % od.natAbs = 0 := by
    rw [Int.natAbs_mul, Nat.mul_right_comm]
    exact Nat.mul_mod_left _ _
  obtain ⟨t, ht, hround⟩ := round53_shifted ok.natAbs (64 + bitLen od.natAbs) hkpos hlt
    (by omega)
  have hsign : (if xor (decide (ok * od < 0)) (decide (od < 0)) = true
        then -(((ok.natAbs * 2 ^ t : Nat)) : Int) else ((ok.natAbs * 2 ^ t : Nat) : Int))
      = ok * 2 ^ t := by
    rw [xor_sign_mul ok od hk0 hd0]
    by_cases h : ok < 0
    · simp only [h, decide_True, if_true]
      push_cast
      rw [abs_of_neg h]; ring
    · simp only [h, decide_False, Bool.false_eq_true, if_false]
      push_cast
      rw [abs_of_nonneg (not_lt.mp h)]
  unfold F64.div
  simp only [hd0, ha0, if_false, hq, hr, ne_eq, not_true_eq_false, decide_False, hround, hsign]
  rw [normal_odd ok t _ hk]
  congr 1
  have : ((64 + bitLen od.natAbs - t : Nat) : Int) = (64 + bitLen od.natAbs : Nat) - (t : Int) := by
    omega
  rw [this]
  ring

theorem natAbs_le_of_decomp (m o : Int) (v : Nat) (h : m = o * 2 ^ v) : o.natAbs ≤ m.natAbs := by
  rw [h, Int.natAbs_mul, Int.natAbs_pow]
  have : 0 < (2 : Int).natAbs ^ v := Nat.pow_pos (by decide)
  exact Nat.le_mul_of_pos_right _ this

theorem F64.ofInt_decomp (i o : Int) (v : Nat) (ho : o % 2 = 1) (h : i = o * 2 ^ v)
    (hlt : i.natAbs < 2 ^ 53) : F64.ofInt i = F64.fin o v := by
  unfold F64.ofInt
  rw [F64.round_small i 0 hlt, h, normal_odd o v 0 ho]
  simp

theorem F64.normal_decomp (m o : Int) (v : Nat) (e : Int) (ho : o % 2 = 1) (h : m = o * 2 ^ v) :
    F64.normal m e = F64.fin o (e + v) := by
  rw [h, normal_odd o v e ho]

/-- The value of a normal form is the value of its arguments. -/
theorem F64.toRat_normal (m e : Int) :
    (F64.normal m e).toRat = some ((m : ℚ) * (2 : ℚ) ^ e) := by
  by_cases h : m = 0
  · subst h
    simp [F64.normal_zero, F64.toRat]
  · obtain ⟨o, v, ho, hm⟩ := exists_odd_decomp m h
    rw [F64.normal_decomp m o v e ho hm, hm]
    simp only [F64.toRat, Option.some.injEq]
    push_cast
    rw [zpow_add₀ (by norm_num : (2 : ℚ) ≠ 0), zpow_natCast]
    ring

/-- When the exact quotient `pixels * 72 / dpi` is a number `k / 2 ^ j` with `k` of at most 53
bits, the size computed in `float64` is exactly that number. -/
theorem pointSize_exact (pixels dpi k : Int) (j : Nat) (hdpi : 0 < dpi)
    (hdlt : dpi.natAbs < 2 ^ 53) (hp : (pixels * 72).natAbs < 2 ^ 53) (hk : k.natAbs < 2 ^ 53)
    (h : pixels * 72 * 2 ^ j = k * dpi) :
    pointSize pixels dpi = F64.normal k (-(j : Int)) := by
  obtain ⟨od, vd, hod, hd⟩ := exists_odd_decomp dpi (by omega)
  have h72 : F64.ofInt 72 = F64.fin 9 3 := by decide
  have hdpiF := F64.ofInt_decomp dpi od vd hod hd hdlt
  have hod0 : od ≠ 0 := by omega
  by_cases hp0 : pixels = 0
  · subst hp0
    have hk0 : k = 0 := by
      have : k * dpi = 0 := by rw [← h]; simp
      rcases mul_eq_zero.mp this with h1 | h1
      · exact h1
      · omega
    subst hk0
    have h0 : F64.mul (F64.ofInt 0) (F64.ofInt 72) = F64.fin 0 0 := by decide
    unfold pointSize
    rw [h0, hdpiF, F64.normal_zero]
    simp [F64.div, hod0]
  · obtain ⟨ow, vw, how, hw⟩ := exists_odd_decomp pixels hp0
    have hk0 : k ≠ 0 := by
      intro hk0
      rw [hk0, zero_mul] at h
      have : pixels * 72 * 2 ^ j ≠ 0 :=
        mul_ne_zero (mul_ne_zero hp0 (by norm_num)) (pow_ne_zero _ (by norm_num))
      exact this h
    obtain ⟨ok, vk, hok, hkd⟩ := exists_odd_decomp k hk0
    have hprod : pixels * 72 = (ow * 9) * 2 ^ (vw + 3) := by rw [hw]; ring
    have hodd9 : (ow * 9) % 2 = 1 := by omega
    have hplt : pixels.natAbs < 2 ^ 53 := by
      have : pixels.natAbs ≤ (pixels * 72).natAbs := by
        rw [Int.natAbs_mul]
        exact Nat.le_mul_of_pos_right _ (by decide)
      omega
    have hpixF := F64.ofInt_decomp pixels ow vw how hw hplt
    have hmul : F64.mul (F64.fin ow vw) (F64.fin 9 3) = F64.fin (ow * 9) (vw + 3) :=
      F64.mul_exact ow 9 vw 3 how (by decide)
        (lt_of_le_of_lt (natAbs_le_of_decomp _ _ _ hprod) hp)
    have hoddkd : (ok * od) % 2 = 1 := by rw [Int.mul_emod, hok, hod]; rfl
    have heq : (ow * 9) * 2 ^ (vw + 3 + j) = (ok * od) * 2 ^ (vk + vd) := by
      have : (ow * 9) * 2 ^ (vw + 3 + j) = pixels * 72 * 2 ^ j := by rw [hprod]; ring
      rw [this, h, hkd, hd]
      ring
    obtain ⟨e1, e2⟩ := odd_decomp_unique _ _ _ _ hodd9 hoddkd heq
    have hoklt : ok.natAbs < 2 ^ 53 := lt_of_le_of_lt (natAbs_le_of_decomp _ _ _ hkd) hk
    unfold pointSize
    rw [hpixF, h72, hdpiF]
    have hmul' : F64.mul (F64.fin ow ↑vw) (F64.fin 9 3) = F64.fin (ok * od) (vw + 3) := by
      rw [hmul, e1]
    rw [hmul', F64.div_exact od ok _ _ hod hok hoklt, F64.normal_decomp k ok vk _ hok hkd]
    congr 1
    omega

/-- The same in rational numbers: the computed size denotes exactly `pixels * 72 / dpi`. -/
theorem pointSize_toRat (pixels dpi k : Int) (j : Nat) (hdpi : 0 < dpi)
    (hdlt : dpi.natAbs < 2 ^ 53) (hp : (pixels * 72).natAbs < 2 ^ 53) (hk : k.natAbs < 2 ^ 53)
    (h : pixels * 72 * 2 ^ j = k * dpi) :
    (pointSize pixels dpi).toRat = some ((pixels : ℚ) * 72 / (dpi : ℚ)) := by
  rw [pointSize_exact pixels dpi k j hdpi hdlt hp hk h, F64.toRat_normal]
  have hq : ((pixels : ℚ) * 72) * 2 ^ j = (k : ℚ) * dpi := by exact_mod_cast h
  have hd : (dpi : ℚ) ≠ 0 := by
    have : (0 : ℚ) < dpi := by exact_mod_cast hdpi
    exact ne_of_gt this
  have h2 : ((2 : ℚ) ^ j) ≠ 0 := pow_ne_zero _ (by norm_num)
  congr 1
  rw [zpow_neg, zpow_natCast, eq_div_iff hd]
  have : (k : ℚ) * ((2 : ℚ) ^ j)⁻¹ * dpi = ((k : ℚ) * dpi) * ((2 : ℚ) ^ j)⁻¹ := by ring
  rw [this, ← hq, mul_assoc, mul_inv_cancel₀ h2, mul_one]

/-- C9. For an image header of `width x height` pixels and a positive `dpi`, `AddPage` appends
one page whose size is `(width * 72 / dpi, height * 72 / dpi)` points, computed in `float64` as
the code writes it, and draws the image into the rectangle of that same size at the origin
(0, 0); the pages added before are left as they are, and the size does not depend on them. The
computed size is a finite number, and it is exactly the rational number `pixels * 72 / dpi`
whenever that number is a `float64` (some `k / 2 ^ j` with `k` below `2 ^ 53`). A page of
850 x 1100 pixels at 100 DPI gets 612.0 x 792.0 points. -/
theorem addPage_page_size (env : PdfEnv) (w : PDFWriter)
    (imagePath overlayText position : List Char) (dpi width height : Int)
    (hcfg : env.decodeConfig imagePath = .ok (width, height)) (hdpi : 0 < dpi) :
    (∃ page, (AddPage env w imagePath overlayText position dpi).2.pdf.pages
        = w.pdf.pages ++ [page] ∧
      page.size = { W := pointSize width dpi, H := pointSize height dpi } ∧
      (env.embedImage imagePath = none →
        page.images = [{ path := imagePath, x := F64.ofInt 0, y := F64.ofInt 0,
                         rect := page.size }])) ∧
    pointSize width dpi = F64.div (F64.mul (F64.ofInt width) (F64.ofInt 72)) (F64.ofInt dpi) ∧
    pointSize height dpi = F64.div (F64.mul (F64.ofInt height) (F64.ofInt 72)) (F64.ofInt dpi) ∧
    (∃ m e, pointSize width dpi = F64.fin m e) ∧
    (∃ m e, pointSize height dpi = F64.fin m e) ∧
    (∀ (pixels k : Int) (j : Nat), dpi.natAbs < 2 ^ 53 → (pixels * 72).natAbs < 2 ^ 53 →
      k.natAbs < 2 ^ 53 → pixels * 72 * 2 ^ j = k * dpi →
      (pointSize pixels dpi).toRat = some ((pixels : ℚ) * 72 / (dpi : ℚ))) ∧
    pointSize 850 100 = F64.ofInt 612 ∧ pointSize 1100 100 = F64.ofInt 792 := by
  obtain ⟨page, h1, h2, h3⟩ := AddPage_pages env w imagePath overlayText position dpi width height
    hcfg
  refine ⟨⟨page, h1, h2, fun h => ?_⟩, rfl, rfl, AddPage_size_finite width dpi hdpi,
    AddPage_size_finite height dpi hdpi,
    fun pixels k j hd hp hk h => pointSize_toRat pixels dpi k j hdpi hd hp hk h,
    by decide, by decide⟩
  rw [h3 h, h2]
  rfl

/-- C9 (witness). A first page of 850 x 1100 pixels at 100 DPI: the document has one page of
612 x 792 points, and the width denotes the rational number 850 * 72 / 100. -/
theorem addPage_page_size_witness :
    (AddPage examplePdfEnv (NewPDFWriter examplePdfEnv "/tmp/font.ttf".toList)
        "/tmp/job/page-1.jpg".toList [] "bottom-right".toList 100).2.pdf.pages.map
        (fun page => page.size)
      = [{ W := F64.ofInt 612, H := F64.ofInt 792 }] ∧
    (pointSize 850 100).toRat = some (((850 : Int) : ℚ) * 72 / ((100 : Int) : ℚ)) := by
  obtain ⟨⟨page, h1, h2, _⟩, _, _, _, _, h5, h6, h7⟩ :=
    addPage_page_size examplePdfEnv (NewPDFWriter examplePdfEnv "/tmp/font.ttf".toList)
      "/tmp/job/page-1.jpg".toList [] "bottom-right".toList 100 850 1100 rfl (by decide)
  refine ⟨?_, h5 850 612 0 (by decide) (by decide) (by decide) (by decide)⟩
  rw [h1, List.map_append, List.map_singleton, h2, h6, h7]
  rfl

/-! ## The lock marker -/

/-- C11. Lock acquisition is mutually exclusive. While the marker is held, that is the marker
file exists (whoever created it) or this manager's `locked` flag is set, `Lock` fails with an
already-locked error and changes neither the marker nor the flag. `Lock` succeeds only when
the marker is absent (and the flag clear), and then the marker exists and the flag is set, so
every further `Lock`, by this manager or by any other sharing the path, fails. -/
theorem lock_mutually_exclusive (m : Manager) (d : Disk) :
    (m.locked = true →
      Lock m d = (some "already locked by this instance".toList, m, d)) ∧
    (m.locked = false → d.lockFile = true →
      Lock m d = (some "counter is locked by another instance or process".toList, m, d)) ∧
    ((m.locked = true ∨ d.lockFile = true) → (Lock m d).1 ≠ none ∧ (Lock m d).2 = (m, d)) ∧
    ((Lock m d).1 = none →
      m.locked = false ∧ d.lockFile = false ∧
      (Lock m d).2.1.locked = true ∧ (Lock m d).2.2 = { d with lockFile := true } ∧
      (∀ m2 : Manager, (Lock m2 (Lock m d).2.2).1 ≠ none ∧
        (Lock m2 (Lock m d).2.2).2 = (m2, (Lock m d).2.2))) := by
  have h1 : m.locked = true →
      Lock m d = (some "already locked by this instance".toList, m, d) := by
    intro h; simp [Lock, h]
  have h2 : m.locked = false → d.lockFile = true →
      Lock m d = (some "counter is locked by another instance or process".toList, m, d) := by
    intro h h'; simp [Lock, h, h']
  have h3 : ∀ (m' : Manager) (d' : Disk), (m'.locked = true ∨ d'.lockFile = true) →
      (Lock m' d').1 ≠ none ∧ (Lock m' d').2 = (m', d') := by
    intro m' d' h
    by_cases hl : m'.locked = true
    · simp [Lock, hl]
    · have hl' : m'.locked = false := by simpa using hl
      rcases h with h | h
      · exact absurd h hl
      · simp [Lock, hl', h]
  refine ⟨h1, h2, h3 m d, ?_⟩
  intro hok
  have hm : m.locked = false := by
    by_contra hc
    have hc' : m.locked = true := by simpa using hc
    exact (h3 m d (Or.inl hc')).1 hok
  have hd : d.lockFile = false := by
    by_contra hc
    have hc' : d.lockFile = true := by simpa using hc
    exact (h3 m d (Or.inr hc')).1 hok
  cases hf : d.lockFault with
  | some err => simp [Lock, hm, hd, hf] at hok
  | none =>
    have e : Lock m d = (none, { m with locked := true }, { d with lockFile := true }) := by
      simp [Lock, hm, hd, hf]
    rw [e]
    refine ⟨hm, hd, rfl, by simp [hf], ?_⟩
    intro m2
    exact h3 m2 _ (Or.inr rfl)

/-- C11 (witness). On a disk without marker a fresh manager takes the lock; the same manager
and a second fresh manager then both fail. -/
theorem lock_mutually_exclusive_witness :
    (Lock NewManager (Disk.mk none none none false none)).1 = none ∧
    (Lock NewManager (Lock NewManager (Disk.mk none none none false none)).2.2).1 ≠ none ∧
    (Lock (Lock NewManager (Disk.mk none none none false none)).2.1
        (Lock NewManager (Disk.mk none none none false none)).2.2).1
      = some "already locked by this instance".toList :=
  ⟨by decide,
   (((lock_mutually_exclusive NewManager (Disk.mk none none none false none)).2.2.2
      (by decide)).2.2.2.2 NewManager).1,
   by rw [(lock_mutually_exclusive (Lock NewManager (Disk.mk none none none false none)).2.1
      (Lock NewManager (Disk.mk none none none false none)).2.2).1 (by decide)]⟩

/-- C12. `Unlock` on a manager whose `locked` flag is clear, which is the case when no lock
was ever taken and after every `ForceUnlock` that returned success, is a no-op and not an
error: it returns success and leaves the marker file (present or absent) and the flag as they
are. `ForceUnlock` succeeds whether or not the marker exists: a missing marker counts as
success and leaves the disk as it is, an existing marker is removed; it clears the flag. (The
only error is the one the operating system reports on removing an existing marker.) -/
theorem unlock_noop_forceUnlock_ok (m : Manager) (d : Disk) :
    (m.locked = false → Unlock m d = (none, m, d)) ∧
    Unlock NewManager d = (none, NewManager, d) ∧
    ((ForceUnlock m d).1 = none →
      (ForceUnlock m d).2.1.locked = false ∧ (ForceUnlock m d).2.2.lockFile = false ∧
      Unlock (ForceUnlock m d).2.1 (ForceUnlock m d).2.2
        = (none, (ForceUnlock m d).2.1, (ForceUnlock m d).2.2) ∧
      (∀ d2 : Disk, Unlock (ForceUnlock m d).2.1 d2 = (none, (ForceUnlock m d).2.1, d2))) ∧
    (d.lockFile = false → ForceUnlock m d = (none, { m with locked := false }, d)) ∧
    (d.lockFile = true → d.lockFault = none →
      ForceUnlock m d = (none, { m with locked := false }, { d with lockFile := false })) ∧
    ((ForceUnlock m d).1 = none ↔ (d.lockFile = false ∨ d.lockFault = none)) := by
  have hU : ∀ (m' : Manager) (d' : Disk), m'.locked = false → Unlock m' d' = (none, m', d') := by
    intro m' d' h
    simp [Unlock, h]
  have hF1 : d.lockFile = false → ForceUnlock m d = (none, { m with locked := false }, d) := by
    intro h; simp [ForceUnlock, h]
  have hF2 : d.lockFile = true → d.lockFault = none →
      ForceUnlock m d = (none, { m with locked := false }, { d with lockFile := false }) := by
    intro h h'; simp [ForceUnlock, h, h']
  have hiff : (ForceUnlock m d).1 = none ↔ (d.lockFile = false ∨ d.lockFault = none) := by
    by_cases h : d.lockFile = true
    · cases hf : d.lockFault with
      | none => simp [ForceUnlock, h, hf]
      | some err => simp [ForceUnlock, h, hf]
    · have h' : d.lockFile = false := by simpa using h
      simp [ForceUnlock, h']
  refine ⟨hU m d, hU NewManager d rfl, ?_, hF1, hF2, hiff⟩
  intro hok
  have hlocked : (ForceUnlock m d).2.1.locked = false := by
    rcases hiff.mp hok with h | h
    · rw [hF1 h]
    · by_cases hl : d.lockFile = true
      · rw [hF2 hl h]
      · rw [hF1 (by simpa using hl)]
  have hfile : (ForceUnlock m d).2.2.lockFile = false := by
    rcases hiff.mp hok with h | h
    · rw [hF1 h]; exact h
    · by_cases hl : d.lockFile = true
      · rw [hF2 hl h]
      · rw [hF1 (by simpa using hl)]; simpa using hl
  exact ⟨hlocked, hfile, hU _ _ hlocked, fun d2 => hU _ d2 hlocked⟩

/-- C12 (witness). A manager holding the lock: after `ForceUnlock` the marker is gone and
`Unlock` is a no-op; on a disk without marker `ForceUnlock` succeeds as well. -/
theorem unlock_noop_forceUnlock_ok_witness :
    ForceUnlock (Manager.mk true) (Disk.mk none none none true none)
      = (none, Manager.mk false, Disk.mk none none none false none) ∧
    Unlock (Manager.mk false) (Disk.mk none none none false none)
      = (none, Manager.mk false, Disk.mk none none none false none) ∧
    ForceUnlock NewManager (Disk.mk none none none false none)
      = (none, Manager.mk false, Disk.mk none none none false none) :=
  ⟨(unlock_noop_forceUnlock_ok (Manager.mk true) (Disk.mk none none none true none)).2.2.2.2.1
      rfl rfl,
   (unlock_noop_forceUnlock_ok (Manager.mk false) (Disk.mk none none none false none)).1 rfl,
   (unlock_noop_forceUnlock_ok NewManager (Disk.mk none none none false none)).2.2.2.1 rfl⟩

/-! ## The counter operations of the application -/

theorem saveState_ok_iff (d : Disk) (state : CounterState) :
    (saveState d state).1 = none ↔ d.writeFault = none := by
  cases h : d.writeFault <;> simp [saveState, h]

/-- C13. For every `v >= 1` (a Go `int`), once `App.SetNumberOverride(v)` has succeeded the
state file holds `v - 1`, `App.GetCurrentNumber()` returns exactly `v`, reading only, and the
next `GetNext` on the counter returns that same `v` (the file being readable). For every
`v < 1` `SetNumberOverride` returns an error and leaves the counter files as they are. -/
theorem setNumberOverride_current (a : App) (d : Disk) (v : Int) :
    (∀ m, a.counter = some m → 1 ≤ v → v ≤ maxInt → d.readFault = none →
      (a.SetNumberOverride d v).1 = none →
      (a.SetNumberOverride d v).2
        = { d with stateFile := some (jsonMarshalIndent { Current := v - 1 }) } ∧
      a.GetCurrentNumber (a.SetNumberOverride d v).2 = .ok v ∧
      (GetNext m (a.SetNumberOverride d v).2).1 = .ok v) ∧
    (v < 1 → (a.SetNumberOverride d v).1 ≠ none ∧ (a.SetNumberOverride d v).2 = d) := by
  constructor
  · intro m hc h1 h2 hr hok
    have hmin : minInt ≤ v - 1 := by unfold minInt; omega
    have hw1 : wrapInt (v - 1) = v - 1 := wrapInt_of_range _ hmin (by omega)
    have hnot : ¬ v < 1 := by omega
    have hset : a.SetNumberOverride d v = saveState d { Current := v - 1 } := by
      simp only [App.SetNumberOverride, hc, hnot, if_false, SetOverride, hw1]
    rw [hset] at hok ⊢
    have hw : d.writeFault = none := (saveState_ok_iff d _).mp hok
    have hsave : saveState d { Current := v - 1 }
        = (none, { d with stateFile := some (jsonMarshalIndent { Current := v - 1 }) }) := by
      simp only [saveState, hw]
    rw [hsave]
    have hload := loadState_saved d (v - 1) hr hmin (by omega)
    have hw2 : wrapInt (v - 1 + 1) = v := by
      rw [show v - 1 + 1 = v by ring]
      exact wrapInt_of_range v (by unfold minInt; omega) h2
    refine ⟨rfl, ?_, ?_⟩
    · simp only [App.GetCurrentNumber, hc, GetCurrent, hload, hw2]
    · rw [GetNext_ok m _ (v - 1) hload hw, hw2]
  · intro hlt
    cases hc : a.counter with
    | none => simp [App.SetNumberOverride, hc]
    | some m => simp [App.SetNumberOverride, hc, hlt]

/-- C13 (witness). The test's case: on first use `SetNumberOverride(100)` succeeds and
`GetCurrentNumber()` returns 100, as does the next `GetNext`. -/
theorem setNumberOverride_current_witness :
    exampleApp.GetCurrentNumber
        (exampleApp.SetNumberOverride
          (Disk.mk none none none false none) 100).2 = .ok 100 ∧
    (GetNext NewManager
        (exampleApp.SetNumberOverride
          (Disk.mk none none none false none) 100).2).1 = .ok 100 :=
  ((setNumberOverride_current exampleApp
      (Disk.mk none none none false none) 100).1 NewManager rfl (by decide) (by decide) rfl
      (by decide)).2

/-! ## The overlay text -/

theorem overlayPosition_default (position : List Char) (widthPt heightPt textWidth : F64)
    (h1 : position ≠ "top-left".toList) (h2 : position ≠ "top-right".toList)
    (h3 : position ≠ "bottom-left".toList) :
    overlayPosition position widthPt heightPt textWidth
      = (F64.sub (F64.sub widthPt textWidth) (F64.ofInt 1), F64.sub heightPt (F64.ofInt 1)) := by
  unfold overlayPosition
  simp only [h1, h2, h3, if_false]

/-- What `AddPage` does with a non-empty overlay text once the image is drawn, the font is
loaded and the text is measured. -/
theorem AddPage_overlay (env : PdfEnv) (w : PDFWriter) (imagePath overlayText position : List Char)
    (dpi width height : Int) (t : F64)
    (hcfg : env.decodeConfig imagePath = .ok (width, height))
    (hemb : env.embedImage imagePath = none) (hne : overlayText ≠ [])
    (hfont : "Inter".toList ∈ w.pdf.fonts) (hm : env.measure overlayText = .ok t) :
    (AddPage env w imagePath overlayText position dpi).2.pdf.curFont
      = some ("Inter".toList, 12) ∧
    (AddPage env w imagePath overlayText position dpi).2.pdf.textColor = (255, 0, 0) ∧
    (env.cell overlayText = none →
      (AddPage env w imagePath overlayText position dpi).1 = none ∧
      ∃ page, (AddPage env w imagePath overlayText position dpi).2.pdf.pages
          = w.pdf.pages ++ [page] ∧
        page.texts = [TextDraw.mk overlayText
          (overlayPosition position (pointSize width dpi) (pointSize height dpi) t).1
          (overlayPosition position (pointSize width dpi) (pointSize height dpi) t).2
          "Inter".toList 12 (255, 0, 0)]) ∧
    (∀ err, env.cell overlayText = some err →
      (AddPage env w imagePath overlayText position dpi).1 = some err ∧
      ∃ page, (AddPage env w imagePath overlayText position dpi).2.pdf.pages
          = w.pdf.pages ++ [page] ∧ page.texts = []) := by
  have hfonts : ∀ (pdf : GoPdf) (f : Page → Page), (pdf.onLastPage f).fonts = pdf.fonts := by
    intro pdf f
    unfold GoPdf.onLastPage
    split <;> rfl
  have hx : ∀ (pdf : GoPdf) (f : Page → Page), (pdf.onLastPage f).curFont = pdf.curFont ∧
      (pdf.onLastPage f).textColor = pdf.textColor := by
    intro pdf f
    unfold GoPdf.onLastPage
    split <;> exact ⟨rfl, rfl⟩
  have hp := fun (pdf : GoPdf) (f : Page → Page) (pg : Page)
      (h : pdf.pages = w.pdf.pages ++ [pg]) => onLastPage_pages pdf f w.pdf.pages pg h
  unfold AddPage
  simp only [hcfg, hemb, ne_eq, hne, not_false_eq_true, if_true, hfonts, hfont, not_true_eq_false,
    if_false, hm]
  cases hc : env.cell overlayText with
  | some err =>
    refine ⟨rfl, rfl, fun h => by simp at h, fun e he => ?_⟩
    simp only [Option.some.injEq] at he
    subst he
    exact ⟨rfl, _, hp _ _ _ rfl, rfl⟩
  | none =>
    refine ⟨(hx _ _).1, (hx _ _).2,
      fun _ => ⟨rfl, _, hp _ _ _ (hp _ _ _ rfl), rfl⟩, fun e he => by simp at he⟩

/-- With an empty overlay text `AddPage` selects no font and places no text, whatever else
happens. -/
theorem AddPage_no_overlay (env : PdfEnv) (w : PDFWriter) (imagePath position : List Char)
    (dpi : Int) :
    (AddPage env w imagePath [] position dpi).2.pdf.curFont = w.pdf.curFont ∧
    (AddPage env w imagePath [] position dpi).2.pdf.textColor = w.pdf.textColor ∧
    ∃ added, (AddPage env w imagePath [] position dpi).2.pdf.pages = w.pdf.pages ++ added ∧
      ∀ page ∈ added, page.texts = [] := by
  have hx : ∀ (pdf : GoPdf) (f : Page → Page), (pdf.onLastPage f).curFont = pdf.curFont ∧
      (pdf.onLastPage f).textColor = pdf.textColor := by
    intro pdf f
    unfold GoPdf.onLastPage
    split <;> exact ⟨rfl, rfl⟩
  have hp := fun (pdf : GoPdf) (f : Page → Page) (pg : Page)
      (h : pdf.pages = w.pdf.pages ++ [pg]) => onLastPage_pages pdf f w.pdf.pages pg h
  unfold AddPage
  cases hcfg : env.decodeConfig imagePath with
  | error err => exact ⟨rfl, rfl, [], by simp, by simp⟩
  | ok wh =>
    obtain ⟨width, height⟩ := wh
    simp only
    cases hemb : env.embedImage imagePath with
    | some err => exact ⟨rfl, rfl, [_], rfl, by simp⟩
    | none =>
      simp only [ne_eq, not_true_eq_false, if_false]
      exact ⟨(hx _ _).1, (hx _ _).2, [_], hp _ _ _ rfl, by simp⟩

/-- C14. For a non-empty overlay text of measured width `t`, `AddPage` adds a page of size
`W x H` and, once the image is drawn, the font loaded and `Cell` has succeeded, places on it
exactly one text: the overlay text, in the loaded font at 12 points in red, at the position of
the corner: top-left `(1, 13)`, top-right `(W - t - 1, 13)`, bottom-left `(1, H - 1)`,
bottom-right `(W - t - 1, H - 1)`, in `float64` arithmetic; every corner value that is none of
these four names, the empty string included, gives the bottom-right position. When `Cell`
fails its error is returned and the page carries no text. With an empty overlay text no font
is selected and no text is placed. -/
theorem addPage_overlay_corner (env : PdfEnv) (w : PDFWriter)
    (imagePath overlayText position : List Char) (dpi width height : Int) (t : F64)
    (hcfg : env.decodeConfig imagePath = .ok (width, height))
    (hemb : env.embedImage imagePath = none) (hne : overlayText ≠ [])
    (hfont : "Inter".toList ∈ w.pdf.fonts) (hm : env.measure overlayText = .ok t) :
    ((AddPage env w imagePath overlayText position dpi).2.pdf.curFont
        = some ("Inter".toList, 12) ∧
      (env.cell overlayText = none →
        (AddPage env w imagePath overlayText position dpi).1 = none ∧
        ∃ page, (AddPage env w imagePath overlayText position dpi).2.pdf.pages
            = w.pdf.pages ++ [page] ∧
          page.size = { W := pointSize width dpi, H := pointSize height dpi } ∧
          page.texts = [TextDraw.mk overlayText
            (overlayPosition position (pointSize width dpi) (pointSize height dpi) t).1
            (overlayPosition position (pointSize width dpi) (pointSize height dpi) t).2
            "Inter".toList 12 (255, 0, 0)]) ∧
      (∀ err, env.cell overlayText = some err →
        (AddPage env w imagePath overlayText position dpi).1 = some err ∧
        ∃ page, (AddPage env w imagePath overlayText position dpi).2.pdf.pages
            = w.pdf.pages ++ [page] ∧ page.texts = [])) ∧
    (∀ W H : F64,
      overlayPosition "top-left".toList W H t = (F64.ofInt 1, F64.ofInt 13) ∧
      overlayPosition "top-right".toList W H t
        = (F64.sub (F64.sub W t) (F64.ofInt 1), F64.ofInt 13) ∧
      overlayPosition "bottom-left".toList W H t = (F64.ofInt 1, F64.sub H (F64.ofInt 1)) ∧
      overlayPosition "bottom-right".toList W H t
        = (F64.sub (F64.sub W t) (F64.ofInt 1), F64.sub H (F64.ofInt 1)) ∧
      overlayPosition [] W H t = overlayPosition "bottom-right".toList W H t ∧
      (∀ corner, corner ≠ "top-left".toList → corner ≠ "top-right".toList →
        corner ≠ "bottom-left".toList →
        overlayPosition corner W H t = overlayPosition "bottom-right".toList W H t)) ∧
    ((AddPage env w imagePath [] position dpi).1 = none ∧
      (AddPage env w imagePath [] position dpi).2.pdf.curFont = w.pdf.curFont ∧
      ∃ added, (AddPage env w imagePath [] position dpi).2.pdf.pages = w.pdf.pages ++ added ∧
        ∀ page ∈ added, page.texts = []) := by
  have h13 : F64.add (F64.ofInt 1) (F64.ofInt 12) = F64.ofInt 13 := by decide
  have hbr : ∀ W H : F64, overlayPosition "bottom-right".toList W H t
      = (F64.sub (F64.sub W t) (F64.ofInt 1), F64.sub H (F64.ofInt 1)) :=
    fun W H => overlayPosition_default _ W H t (by decide) (by decide) (by decide)
  obtain ⟨a1, _, a3, a4⟩ := AddPage_overlay env w imagePath overlayText position dpi width
    height t hcfg hemb hne hfont hm
  obtain ⟨pg, p1, p2, _⟩ := AddPage_pages env w imagePath overlayText position dpi width height
    hcfg
  obtain ⟨b1, _, b3⟩ := AddPage_no_overlay env w imagePath position dpi
  refine ⟨⟨a1, fun hc => ?_, a4⟩, fun W H => ⟨?_, ?_, ?_, hbr W H, ?_, ?_⟩, ?_, b1, b3⟩
  · obtain ⟨r1, page, r2, r3⟩ := a3 hc
    refine ⟨r1, page, r2, ?_, r3⟩
    have : [page] = [pg] := List.append_cancel_left (r2.symm.trans p1)
    simp only [List.cons.injEq, and_true] at this
    rw [this, p2]
  · simp only [overlayPosition, if_true, h13]
  · have : "top-right".toList ≠ "top-left".toList := by decide
    simp only [overlayPosition, this, if_false, if_true, h13]
  · have h1 : "bottom-left".toList ≠ "top-left".toList := by decide
    have h2 : "bottom-left".toList ≠ "top-right".toList := by decide
    simp only [overlayPosition, h1, h2, if_false, if_true]
  · rw [hbr]
    exact overlayPosition_default _ W H t (by decide) (by decide) (by decide)
  · intro corner h1 h2 h3
    rw [hbr]
    exact overlayPosition_default corner W H t h1 h2 h3
  · unfold AddPage
    simp [hcfg, hemb]

/-- C14 (witness). On a first page of 850 x 1100 pixels at 100 DPI (612 x 792 points) the text
`AR0001`, 40 points wide, is the one text of the page: at (571, 791) for `bottom-right` and
for the unknown corner `middle`, at (1, 13) for `top-left`. -/
theorem addPage_overlay_corner_witness :
    (AddPage examplePdfEnv (NewPDFWriter examplePdfEnv "/tmp/font.ttf".toList)
        "/tmp/job/page-1.jpg".toList "AR0001".toList "bottom-right".toList 100).2.pdf.pages.map
        (fun page => page.texts)
      = [[TextDraw.mk "AR0001".toList (F64.ofInt 571) (F64.ofInt 791) "Inter".toList 12
          (255, 0, 0)]] ∧
    (AddPage examplePdfEnv (NewPDFWriter examplePdfEnv "/tmp/font.ttf".toList)
        "/tmp/job/page-1.jpg".toList "AR0001".toList "middle".toList 100).2.pdf.pages.map
        (fun page => page.texts)
      = [[TextDraw.mk "AR0001".toList (F64.ofInt 571) (F64.ofInt 791) "Inter".toList 12
          (255, 0, 0)]] ∧
    (AddPage examplePdfEnv (NewPDFWriter examplePdfEnv "/tmp/font.ttf".toList)
        "/tmp/job/page-1.jpg".toList "AR0001".toList "top-left".toList 100).2.pdf.pages.map
        (fun page => page.texts)
      = [[TextDraw.mk "AR0001".toList (F64.ofInt 1) (F64.ofInt 13) "Inter".toList 12
          (255, 0, 0)]] := by
  obtain ⟨⟨_, h1, _⟩, _, _⟩ :=
    addPage_overlay_corner examplePdfEnv (NewPDFWriter examplePdfEnv "/tmp/font.ttf".toList)
      "/tmp/job/page-1.jpg".toList "AR0001".toList "bottom-right".toList 100 850 1100
      (F64.ofInt 40) rfl rfl (by decide) (by decide) rfl
  obtain ⟨⟨_, h2, _⟩, _, _⟩ :=
    addPage_overlay_corner examplePdfEnv (NewPDFWriter examplePdfEnv "/tmp/font.ttf".toList)
      "/tmp/job/page-1.jpg".toList "AR0001".toList "middle".toList 100 850 1100
      (F64.ofInt 40) rfl rfl (by decide) (by decide) rfl
  obtain ⟨⟨_, h3, _⟩, _, _⟩ :=
    addPage_overlay_corner examplePdfEnv (NewPDFWriter examplePdfEnv "/tmp/font.ttf".toList)
      "/tmp/job/page-1.jpg".toList "AR0001".toList "top-left".toList 100 850 1100
      (F64.ofInt 40) rfl rfl (by decide) (by decide) rfl
  obtain ⟨_, pg1, e1, _, t1⟩ := h1 rfl
  obtain ⟨_, pg2, e2, _, t2⟩ := h2 rfl
  obtain ⟨_, pg3, e3, _, t3⟩ := h3 rfl
  rw [e1, e2, e3]
  simp only [List.map_append, List.map_cons, List.map_nil, t1, t2, t3]
  decide

/-! ## The output path of `ProcessFile` -/

theorem filepathClean_ne_nil (path : List Char) : filepathClean path ≠ [] := by
  unfold filepathClean
  cases path with
  | nil => simp
  | cons c cs =>
    simp only
    split_ifs <;> simp_all

theorem takeWhile_no_slash (l : List Char) : '/' ∉ l.takeWhile (fun c => c != '/') := by
  intro h
  have := List.mem_takeWhile_imp h
  simp at this

theorem lastElement_no_slash (path : List Char) : '/' ∉ lastElement path := by
  unfold lastElement
  intro h
  exact takeWhile_no_slash _ (List.mem_reverse.mp h)

/-- A base name holds a separator only when it is the root. -/
theorem filepathBase_slash (path : List Char) (h : '/' ∈ filepathBase path) :
    filepathBase path = ['/'] := by
  unfold filepathBase at h ⊢
  split_ifs at h ⊢ with h1 h2
  · simp at h
  · rfl
  · exact absurd h (lastElement_no_slash _)

theorem App.fileSuffix_ne_nil (a : App) (suffixOverride : List Char) :
    a.fileSuffix suffixOverride ≠ [] := by
  unfold App.fileSuffix
  cases a.config <;> simp only <;> split_ifs <;> simp_all

/-- The extension is the end of the base name, starts with the only dot it holds, and is
empty when there is no dot. -/
theorem filepathExt_spec (path : List Char) :
    filepathExt path = [] ∨
    ∃ name tail, filepathBase path = name ++ '.' :: tail ∧ filepathExt path = '.' :: tail ∧
      '.' ∉ tail := by
  unfold filepathExt
  by_cases hdot : '.' ∈ path.reverse.takeWhile (fun c => c != '/')
  · right
    simp only [hdot, if_true]
    -- the reversed last element splits at its first dot
    obtain ⟨pre, post, hsplit, hpre⟩ : ∃ pre post,
        path.reverse.takeWhile (fun c => c != '/') = pre ++ '.' :: post ∧ '.' ∉ pre := by
      generalize path.reverse.takeWhile (fun c => c != '/') = seg at hdot
      induction seg with
      | nil => simp at hdot
      | cons c cs ih =>
        by_cases hc : c = '.'
        · exact ⟨[], cs, by simp [hc], by simp⟩
        · have : '.' ∈ cs := by
            rcases List.mem_cons.mp hdot with h | h
            · exact absurd h.symm hc
            · exact h
          obtain ⟨pre, post, e, hp⟩ := ih this
          refine ⟨c :: pre, post, by simp [e], ?_⟩
          simp only [List.mem_cons, not_or]
          exact ⟨fun h => hc h.symm, hp⟩
    have htw : (path.reverse.takeWhile (fun c => c != '/')).takeWhile (fun c => c != '.') = pre := by
      rw [hsplit]
      have hall : ∀ c ∈ pre, (c != '.') = true := by
        intro c hc
        simp only [bne_iff_ne, ne_eq]
        intro e; subst e; exact hpre hc
      clear hsplit hdot
      induction pre with
      | nil => simp [List.takeWhile]
      | cons x xs ih =>
        have hx := hall x (List.mem_cons_self _ _)
        have := ih (fun h => hpre (List.mem_cons_of_mem _ h))
          (fun c hc => hall c (List.mem_cons_of_mem _ hc))
        simp [List.takeWhile, hx, this]
    have hlast : lastElement path = post.reverse ++ '.' :: pre.reverse := by
      unfold lastElement
      rw [hsplit]
      simp
    -- the path does not end in a separator, so its base name is its last element
    have hne : path ≠ [] := by
      intro h; subst h; simp at hdot
    have hstrip : stripTrailingSlashes path = path := by
      obtain ⟨c, r, e⟩ := List.exists_cons_of_ne_nil (List.reverse_ne_nil_iff.mpr hne)
      have hc : c ≠ '/' := by
        intro hc
        rw [e, hc] at hsplit
        simp [List.takeWhile] at hsplit
      unfold stripTrailingSlashes
      have hb : (c == '/') = false := by simp [hc]
      rw [e]
      simp only [List.dropWhile, hb]
      rw [← e, List.reverse_reverse]
    have hbase : filepathBase path = post.reverse ++ '.' :: pre.reverse := by
      unfold filepathBase
      rw [hstrip, hlast]
      simp [hne]
    refine ⟨post.reverse, pre.reverse, hbase, ?_, ?_⟩
    · rw [htw]; simp
    · intro h; exact hpre (List.mem_reverse.mp h)
  · left
    simp only [hdot, if_false]

/-- The file name computed for the output is never the base name of the input. -/
theorem outputFileName_ne_base (a : App) (inputPath suffixOverride : List Char) :
    a.outputFileName inputPath suffixOverride ≠ filepathBase inputPath := by
  have hs := a.fileSuffix_ne_nil suffixOverride
  unfold App.outputFileName
  simp only
  rcases filepathExt_spec inputPath with he | ⟨name, tail, hb, he, hdot⟩
  · rw [he]
    simp only [List.length_nil, Nat.sub_zero, List.take_length]
    intro h
    have := congrArg List.length h
    simp only [List.length_append] at this
    have : (a.fileSuffix suffixOverride).length = 0 := by
      have h4 : ".pdf".toList.length = 4 := rfl
      omega
    exact hs (List.length_eq_zero.mp this)
  · rw [he, hb]
    have htake : (name ++ '.' :: tail).take ((name ++ '.' :: tail).length - ('.' :: tail).length)
        = name := by
      have : (name ++ '.' :: tail).length - ('.' :: tail).length = name.length := by
        simp
      rw [this, List.take_left]
    rw [htake]
    intro h
    rw [List.append_assoc] at h
    have h2 := List.append_cancel_left h
    obtain ⟨c, s, e⟩ := List.exists_cons_of_ne_nil hs
    rw [e] at h2
    simp only [List.cons_append, List.cons.injEq] at h2
    have : '.' ∈ tail := by
      rw [← h2.2]
      simp
    exact hdot this

/-- The base name of a cleaned path whose last element is a real name is that name. -/
theorem filepathBase_clean_last (path n : List Char) (hpath : path ≠ [])
    (hsplit : ∃ xs, splitSlash path = xs ++ [n]) (hne : n ≠ []) (h : '/' ∉ n)
    (hdot : n ≠ ['.']) (hdd : n ≠ ['.', '.']) :
    filepathBase (filepathClean path) = n := by
  obtain ⟨p, hp, hq⟩ := filepathClean_end path n hpath hsplit hne hdot hdd
  rw [hp]
  exact filepathBase_of_end p n hne h hq

theorem length_ge_of_pdf (s : List Char) : 4 ≤ (s ++ ".pdf".toList).length := by
  simp only [List.length_append]
  have : ".pdf".toList.length = 4 := rfl
  omega

/-- Without overwrite mode, and with a suffix that holds no separator, the output path is not
the input path. -/
theorem outputPath_ne_input (a : App) (inputPath suffixOverride : List Char)
    (hs : '/' ∉ a.fileSuffix suffixOverride) :
    a.outputPath inputPath suffixOverride false ≠ inputPath := by
  have hne := outputFileName_ne_base a inputPath suffixOverride
  have hdir : filepathDir inputPath ≠ [] := filepathClean_ne_nil _
  have hpdf : '/' ∉ ".pdf".toList := by decide
  intro heq
  have hbase := congrArg filepathBase heq
  simp only [App.outputPath, Bool.false_eq_true, if_false] at hbase
  by_cases hsl : '/' ∈ filepathBase inputPath
  · -- the input is the root: the file name is a separator followed by the suffix
    have hroot := filepathBase_slash inputPath hsl
    have hext : filepathExt inputPath = [] := by
      rcases filepathExt_spec inputPath with he | ⟨name, tail, hb, _, _⟩
      · exact he
      · rw [hroot] at hb
        have : '.' ∈ ['/'] := by rw [hb]; simp
        simp at this
    have hname : a.outputFileName inputPath suffixOverride
        = '/' :: (a.fileSuffix suffixOverride ++ ".pdf".toList) := by
      simp [App.outputFileName, hroot, hext]
    have hrest : '/' ∉ a.fileSuffix suffixOverride ++ ".pdf".toList := by
      simp only [List.mem_append, not_or]
      exact ⟨hs, hpdf⟩
    have hlen := length_ge_of_pdf (a.fileSuffix suffixOverride)
    have hb2 : filepathBase (filepathJoin (filepathDir inputPath)
        (a.outputFileName inputPath suffixOverride))
        = a.fileSuffix suffixOverride ++ ".pdf".toList := by
      unfold filepathJoin
      simp only [ne_eq, hdir, not_false_eq_true, if_true]
      rw [hname]
      apply filepathBase_clean_last
      · simp
      · refine ⟨splitSlash (filepathDir inputPath ++ ['/']), ?_⟩
        have : filepathDir inputPath ++ '/' :: '/' :: (a.fileSuffix suffixOverride ++ ".pdf".toList)
            = (filepathDir inputPath ++ ['/']) ++
              '/' :: (a.fileSuffix suffixOverride ++ ".pdf".toList) := by simp
        rw [this, splitSlash_append, splitSlash_of_no_slash _ hrest]
      · intro h; rw [h] at hlen; simp at hlen
      · exact hrest
      · intro h; rw [h] at hlen; simp at hlen
      · intro h; rw [h] at hlen; simp at hlen
    rw [hb2, hroot] at hbase
    rw [hbase] at hlen
    simp at hlen
  · -- the base name holds no separator, so neither does the file name
    have hname : '/' ∉ a.outputFileName inputPath suffixOverride := by
      unfold App.outputFileName
      simp only [List.mem_append, not_or]
      refine ⟨⟨fun h => hsl (List.mem_of_mem_take h), hs⟩, hpdf⟩
    have hlen : 4 ≤ (a.outputFileName inputPath suffixOverride).length := by
      unfold App.outputFileName
      simp only [List.append_assoc]
      have := length_ge_of_pdf (a.fileSuffix suffixOverride)
      simp only [List.length_append] at this ⊢
      omega
    have hb2 := filepathBase_join (filepathDir inputPath)
      (a.outputFileName inputPath suffixOverride)
      (by intro h; rw [h] at hlen; simp at hlen) hname
      (by intro h; rw [h] at hlen; simp at hlen)
      (by intro h; rw [h] at hlen; simp at hlen)
    rw [hb2] at hbase
    exact hne hbase

/-- The documents written after `Process`: those written before, and on success the document
at the job's output path. -/
theorem Process_saved (env : ProcEnv) (p : Pipeline) (w : World) (opts : ProcessOptions) :
    (Process env p w opts).2.saved = w.saved ∨
    ∃ doc, (Process env p w opts).2.saved = (opts.OutputPath, doc) :: w.saved := by
  unfold Process
  simp only [World.record]
  repeat' split
  all_goals first
    | exact Or.inl rfl
    | exact Or.inr ⟨_, rfl⟩

/-- The file name of the output is `name + suffix + ".pdf"`, where `name` is the base name of
the input without its extension. -/
theorem outputFileName_spec (a : App) (inputPath suffixOverride : List Char) :
    ∃ name, filepathBase inputPath = name ++ filepathExt inputPath ∧
      a.outputFileName inputPath suffixOverride
        = name ++ a.fileSuffix suffixOverride ++ ".pdf".toList := by
  unfold App.outputFileName
  simp only
  rcases filepathExt_spec inputPath with he | ⟨name, tail, hb, he, _⟩
  · refine ⟨filepathBase inputPath, by simp [he], ?_⟩
    simp [he]
  · refine ⟨name, by rw [hb, he], ?_⟩
    rw [he, hb]
    have : (name ++ '.' :: tail).length - ('.' :: tail).length = name.length := by simp
    rw [this, List.take_left]

theorem App.fileSuffix_cases (a : App) (suffixOverride : List Char) :
    (suffixOverride ≠ [] → a.fileSuffix suffixOverride = suffixOverride) ∧
    (suffixOverride = [] → ∀ cfg, a.config = some cfg → cfg.FileSuffix ≠ [] →
      a.fileSuffix suffixOverride = cfg.FileSuffix) ∧
    (suffixOverride = [] → a.config = none → a.fileSuffix suffixOverride = "_frozen".toList) ∧
    (suffixOverride = [] → (∀ cfg, a.config = some cfg → cfg.FileSuffix = []) →
      a.fileSuffix suffixOverride = "_frozen".toList) := by
  unfold App.fileSuffix
  refine ⟨?_, ?_, ?_, ?_⟩
  · intro h
    cases a.config <;> simp [h]
  · intro h cfg hc hne
    simp [hc, h, hne]
  · intro h hc
    simp [hc, h]
  · intro h hall
    cases hc : a.config with
    | none => simp [h]
    | some cfg => simp [h, hall cfg hc]

/-- C15. An empty input path is rejected with an error, the pipeline not being called and the
state left as it is. For a non-empty input path `ProcessFile` runs the pipeline on the output
path it determines. In overwrite mode that is exactly the input path. Otherwise it is the
directory of the input joined with the file name `name + suffix + ".pdf"` (`name` the base
name of the input without its extension; `suffix` the override, else the configured suffix,
else `_frozen`, never empty), which differs from the base name of the input; so for a suffix
without separator the output path is not the input path, and nothing is written to the input
path. -/
theorem processFile_output_path (env : ProcEnv) (a : App) (w : World) (inputPath : List Char)
    (overlayOverride : Bool) (prefixOverride positionOverride suffixOverride : List Char)
    (overwriteMode : Bool) (compressionLevel : List Char) :
    (inputPath = [] →
      a.ProcessFile env w inputPath overlayOverride prefixOverride positionOverride
          suffixOverride overwriteMode compressionLevel
        = (.error "no input file selected".toList, w)) ∧
    (inputPath ≠ [] →
      (a.ProcessFile env w inputPath overlayOverride prefixOverride positionOverride
          suffixOverride overwriteMode compressionLevel).2
        = (Process env a.pipeline w (a.jobOptions inputPath overlayOverride prefixOverride
            positionOverride suffixOverride overwriteMode compressionLevel)).2 ∧
      (a.jobOptions inputPath overlayOverride prefixOverride positionOverride suffixOverride
          overwriteMode compressionLevel).OutputPath
        = a.outputPath inputPath suffixOverride overwriteMode ∧
      (∀ out, (a.ProcessFile env w inputPath overlayOverride prefixOverride positionOverride
          suffixOverride overwriteMode compressionLevel).1 = .ok out →
        out = a.outputPath inputPath suffixOverride overwriteMode) ∧
      (overwriteMode = true → a.outputPath inputPath suffixOverride overwriteMode = inputPath) ∧
      (overwriteMode = false →
        a.outputPath inputPath suffixOverride overwriteMode
          = filepathJoin (filepathDir inputPath) (a.outputFileName inputPath suffixOverride) ∧
        (∃ name, filepathBase inputPath = name ++ filepathExt inputPath ∧
          a.outputFileName inputPath suffixOverride
            = name ++ a.fileSuffix suffixOverride ++ ".pdf".toList) ∧
        a.fileSuffix suffixOverride ≠ [] ∧
        (suffixOverride ≠ [] → a.fileSuffix suffixOverride = suffixOverride) ∧
        (suffixOverride = [] → ∀ cfg, a.config = some cfg → cfg.FileSuffix ≠ [] →
          a.fileSuffix suffixOverride = cfg.FileSuffix) ∧
        (suffixOverride = [] → (∀ cfg, a.config = some cfg → cfg.FileSuffix = []) →
          a.fileSuffix suffixOverride = "_frozen".toList) ∧
        a.outputFileName inputPath suffixOverride ≠ filepathBase inputPath ∧
        ('/' ∉ a.fileSuffix suffixOverride →
          a.outputPath inputPath suffixOverride overwriteMode ≠ inputPath ∧
          ∀ doc, (inputPath, doc) ∈ (a.ProcessFile env w inputPath overlayOverride
              prefixOverride positionOverride suffixOverride overwriteMode
              compressionLevel).2.saved → (inputPath, doc) ∈ w.saved))) := by
  constructor
  · intro h
    simp [App.ProcessFile, h]
  · intro hne
    have hworld : (a.ProcessFile env w inputPath overlayOverride prefixOverride positionOverride
          suffixOverride overwriteMode compressionLevel).2
        = (Process env a.pipeline w (a.jobOptions inputPath overlayOverride prefixOverride
            positionOverride suffixOverride overwriteMode compressionLevel)).2 := by
      unfold App.ProcessFile
      simp only [hne, if_false]
      split <;> simp_all
    refine ⟨hworld, rfl, ?_, ?_, ?_⟩
    · intro out hout
      unfold App.ProcessFile at hout
      simp only [hne, if_false] at hout
      split at hout
      · simp at hout
      · simp only [Except.ok.injEq] at hout
        rw [← hout]
        rfl
    · intro h
      simp [App.outputPath, h]
    · intro h
      obtain ⟨c1, c2, _, c4⟩ := a.fileSuffix_cases suffixOverride
      refine ⟨by simp [App.outputPath, h], outputFileName_spec a inputPath suffixOverride,
        a.fileSuffix_ne_nil suffixOverride, c1, c2, c4,
        outputFileName_ne_base a inputPath suffixOverride, ?_⟩
      intro hs
      have hout := outputPath_ne_input a inputPath suffixOverride hs
      rw [h] at hworld
      rw [h]
      refine ⟨hout, ?_⟩
      intro doc hdoc
      rw [hworld] at hdoc
      rcases Process_saved env a.pipeline w (a.jobOptions inputPath overlayOverride
        prefixOverride positionOverride suffixOverride false compressionLevel)
        with hsv | ⟨d2, hsv⟩
      · rw [hsv] at hdoc; exact hdoc
      · rw [hsv] at hdoc
        rcases List.mem_cons.mp hdoc with e | e
        · exfalso
          have : inputPath = a.outputPath inputPath suffixOverride false :=
            congrArg Prod.fst e
          exact hout this.symm
        · exact e

/-- C15 (witness). With the default configuration `/docs/in.pdf` is written to
`/docs/in_frozen.pdf`, in overwrite mode to `/docs/in.pdf` itself, and an empty path is
refused. -/
theorem processFile_output_path_witness :
    exampleApp.outputPath "/docs/in.pdf".toList [] false = "/docs/in_frozen.pdf".toList ∧
    exampleApp.outputPath "/docs/in.pdf".toList [] false ≠ "/docs/in.pdf".toList ∧
    exampleApp.outputPath "/docs/in.pdf".toList [] true = "/docs/in.pdf".toList ∧
    exampleApp.ProcessFile exampleProcEnv freshWorld [] true [] [] [] false []
      = (.error "no input file selected".toList, freshWorld) :=
  ⟨by decide,
   (((processFile_output_path exampleProcEnv exampleApp freshWorld "/docs/in.pdf".toList true
      [] [] [] false []).2 (by decide)).2.2.2.2 rfl).2.2.2.2.2.2.2 (by decide) |>.1,
   ((processFile_output_path exampleProcEnv exampleApp freshWorld "/docs/in.pdf".toList true
      [] [] [] true []).2 (by decide)).2.2.2.1 rfl,
   (processFile_output_path exampleProcEnv exampleApp freshWorld [] true [] [] [] false []).1
      rfl⟩

end PdfFreezer
